import Mathlib

/-!
# Sudoku generator and solver (`src/utils/sudoku.js`)

A shallow embedding of the solver, the puzzle generator and the difficulty
metric, followed by the theorems about them.

Conventions of the embedding.

* A board is a list of cells, `none` for an empty cell (`null`) and `some d`
  for the digit `d` (0..8 internally).
* `Math.random` is an oracle `rng : Nat → Nat` read at a running index `k`;
  every function that draws returns the next index.  The theorems quantify
  over all oracles, that is over every outcome of the random draws.
* A function whose source loop may not return yields an `Option`; `none`
  means "no result" within the step budgets: `fuel` bounds the iterations of
  the search loop of `solvenext`, `tries` the draws of each rejection loop of
  `shuffleArray`.
* The frame stack is a list whose head is the top of the stack (the last
  element of the JavaScript array).
-/

namespace Sudoku

/-- A board: cells in row-major order, `none` for `null`. -/
abbrev Board := List (Option Nat)

/-- A guess `{ pos, num }`: put digit `num` at position `pos`. -/
structure Cand where
  pos : Nat
  num : Nat
deriving DecidableEq

/-- An entry `{ pos, num }` of a puzzle under construction; `num` is read
from a board cell and so may be `null`. -/
structure Entry where
  pos : Nat
  num : Option Nat
deriving DecidableEq

/-- A search frame `{ guesses, count, board }`. -/
structure Frame where
  guesses : List Cand
  count : Nat
  board : Board
deriving DecidableEq

/-- The pair `{ allowed, needed }` returned by `figurebits`. -/
structure Bits where
  allowed : List Nat
  needed : List Nat
deriving DecidableEq

/-- The mutable locals of one pass of `deduce`, with the oracle index. -/
structure Scan where
  board : Board
  stuck : Bool
  guess : Option (List Cand)
  count : Nat
  k : Nat
deriving DecidableEq

/-- What `deduce` leaves behind: its return value (`none` for `null`,
`some []` for the empty array), the mutated board and the oracle index. -/
structure Deduced where
  guesses : Option (List Cand)
  board : Board
  k : Nat
deriving DecidableEq

/-- The tuple `{ state, answer }` of `solveboard` and `solvenext`, with the
oracle index. -/
structure Solved where
  state : List Frame
  answer : Option Board
  k : Nat
deriving DecidableEq

/-- The tuple `{ guess, count }` of `pickbetter`, with the oracle index. -/
structure Picked where
  guess : Option (List Cand)
  count : Nat
  k : Nat
deriving DecidableEq

/-! ## Geometry and bit masks -/

def posfor (x y axis : Nat) : Nat :=
  if axis = 0 then x * 9 + y
  else if axis = 1 then y * 9 + x
  else [0, 3, 6, 27, 30, 33, 54, 57, 60].getD x 0 + [0, 1, 2, 9, 10, 11, 18, 19, 20].getD y 0

def axisfor (pos axis : Nat) : Nat :=
  if axis = 0 then pos / 9
  else if axis = 1 then pos % 9
  else pos / 27 * 3 + pos / 3 % 3

def axismissing (board : Board) (x axis : Nat) : Nat :=
  511 ^^^ (List.range 9).foldl (fun bits y =>
    match board[posfor x y axis]?.getD none with
    | none => bits
    | some e => bits ||| (1 <<< e)) 0

def listbits (bits : Nat) : List Nat :=
  (List.range 9).filter (fun y => bits &&& (1 <<< y) != 0)

def figurebits (board : Board) : Bits :=
  (List.range 3).foldl (fun acc axis =>
    (List.range 9).foldl (fun acc x =>
      { needed := acc.needed ++ [axismissing board x axis]
        allowed := (List.range 9).foldl (fun al y =>
          al.set (posfor x y axis) (al[posfor x y axis]?.getD 0 &&& axismissing board x axis))
          acc.allowed }) acc)
    { allowed := board.map (fun val => if val = none then 511 else 0), needed := [] }

/-! ## Randomness -/

/-- The source's `randomInt(max)`, `Math.floor(Math.random() * (max + 1))`:
a draw from `0..max`. -/
def randomInt (max : Nat) (rng : Nat → Nat) (k : Nat) : Nat :=
  rng k % (max + 1)

/-- The rejection loop `let j = i; while (j == i) j = Math.floor(Math.random() * n)`
of `shuffleArray`: it draws until the index drawn differs from `i`, and yields
that index.  The budget `tries` bounds the draws; `none` when all of them gave
`i` (the source loop does not end while the draws keep giving `i`). -/
def otherIndex (rng : Nat → Nat) (n i : Nat) : Nat → Nat → Option (Nat × Nat)
  | 0, _ => none
  | tries + 1, k =>
    if rng k % n = i then otherIndex rng n i tries (k + 1) else some (rng k % n, k + 1)

/-- The swap `contents = a[i]; a[i] = a[j]; a[j] = contents`. -/
def swap {α : Type} (xs : List α) (i j : Nat) : List α :=
  match xs[i]?, xs[j]? with
  | some a, some b => (xs.set i b).set j a
  | _, _ => xs

/-- The `for` loop of `shuffleArray` over the indices still to visit. -/
def shuffleLoop {α : Type} (tries : Nat) (rng : Nat → Nat) :
    List Nat → List α → Nat → Option (List α × Nat)
  | [], xs, k => some (xs, k)
  | i :: rest, xs, k =>
    match otherIndex rng xs.length i tries k with
    | none => none
    | some (j, k1) => shuffleLoop tries rng rest (swap xs i j) k1

/-- The source's `shuffleArray`: each position in turn is exchanged with
another position, found by the rejection loop.  On a one-element array no
draw is accepted, so there is no result. -/
def shuffleArray {α : Type} (original : List α) (tries : Nat) (rng : Nat → Nat) (k : Nat) :
    Option (List α × Nat) :=
  shuffleLoop tries rng (List.range original.length) original k

def pickbetter (b : Option (List Cand)) (c : Nat) (t : List Cand) (rng : Nat → Nat)
    (k : Nat) : Picked :=
  match b with
  | none => { guess := some t, count := 1, k := k }
  | some bl =>
    if t.length < bl.length then { guess := some t, count := 1, k := k }
    else if t.length > bl.length then { guess := some bl, count := c, k := k }
    else if randomInt c rng k = 0 then { guess := some t, count := c + 1, k := k + 1 }
    else { guess := some bl, count := c + 1, k := k + 1 }

/-! ## The deduction engine -/

/-- A `for` loop over `l` threading the locals of a pass; `.error s` is an
early `return []` taken in state `s`. -/
def scanLoop {α : Type} (f : Scan → α → Except Scan Scan) : List α → Scan → Except Scan Scan
  | [], s => .ok s
  | a :: rest, s =>
    match f s a with
    | .error e => .error e
    | .ok s1 => scanLoop f rest s1

/-- The body of the first loop of `deduce` (direct conflicts) at `pos`. -/
def nakedStep (allowed : List Nat) (rng : Nat → Nat) (s : Scan) (pos : Nat) :
    Except Scan Scan :=
  if s.board[pos]?.getD none = none then
    match listbits (allowed[pos]?.getD 0) with
    | [] => .error s
    | [n] => .ok { s with board := s.board.set pos (some n), stuck := false }
    | numbers =>
      if s.stuck = true then
        let t := numbers.map (fun val => Cand.mk pos val)
        let r := pickbetter s.guess s.count t rng s.k
        .ok { s with guess := r.guess, count := r.count, k := r.k }
      else .ok s
  else .ok s

/-- The `spots` of group `x` on `axis` for the digit with mask `bit`. -/
def spotsfor (allowed : List Nat) (x axis bit : Nat) : List Nat :=
  ((List.range 9).map (fun y => posfor x y axis)).filter
    (fun pos => allowed[pos]?.getD 0 &&& bit != 0)

/-- The body of the innermost loop over `numbers` in the second part of
`deduce` (elimination of other locations). -/
def hiddenStep (allowed : List Nat) (rng : Nat → Nat) (x axis : Nat) (s : Scan) (n : Nat) :
    Except Scan Scan :=
  match spotsfor allowed x axis (1 <<< n) with
  | [] => .error s
  | [p] => .ok { s with board := s.board.set p (some n), stuck := false }
  | spots =>
    if s.stuck = true then
      let t := spots.map (fun val => Cand.mk val n)
      let r := pickbetter s.guess s.count t rng s.k
      .ok { s with guess := r.guess, count := r.count, k := r.k }
    else .ok s

/-- The second part of a pass: the loops over `axis`, `x` and `numbers`. -/
def hiddenScan (bits : Bits) (rng : Nat → Nat) (s : Scan) : Except Scan Scan :=
  scanLoop (fun s axis =>
    scanLoop (fun s x =>
      scanLoop (hiddenStep bits.allowed rng x axis)
        (listbits (bits.needed[axis * 9 + x]?.getD 0)) s)
      (List.range 9) s)
    (List.range 3) s

/-- One pass of the `while (true)` loop of `deduce`, up to the final test of
`stuck`; `.error s` is `return []`. -/
def deducePass (rng : Nat → Nat) (board : Board) (k : Nat) : Except Scan Scan :=
  let bits := figurebits board
  match scanLoop (nakedStep bits.allowed rng) (List.range 81)
      { board := board, stuck := true, guess := none, count := 0, k := k } with
  | .error e => .error e
  | .ok s => hiddenScan (if s.stuck = false then figurebits s.board else bits) rng s

/-- The `while (true)` loop of `deduce`, bounded by a number of passes. -/
def deduceLoop (tries : Nat) (rng : Nat → Nat) : Nat → Board → Nat → Option Deduced
  | 0, _, _ => none
  | fuel + 1, board, k =>
    match deducePass rng board k with
    | .error e => some { guesses := some [], board := e.board, k := e.k }
    | .ok s =>
      if s.stuck = true then
        match s.guess with
        | none => some { guesses := none, board := s.board, k := s.k }
        | some g =>
          match shuffleArray g tries rng s.k with
          | none => none
          | some (g1, k1) => some { guesses := some g1, board := s.board, k := k1 }
      else deduceLoop tries rng fuel s.board s.k

/-- The source's `deduce`.  Every pass that does not return fills a cell, so
on an 81-cell board 82 passes are never used up (`deduceLoop_stable`). -/
def deduce (board : Board) (tries : Nat) (rng : Nat → Nat) (k : Nat) : Option Deduced :=
  deduceLoop tries rng 82 board k

/-! ## The search controller -/

/-- The source's `solvenext`; `fuel` bounds the iterations of its `while`. -/
def solvenext (tries : Nat) (rng : Nat → Nat) : Nat → List Frame → Nat → Option Solved
  | 0, _, _ => none
  | _ + 1, [], k => some { state := [], answer := none, k := k }
  | fuel + 1, tuple1 :: remembered, k =>
    match tuple1.guesses[tuple1.count]? with
    | none => solvenext tries rng fuel remembered k
    | some tuple2 =>
      let remembered1 := { tuple1 with count := tuple1.count + 1 } :: remembered
      match deduce (tuple1.board.set tuple2.pos (some tuple2.num)) tries rng k with
      | none => none
      | some r =>
        match r.guesses with
        | none => some { state := remembered1, answer := some r.board, k := r.k }
        | some guesses =>
          solvenext tries rng fuel
            ({ guesses := guesses, count := 0, board := r.board } :: remembered1) r.k

def solveboard (fuel : Nat) (original : Board) (tries : Nat) (rng : Nat → Nat) (k : Nat) :
    Option Solved :=
  match deduce original tries rng k with
  | none => none
  | some r =>
    match r.guesses with
    | none => some { state := [], answer := some r.board, k := r.k }
    | some guesses =>
      solvenext tries rng fuel [{ guesses := guesses, count := 0, board := r.board }] r.k

/-- The source's `solvepuzzle`: the answer of `solveboard` (and the oracle
index); `none` when the search has no result within `fuel`. -/
def solvepuzzle (fuel : Nat) (board : Board) (tries : Nat) (rng : Nat → Nat) (k : Nat) :
    Option (Option Board × Nat) :=
  (solveboard fuel board tries rng k).map (fun r => (r.answer, r.k))

def boardmatches (b1 b2 : Board) : Bool :=
  (List.range 81).all (fun i => b1[i]?.getD none == b2[i]?.getD none)

/-- The source's `checkpuzzle`; the optional reference `board` is `none` when
the argument is left out. -/
def checkpuzzle (fuel : Nat) (puzzle : Board) (board : Option Board) (tries : Nat)
    (rng : Nat → Nat) (k : Nat) : Option (Int × Nat) :=
  match solveboard fuel puzzle tries rng k with
  | none => none
  | some tuple1 =>
    match tuple1.answer with
    | none => some (-1, tuple1.k)
    | some answer =>
      if (match board with
          | none => false
          | some b => boardmatches b answer == false) then some (-1, tuple1.k)
      else
        match solvenext tries rng fuel tuple1.state tuple1.k with
        | none => none
        | some tuple2 =>
          match tuple2.answer with
          | some _ => some (-1, tuple2.k)
          | none => some ((tuple1.state.length : Int), tuple2.k)

/-- The JavaScript quotient `a / b` of two non-negative integers below `2^53`,
`b ≠ 0`: the IEEE-754 double nearest to the exact quotient, ties to the even
significand, given by its exact value.  The quotient is scaled by `2^t` into
`[2^52, 2^53)`, rounded to an integer, and scaled back.  (`a / 0`, `NaN` or
`Infinity` in the source, is not modelled: it is given as 0.) -/
def jsDiv (a b : Nat) : ℚ :=
  if a = 0 ∨ b = 0 then 0
  else
    let t := ((List.range 107).find? (fun t => b * 2 ^ 52 ≤ a * 2 ^ t)).getD 0
    let q := a * 2 ^ t / b
    let r := a * 2 ^ t % b
    let m := if 2 * r < b then q else if b < 2 * r then q + 1 else if q % 2 = 0 then q else q + 1
    (m : ℚ) / (2 ^ t : ℚ)

/-- The `for` loop of `ratepuzzle`, with `i` samples still to run. -/
def ratepuzzleLoop (fuel : Nat) (puzzle : Board) (samples : Nat) (tries : Nat)
    (rng : Nat → Nat) : Nat → Nat → Nat → Option (ℚ × Nat)
  | 0, total, k => some (jsDiv total samples, k)
  | i + 1, total, k =>
    match solveboard fuel puzzle tries rng k with
    | none => none
    | some tuple =>
      match tuple.answer with
      | none => some (-1, tuple.k)
      | some _ =>
        ratepuzzleLoop fuel puzzle samples tries rng i (total + tuple.state.length) tuple.k

/-- The source's `ratepuzzle`; the number it returns is given by its exact
value. -/
def ratepuzzle (fuel : Nat) (puzzle : Board) (samples : Nat) (tries : Nat) (rng : Nat → Nat)
    (k : Nat) : Option (ℚ × Nat) :=
  ratepuzzleLoop fuel puzzle samples tries rng samples 0 k

/-! ## The puzzle generator -/

def makeArray {α : Type} (length : Nat) (value : α) : List α :=
  List.replicate length value

def boardforentries (entries : List Entry) : Board :=
  entries.foldl (fun board item => board.set item.pos item.num) (makeArray 81 none)

/-- The source's `removeElement(array, from)` with `to` left out and
`from ≥ 0`: cut the array at `from` and push its slice after `from`. -/
def removeElement {α : Type} (array : List α) (from_ : Nat) : List α :=
  array.take from_ ++ array.drop (from_ + 1)

/-- The first loop of `makepuzzle`, over the positions still to visit. -/
def makepuzzleFill (board : Board) (tries : Nat) (rng : Nat → Nat) :
    List Nat → List Entry → Board → Nat → Option (List Entry × Board × Nat)
  | [], puzzle, deduced, k => some (puzzle, deduced, k)
  | pos :: rest, puzzle, deduced, k =>
    if deduced[pos]?.getD none = none then
      match deduce (deduced.set pos (board[pos]?.getD none)) tries rng k with
      | none => none
      | some r =>
        makepuzzleFill board tries rng rest
          (puzzle ++ [{ pos := pos, num := board[pos]?.getD none }]) r.board r.k
    else makepuzzleFill board tries rng rest puzzle deduced k

/-- The second loop of `makepuzzle`: `i` runs from `n - 1` down to `0`.  The
index `i` is below the length of `puzzle` throughout, so the first branch is
not taken. -/
def makepuzzleShrink (fuel : Nat) (board : Board) (tries : Nat) (rng : Nat → Nat) :
    Nat → List Entry → Nat → Option (List Entry × Nat)
  | 0, puzzle, k => some (puzzle, k)
  | i + 1, puzzle, k =>
    match puzzle[i]? with
    | none => none
    | some e =>
      match checkpuzzle fuel (boardforentries (removeElement puzzle i)) (some board) tries rng
          k with
      | none => none
      | some (rating, k1) =>
        if rating = -1 then
          makepuzzleShrink fuel board tries rng i (removeElement puzzle i ++ [e]) k1
        else makepuzzleShrink fuel board tries rng i (removeElement puzzle i) k1

def makepuzzle (fuel : Nat) (board : Board) (tries : Nat) (rng : Nat → Nat) (k : Nat) :
    Option (Board × Nat) :=
  match shuffleArray (List.range 81) tries rng k with
  | none => none
  | some (order, k1) =>
    match makepuzzleFill board tries rng order [] (makeArray 81 none) k1 with
    | none => none
    | some (puzzle, _, k2) =>
      match shuffleArray puzzle tries rng k2 with
      | none => none
      | some (puzzle1, k3) =>
        match makepuzzleShrink fuel board tries rng puzzle1.length puzzle1 k3 with
        | none => none
        | some (puzzle2, k4) => some (boardforentries puzzle2, k4)

/-! ## Specification vocabulary -/

/-- The input domain of the claims: 81 cells, each empty or a digit 0..8. -/
def WellFormed (b : Board) : Prop :=
  b.length = 81 ∧ ∀ c ∈ b, ∀ d ∈ c, d < 9

/-- A full valid grid: 81 digits 0..8, no empty cell, and in every row, column
and box (group `x` of `axis` 0, 1, 2) each digit sits in exactly one cell. -/
def ValidGrid (g : Board) : Prop :=
  g.length = 81 ∧ (∀ p < 81, ∃ d < 9, g[p]?.getD none = some d) ∧
    ∀ axis < 3, ∀ x < 9, ∀ d < 9,
      ((List.range 9).filter (fun y => g[posfor x y axis]?.getD none = some d)).length = 1

/-- Board `g` holds the same digit as `b` wherever `b` is not empty. -/
def Agrees (b g : Board) : Prop :=
  ∀ p < 81, b[p]?.getD none = none ∨ g[p]?.getD none = b[p]?.getD none

/-- Grid `g` is a valid completion of `b`. -/
def Completion (b g : Board) : Prop :=
  ValidGrid g ∧ Agrees b g

instance (b : Board) : Decidable (WellFormed b) := by
  unfold WellFormed; infer_instance

instance (g : Board) : Decidable (ValidGrid g) := by
  unfold ValidGrid; infer_instance

instance (b g : Board) : Decidable (Agrees b g) := by
  unfold Agrees; infer_instance

instance (b g : Board) : Decidable (Completion b g) := by
  unfold Completion; infer_instance

/-- The draws let every rejection loop of `shuffleArray` end within `tries`
draws: from every index `k` on, for every array length `n ≥ 2` and position
`i`, one of the next `tries` draws selects an index other than `i`. -/
def FairWithin (rng : Nat → Nat) (tries : Nat) : Prop :=
  ∀ k n i, 2 ≤ n → ∃ j < tries, rng (k + j) % n ≠ i

/-! ## Vocabulary of the proofs -/

/-- Candidate `c` holds in grid `g`: the cell at `c.pos` is the digit `c.num`. -/
def Holds (g : Board) (c : Cand) : Prop :=
  g[c.pos]?.getD none = some c.num

/-- No valid grid satisfies both candidates. -/
def Exclusive (c c' : Cand) : Prop :=
  ∀ S, ValidGrid S → ¬ (Holds S c ∧ Holds S c')

/-- A sound set of alternatives for board `b`: between 2 and 9 candidates on
empty cells of `b`, every valid completion of `b` satisfies one of them and no
valid grid satisfies two. -/
def GoodGuess (b : Board) (g : List Cand) : Prop :=
  2 ≤ g.length ∧ g.length ≤ 9 ∧
    (∀ c ∈ g, c.pos < 81 ∧ c.num < 9 ∧ b[c.pos]?.getD none = none) ∧
    (∀ S, Completion b S → ∃ c ∈ g, Holds S c) ∧ g.Pairwise Exclusive

/-- The number of empty cells of a board. -/
def emptyCount (b : Board) : Nat :=
  b.count none

/-- A property of the result of a loop: `P` of the state it ends in, `E` of
the state in which it returned early. -/
def Outcome (P E : Scan → Prop) : Except Scan Scan → Prop
  | .ok s => P s
  | .error e => E e

/-- The invariant of a pass of `deduce` that started on board `b0`, while the
masks in use were computed from board `bb`. -/
structure PassInv (b0 bb : Board) (s : Scan) : Prop where
  wf : WellFormed s.board
  ext : Agrees bb s.board
  still : s.stuck = true → s.board = b0 ∧ bb = b0
  moved : s.stuck = false → ∃ p : Nat, b0[p]?.getD none = none ∧ s.board[p]?.getD none ≠ none
  guess : ∀ g, s.guess = some g → GoodGuess b0 g
  sound : ∀ S, Completion b0 S → Agrees s.board S

/-- What holds when a pass that started on `b0` returns `[]` in state `e`. -/
def PassErr (b0 : Board) (e : Scan) : Prop :=
  WellFormed e.board ∧ Agrees b0 e.board ∧ ∀ S, ¬ Completion b0 S

/-- The pass has neither placed a digit nor met an ambiguous set so far. -/
def Idle (s : Scan) : Prop :=
  s.stuck = true ∧ s.guess = none

/-- What `deduce` guarantees about its result `r` on board `b`: the board it
leaves agrees with `b`, keeps every valid completion of `b`, is a valid grid
when `null` is returned; `[]` is returned only when `b` has no valid
completion, and a non-empty result is a sound set of alternatives. -/
structure DeduceSpec (b : Board) (r : Deduced) : Prop where
  wf : WellFormed r.board
  ext : Agrees b r.board
  sound : ∀ S, Completion b S → Agrees r.board S ∧ r.guesses ≠ some []
  solved : r.guesses = none → ValidGrid r.board
  stuck : ∀ g, r.guesses = some g → g ≠ [] → GoodGuess r.board g

/-- The invariant of a frame of a search that started on board `orig`. -/
structure FrameOK (orig : Board) (f : Frame) : Prop where
  wf : WellFormed f.board
  ext : Agrees orig f.board
  good : f.guesses = [] ∨ GoodGuess f.board f.guesses

/-- Every frame of the stack satisfies the frame invariant. -/
def StackOK (orig : Board) (st : List Frame) : Prop :=
  ∀ f ∈ st, FrameOK orig f

/-- Grid `S` is still within reach of the search: some frame's board agrees
with `S` and one of its untried candidates holds in `S`. -/
def Covered (S : Board) (st : List Frame) : Prop :=
  ∃ f ∈ st, Agrees f.board S ∧ ∃ i c, f.count ≤ i ∧ f.guesses[i]? = some c ∧ Holds S c

/-- Board `B` lies on the branch frame `f` is currently exploring: the
candidate tried last holds in `B`. -/
def OnBranch (f : Frame) (B : Board) : Prop :=
  1 ≤ f.count ∧ ∃ c, f.guesses[f.count - 1]? = some c ∧ Holds B c

/-- Every frame's current branch leads to the boards of the frames above. -/
def Chain (st : List Frame) : Prop :=
  st.Pairwise (fun u f => OnBranch f u.board)

/-- Grid `A` is out of reach of the search: each frame's board disagrees
with `A` or none of its untried candidates holds in `A`. -/
def Excluded (A : Board) (st : List Frame) : Prop :=
  ∀ f ∈ st, ¬ Agrees f.board A ∨ ∀ i c, f.count ≤ i → f.guesses[i]? = some c → ¬ Holds A c

/-- A bound on the iterations `solvenext` spends on a frame whose board has
`e` empty cells, the frames it spawns included. -/
def frameBound : Nat → Nat
  | 0 => 1
  | e + 1 => 10 + 9 * frameBound e

/-- The iterations still owed by a frame. -/
def frameCost (f : Frame) : Nat :=
  1 + (f.guesses.length - f.count) * (1 + frameBound (emptyCount f.board - 1))

/-- The iterations still owed by a stack. -/
def stackCost (st : List Frame) : Nat :=
  (st.map frameCost).sum

/-- A step budget that suffices for every search on an 81-cell board. -/
def stepBound : Nat :=
  frameBound 81

/-- Two states of a pass that differ only in what the random draws decide:
the same board, the same `stuck`, and a guess in both or in neither. -/
def Sim (s1 s2 : Scan) : Prop :=
  s1.board = s2.board ∧ s1.stuck = s2.stuck ∧ (s1.guess = none ↔ s2.guess = none)

/-- Two loop results of the same kind in similar states. -/
def SimE : Except Scan Scan → Except Scan Scan → Prop
  | .ok a, .ok b => Sim a b
  | .error a, .error b => Sim a b
  | _, _ => False

/-- The stack lengths of `i` successive runs of `solveboard` from oracle
index `k`: the samples `ratepuzzle` averages. -/
def sampleLengths (fuel : Nat) (puzzle : Board) (tries : Nat) (rng : Nat → Nat) :
    Nat → Nat → List Nat
  | 0, _ => []
  | i + 1, k =>
    match solveboard fuel puzzle tries rng k with
    | none => []
    | some tuple => tuple.state.length :: sampleLengths fuel puzzle tries rng i tuple.k

/-! ## Concrete boards and draws used as witnesses -/

/-- A valid grid. -/
def gridA : Board :=
  [2, 5, 4, 6, 7, 0, 3, 1, 8,
   8, 3, 0, 2, 1, 5, 7, 6, 4,
   6, 1, 7, 4, 3, 8, 5, 0, 2,
   1, 6, 8, 5, 4, 7, 0, 2, 3,
   4, 0, 3, 1, 2, 6, 8, 5, 7,
   5, 7, 2, 0, 8, 3, 6, 4, 1,
   7, 4, 5, 3, 0, 1, 2, 8, 6,
   3, 2, 6, 8, 5, 4, 1, 7, 0,
   0, 8, 1, 7, 6, 2, 4, 3, 5].map some

/-- The valid grid `gridA` with the digits 5 and 4 exchanged in the rectangle
of rows 0 and 6, columns 1 and 2. -/
def gridB : Board :=
  (((gridA.set 1 (some 4)).set 2 (some 5)).set 55 (some 5)).set 56 (some 4)

/-- The board `gridA` with the four cells of that rectangle emptied: both
`gridA` and `gridB` complete it. -/
def puzzleTwo : Board :=
  (((gridA.set 1 none).set 2 none).set 55 none).set 56 none

/-- The board `gridA` with the centre cell emptied. -/
def puzzleOne : Board :=
  gridA.set 40 none

/-- A board whose first row holds the digit 0 twice: it has no completion. -/
def clash : Board :=
  ((makeArray 81 none).set 0 (some 0)).set 1 (some 0)

/-- The valid grid `gridA` with the first cell overwritten by the digit 5,
which its row already holds: a full board with a repeated digit. -/
def fullClash : Board :=
  gridA.set 0 (some 5)

/-- The stack `solveboard` returns on `puzzleTwo` under the draws `counter`:
one frame, whose first candidate has been tried. -/
def frameTwo : Frame :=
  { guesses := [{ pos := 1, num := 4 }, { pos := 1, num := 5 }], count := 1, board := puzzleTwo }

/-- A sequence of draws on which every rejection loop ends within two draws. -/
def counter : Nat → Nat :=
  fun i => i + 1

/-- The sequence of draws that are all 0: a rejection loop at position 0 never
ends on it. -/
def zeros : Nat → Nat :=
  fun _ => 0

/-- Equality of the results of a pass is decidable. -/
instance instDecidableEqPass : DecidableEq (Except Scan Scan) := fun a b =>
  match a, b with
  | .ok x, .ok y =>
    if h : x = y then isTrue (congrArg Except.ok h) else isFalse (fun e => h (Except.ok.inj e))
  | .error x, .error y =>
    if h : x = y then isTrue (congrArg Except.error h)
    else isFalse (fun e => h (Except.error.inj e))
  | .ok _, .error _ => isFalse (fun e => Except.noConfusion e)
  | .error _, .ok _ => isFalse (fun e => Except.noConfusion e)

/-- The source's standalone helper `allowed(board, pos)` (unused by the
solver): the digits missing from the row, the column and the box of `pos`. -/
def allowed (board : Board) (pos : Nat) : Nat :=
  (List.range 3).foldl (fun bits axis => bits &&& axismissing board (axisfor pos axis) axis) 511

/-! ## Candidate sets -/

/-- The candidate set of cell `pos` on board `b`, as the first loop of `deduce`
builds it: one candidate per allowed digit of the cell. -/
def cellSet (b : Board) (pos : Nat) : List Cand :=
  (listbits ((figurebits b).allowed[pos]?.getD 0)).map (fun val => Cand.mk pos val)

/-- The candidate set of digit `n` in group `x` of `axis` on board `b`, as the
second part of `deduce` builds it: one candidate per cell of the group that
allows `n`. -/
def groupSet (b : Board) (x axis n : Nat) : List Cand :=
  (spotsfor (figurebits b).allowed x axis (1 <<< n)).map (fun val => Cand.mk val n)

/-- The scan holds a guess of at most `m` candidates. -/
def Within (s : Scan) (m : Nat) : Prop :=
  ∃ g, s.guess = some g ∧ g.length ≤ m

/-- From `s` to `s'` nothing was placed: the pass is still stuck, the board is
the same, and the guess held has not grown. -/
def Kept (s s' : Scan) : Prop :=
  s.stuck = true ∧ s'.board = s.board ∧ ∀ m, Within s m → Within s' m

/-- The list `g` is one of the candidate sets of board `b`: the allowed digits
of an empty cell, or the cells of a group allowing a digit the group needs. -/
def IsSet (b : Board) (g : List Cand) : Prop :=
  (∃ pos < 81, b[pos]?.getD none = none ∧ g = cellSet b pos) ∨
    ∃ axis < 3, ∃ x < 9, ∃ n < 9, (axismissing b x axis).testBit n = true ∧ g = groupSet b x axis n

/-- While the pass is stuck its board is `b` and its guess is a candidate set
of `b`. -/
def Seen (b : Board) (s : Scan) : Prop :=
  s.stuck = true → s.board = b ∧ ∀ g, s.guess = some g → IsSet b g

/-! ## Counting the frames pushed -/

/-- The valid grid `gridA` with fourteen cells emptied: `deduce` places no
digit on it and offers the two candidates of cell 24. -/
def hard1 : Board :=
  [2, 5, 4, 6, 7, 0, 3, 1, 8,
   8, 3, 0, 2, 1, 5, 7, 6, 4,
   6, 1, 7, 4, 3, 8, 9, 9, 2,
   9, 6, 8, 9, 9, 7, 9, 2, 3,
   9, 0, 3, 9, 2, 6, 8, 9, 7,
   5, 7, 2, 9, 9, 3, 6, 9, 1,
   7, 4, 5, 3, 0, 1, 2, 8, 6,
   3, 2, 6, 9, 9, 4, 1, 7, 0,
   0, 8, 1, 7, 6, 2, 4, 3, 5].map (fun d => if d = 9 then none else some d)

/-- The board after the first pass on `hard1` with the digit 0 put in cell 24. -/
def hard1b : Board :=
  [2, 5, 4, 6, 7, 0, 3, 1, 8,
   8, 3, 0, 2, 1, 5, 7, 6, 4,
   6, 1, 7, 4, 3, 8, 0, 5, 2,
   9, 6, 8, 0, 9, 7, 5, 2, 3,
   9, 0, 3, 5, 2, 6, 8, 9, 7,
   5, 7, 2, 9, 9, 3, 6, 0, 1,
   7, 4, 5, 3, 0, 1, 2, 8, 6,
   3, 2, 6, 9, 5, 4, 1, 7, 0,
   0, 8, 1, 7, 6, 2, 4, 3, 5].map (fun d => if d = 9 then none else some d)

/-- The board on which the second pass after that guess stops: box 3 has no
place left for the digit 0. -/
def hard1c : Board :=
  [2, 5, 4, 6, 7, 0, 3, 1, 8,
   8, 3, 0, 2, 1, 5, 7, 6, 4,
   6, 1, 7, 4, 3, 8, 0, 5, 2,
   1, 6, 8, 0, 4, 7, 5, 2, 3,
   1, 0, 3, 5, 2, 6, 8, 4, 7,
   5, 7, 2, 8, 9, 3, 6, 0, 1,
   7, 4, 5, 3, 0, 1, 2, 8, 6,
   3, 2, 6, 8, 5, 4, 1, 7, 0,
   0, 8, 1, 7, 6, 2, 4, 3, 5].map (fun d => if d = 9 then none else some d)

/-- The board after the first pass on `hard1` with the digit 5 put in cell 24. -/
def hard1d : Board :=
  [2, 5, 4, 6, 7, 0, 3, 1, 8,
   8, 3, 0, 2, 1, 5, 7, 6, 4,
   6, 1, 7, 4, 3, 8, 5, 0, 2,
   9, 6, 8, 9, 9, 7, 0, 2, 3,
   9, 0, 3, 9, 2, 6, 8, 5, 7,
   5, 7, 2, 0, 9, 3, 6, 9, 1,
   7, 4, 5, 3, 0, 1, 2, 8, 6,
   3, 2, 6, 9, 9, 4, 1, 7, 0,
   0, 8, 1, 7, 6, 2, 4, 3, 5].map (fun d => if d = 9 then none else some d)

/-- The board after the second pass on `hard1` with the digit 5 put in cell 24. -/
def hard1e : Board :=
  [2, 5, 4, 6, 7, 0, 3, 1, 8,
   8, 3, 0, 2, 1, 5, 7, 6, 4,
   6, 1, 7, 4, 3, 8, 5, 0, 2,
   1, 6, 8, 9, 4, 7, 0, 2, 3,
   4, 0, 3, 1, 2, 6, 8, 5, 7,
   5, 7, 2, 0, 8, 3, 6, 4, 1,
   7, 4, 5, 3, 0, 1, 2, 8, 6,
   3, 2, 6, 8, 9, 4, 1, 7, 0,
   0, 8, 1, 7, 6, 2, 4, 3, 5].map (fun d => if d = 9 then none else some d)

/-- The two candidates of cell 24 of `hard1`. -/
def guessHard : List Cand :=
  [⟨24, 0⟩, ⟨24, 5⟩]

/-- The frame left on the stack when the search on `hard1` ends. -/
def frameHard : Frame :=
  { guesses := guessHard, count := 2, board := hard1 }

/-- The source's `solvenext` with two counters added, which the source does not
keep: `fresh` counts the frames built for a new candidate list
(`remembered.push({ guesses: guesses, count: 0, board: workspace })`, and the
frame of the initial `track`), `again` counts the pushes that put the popped
frame back with its count advanced. -/
def solvenextPushed (tries : Nat) (rng : Nat → Nat) :
    Nat → List Frame → Nat → Nat → Nat → Option (Solved × Nat × Nat)
  | 0, _, _, _, _ => none
  | _ + 1, [], k, fresh, again => some ({ state := [], answer := none, k := k }, fresh, again)
  | fuel + 1, tuple1 :: remembered, k, fresh, again =>
    match tuple1.guesses[tuple1.count]? with
    | none => solvenextPushed tries rng fuel remembered k fresh again
    | some tuple2 =>
      let remembered1 := { tuple1 with count := tuple1.count + 1 } :: remembered
      match deduce (tuple1.board.set tuple2.pos (some tuple2.num)) tries rng k with
      | none => none
      | some r =>
        match r.guesses with
        | none =>
          some ({ state := remembered1, answer := some r.board, k := r.k }, fresh, again + 1)
        | some guesses =>
          solvenextPushed tries rng fuel
            ({ guesses := guesses, count := 0, board := r.board } :: remembered1) r.k
            (fresh + 1) (again + 1)

/-- The source's `solveboard` with the two push counters of
`solvenextPushed`. -/
def solveboardPushed (fuel : Nat) (original : Board) (tries : Nat) (rng : Nat → Nat) (k : Nat) :
    Option (Solved × Nat × Nat) :=
  match deduce original tries rng k with
  | none => none
  | some r =>
    match r.guesses with
    | none => some ({ state := [], answer := some r.board, k := r.k }, 0, 0)
    | some guesses =>
      solvenextPushed tries rng fuel [{ guesses := guesses, count := 0, board := r.board }] r.k
        1 0

/-! # Theorems -/

/-! ## Geometry -/

theorem posfor_lt : ∀ axis < 3, ∀ x < 9, ∀ y < 9, posfor x y axis < 81 := by decide

theorem axisfor_posfor_all : ∀ axis < 3, ∀ x < 9, ∀ y < 9, axisfor (posfor x y axis) axis = x := by
  decide

theorem posfor_onto : ∀ axis < 3, ∀ p < 81, ∃ y < 9, posfor (axisfor p axis) y axis = p := by
  decide

theorem axisfor_lt : ∀ axis < 3, ∀ p < 81, axisfor p axis < 9 := by decide

theorem posfor_inj : ∀ axis < 3, ∀ x < 9, ∀ y < 9, ∀ z < 9,
    posfor x y axis = posfor x z axis → y = z := by decide

/-! ## Bit masks -/

theorem hasbit_eq (m y : Nat) : (m &&& (1 <<< y) != 0) = m.testBit y := by
  rw [Nat.one_shiftLeft, Nat.and_two_pow]
  cases h : m.testBit y <;> simp

theorem testBit_511 (d : Nat) (hd : d < 9) : Nat.testBit 511 d = true := by
  have := Nat.testBit_two_pow_sub_one 9 d
  simpa [hd] using this

theorem mem_listbits (m y : Nat) : y ∈ listbits m ↔ y < 9 ∧ m.testBit y = true := by
  simp [listbits, hasbit_eq]

theorem listbits_length_le (m : Nat) : (listbits m).length ≤ 9 := by
  unfold listbits
  exact (List.length_filter_le _ _).trans (by simp)

theorem listbits_nodup (m : Nat) : (listbits m).Nodup :=
  (List.nodup_range 9).filter _

theorem testBit_orFold (f : Nat → Nat → Nat) (c : Nat → Bool) (d : Nat)
    (hf : ∀ bits y, (f bits y).testBit d = (bits.testBit d || c y)) (l : List Nat) (init : Nat) :
    (l.foldl f init).testBit d = (init.testBit d || l.any c) := by
  induction l generalizing init with
  | nil => simp
  | cons y l ih => rw [List.foldl_cons, ih, hf, List.any_cons, Bool.or_assoc]

theorem testBit_axismissing (board : Board) (x axis d : Nat) (hd : d < 9) :
    (axismissing board x axis).testBit d = true ↔
      ∀ y < 9, board[posfor x y axis]?.getD none ≠ some d := by
  unfold axismissing
  rw [Nat.testBit_xor, testBit_orFold _
    (fun y => board[posfor x y axis]?.getD none == some d) d, testBit_511 d hd]
  · simp
  · intro bits y
    cases h : board[posfor x y axis]?.getD none with
    | none => simp
    | some e =>
      by_cases hed : e = d <;>
        simp [hed, Nat.testBit_or, Nat.one_shiftLeft, Nat.testBit_two_pow]

theorem needed_foldl {α : Type} (f : Bits → α → Bits) (N : α → List Nat)
    (h : ∀ acc a, (f acc a).needed = acc.needed ++ N a) (l : List α) (acc : Bits) :
    (l.foldl f acc).needed = acc.needed ++ l.flatMap N := by
  induction l generalizing acc with
  | nil => simp
  | cons a l ih => simp [List.foldl_cons, ih, h, List.flatMap_cons, List.append_assoc]

theorem allowed_foldl {α : Type} (f : Bits → α → Bits) (C : α → Bool) (p d : Nat)
    (h : ∀ acc a, ((f acc a).allowed[p]?.getD 0).testBit d
      = ((acc.allowed[p]?.getD 0).testBit d && C a)) (l : List α) (acc : Bits) :
    ((l.foldl f acc).allowed[p]?.getD 0).testBit d
      = ((acc.allowed[p]?.getD 0).testBit d && l.all C) := by
  induction l generalizing acc with
  | nil => simp
  | cons a l ih => rw [List.foldl_cons, ih, h, List.all_cons, Bool.and_assoc]

theorem testBit_maskFold {α : Type} (G : List Nat → α → List Nat) (C : α → Bool) (p d : Nat)
    (hG : ∀ al a, ((G al a)[p]?.getD 0).testBit d = ((al[p]?.getD 0).testBit d && C a))
    (l : List α) (al : List Nat) :
    ((l.foldl G al)[p]?.getD 0).testBit d = ((al[p]?.getD 0).testBit d && l.all C) := by
  induction l generalizing al with
  | nil => simp
  | cons a l ih => rw [List.foldl_cons, ih, hG, List.all_cons, Bool.and_assoc]

theorem testBit_maskStep (pos m p d : Nat) (al : List Nat) :
    (((al.set pos (al[pos]?.getD 0 &&& m))[p]?.getD 0).testBit d)
      = ((al[p]?.getD 0).testBit d && (pos != p || m.testBit d)) := by
  by_cases hp : pos = p
  · subst hp
    by_cases hlt : pos < al.length
    · simp [List.getElem?_set, hlt, Nat.testBit_and]
    · have h1 : al[pos]? = none := List.getElem?_eq_none (Nat.le_of_not_lt hlt)
      simp [List.getElem?_set, hlt, h1]
  · simp [List.getElem?_set, hp]

theorem figurebits_needed_eq (board : Board) :
    (figurebits board).needed = (List.range 3).flatMap (fun axis =>
          (List.range 9).flatMap (fun x => [axismissing board x axis])) := by
  unfold figurebits
  rw [needed_foldl _ (fun axis => (List.range 9).flatMap (fun x => [axismissing board x axis]))]
  · simp
  · intro acc axis
    exact needed_foldl _ (fun x => [axismissing board x axis]) (fun _ _ => rfl) _ acc

theorem figurebits_needed (board : Board) :
    ∀ axis < 3, ∀ x < 9, (figurebits board).needed[axis * 9 + x]?.getD 0
      = axismissing board x axis := by
  rw [figurebits_needed_eq]
  intro axis ha x hx
  simp only [List.range_succ, List.range_zero, List.flatMap_append, List.flatMap_cons, List.flatMap_nil, List.nil_append, List.append_nil, List.singleton_append, List.cons_append]
  interval_cases axis <;> interval_cases x <;> rfl

theorem testBit_allowed_raw (board : Board) (p d : Nat) :
    ((figurebits board).allowed[p]?.getD 0).testBit d =
      ((((board.map (fun val => if val = none then 511 else 0))[p]?.getD 0).testBit d) &&
        (List.range 3).all (fun axis => (List.range 9).all (fun x => (List.range 9).all (fun y =>
          (posfor x y axis != p || (axismissing board x axis).testBit d))))) := by
  unfold figurebits
  refine allowed_foldl _ _ p d (fun acc axis => ?_) _ _
  refine allowed_foldl _ _ p d (fun acc x => ?_) _ _
  refine testBit_maskFold _ _ p d (fun al y => ?_) _ _
  exact testBit_maskStep _ _ _ _ _

theorem testBit_allowed (board : Board) (hlen : board.length = 81) (p d : Nat) (hp : p < 81)
    (hd : d < 9) :
    ((figurebits board).allowed[p]?.getD 0).testBit d = true ↔
      board[p]?.getD none = none ∧
        ∀ axis < 3, (axismissing board (axisfor p axis) axis).testBit d = true := by
  rw [testBit_allowed_raw]
  have hcell : (((board.map (fun val => if val = none then 511 else 0))[p]?.getD 0).testBit d) = true
      ↔ board[p]?.getD none = none := by
    have hp' : p < board.length := by omega
    simp only [List.getElem?_map, List.getElem?_eq_getElem hp',
      Option.map_some', Option.getD_some]
    by_cases h : board[p] = none <;> simp [h, testBit_511 d hd]
  simp only [Bool.and_eq_true, hcell, List.all_eq_true, List.mem_range, Bool.or_eq_true,
    bne_iff_ne, ne_eq]
  constructor
  · rintro ⟨h1, h2⟩
    refine ⟨h1, fun axis ha => ?_⟩
    obtain ⟨y, hy, hpy⟩ := posfor_onto axis ha p hp
    rcases h2 axis ha (axisfor p axis) (axisfor_lt axis ha p hp) y hy with h | h
    · exact absurd hpy h
    · exact h
  · rintro ⟨h1, h2⟩
    refine ⟨h1, fun axis ha x hx y hy => ?_⟩
    by_cases hpy : posfor x y axis = p
    · right
      have := axisfor_posfor_all axis ha x hx y hy
      rw [hpy] at this
      rw [← this]
      exact h2 axis ha
    · left; exact hpy

theorem allowed_filled (board : Board) (hlen : board.length = 81) (p : Nat) (hp : p < 81)
    (d : Nat) (hfill : board[p]?.getD none ≠ none) :
    ((figurebits board).allowed[p]?.getD 0).testBit d = false := by
  rw [testBit_allowed_raw]
  have hp' : p < board.length := by omega
  have : (board.map (fun val => if val = none then 511 else 0))[p]?.getD 0 = 0 := by
    simp only [List.getElem?_map, List.getElem?_eq_getElem hp',
      Option.map_some', Option.getD_some] at hfill ⊢
    simp [hfill]
  rw [this]
  simp

/-! ## Boards, agreement and valid grids -/

theorem cell_set_self (b : Board) (p : Nat) (hp : p < b.length) (v : Option Nat) :
    (b.set p v)[p]?.getD none = v := by
  simp [List.getElem?_set, hp]

theorem cell_set_ne (b : Board) (p q : Nat) (hpq : p ≠ q) (v : Option Nat) :
    (b.set p v)[q]?.getD none = b[q]?.getD none := by
  simp [List.getElem?_set, hpq]

theorem Agrees.refl (b : Board) : Agrees b b := fun _ _ => Or.inr rfl

theorem Agrees.trans {a b c : Board} (hab : Agrees a b) (hbc : Agrees b c) : Agrees a c := by
  intro p hp
  rcases hab p hp with h | h
  · exact Or.inl h
  · rcases hbc p hp with h' | h'
    · left; rw [← h, h']
    · right; rw [h', h]

theorem Agrees.empty_of_empty {a b : Board} (hab : Agrees a b) {p : Nat} (hp : p < 81)
    (hb : b[p]?.getD none = none) : a[p]?.getD none = none := by
  rcases hab p hp with h | h
  · exact h
  · rw [← h, hb]

theorem Agrees.set {b : Board} {p : Nat}
    (he : b[p]?.getD none = none) (v : Option Nat) : Agrees b (b.set p v) := by
  intro q hq
  by_cases hpq : p = q
  · subst hpq; exact Or.inl he
  · right; exact cell_set_ne b p q hpq v

theorem Agrees.set_left {b S : Board} (hlen : b.length = 81) (h : Agrees b S) {p n : Nat}
    (hS : S[p]?.getD none = some n) : Agrees (b.set p (some n)) S := by
  intro q hq
  by_cases hpq : p = q
  · subst hpq; right; rw [cell_set_self b p (by omega), hS]
  · rw [cell_set_ne b p q hpq]; exact h q hq

theorem wellFormed_set {b : Board} (h : WellFormed b) (p n : Nat) (hn : n < 9) :
    WellFormed (b.set p (some n)) := by
  refine ⟨by simpa using h.1, fun c hc d hd => ?_⟩
  rcases List.mem_or_eq_of_mem_set hc with hc | hc
  · exact h.2 c hc d hd
  · subst hc
    simp at hd
    omega

theorem wellFormed_cell {b : Board} (h : WellFormed b) {p d : Nat}
    (hc : b[p]?.getD none = some d) : d < 9 := by
  have hp : p < b.length := by
    by_contra hlt
    rw [List.getElem?_eq_none (Nat.le_of_not_lt hlt)] at hc
    simp at hc
  rw [List.getElem?_eq_getElem hp] at hc
  simp at hc
  exact h.2 _ (List.getElem_mem hp) d (by simp [hc])

theorem validGrid_wellFormed {g : Board} (h : ValidGrid g) : WellFormed g := by
  refine ⟨h.1, fun c hc d hd => ?_⟩
  obtain ⟨i, hi, rfl⟩ := List.getElem_of_mem hc
  obtain ⟨e, he, hge⟩ := h.2.1 i (by rw [← h.1]; exact hi)
  rw [List.getElem?_eq_getElem hi] at hge
  simp at hge
  rw [hge] at hd
  simp at hd
  omega

theorem nodup_length_le_one {α : Type} : ∀ (l : List α), l.Nodup → (∀ a ∈ l, ∀ b ∈ l, a = b) →
    l.length ≤ 1
  | [], _, _ => by simp
  | [_], _, _ => by simp
  | a :: b :: l, hn, h => by
    have hab : a = b := h a (by simp) b (by simp)
    subst hab
    simp at hn

theorem valid_inj {g : Board} (h : ValidGrid g) {axis x y z : Nat} (ha : axis < 3) (hx : x < 9)
    (hy : y < 9) (hz : z < 9)
    (heq : g[posfor x y axis]?.getD none = g[posfor x z axis]?.getD none) : y = z := by
  obtain ⟨d, hd, hgd⟩ := h.2.1 _ (posfor_lt axis ha x hx y hy)
  have hlen := h.2.2 axis ha x hx d hd
  obtain ⟨a, hla⟩ := List.length_eq_one.1 hlen
  have hy' : y ∈ (List.range 9).filter (fun y => g[posfor x y axis]?.getD none = some d) := by
    simp [hy, hgd]
  have hz' : z ∈ (List.range 9).filter (fun y => g[posfor x y axis]?.getD none = some d) := by
    simp [hz, ← heq, hgd]
  rw [hla] at hy' hz'
  simp at hy' hz'
  rw [hy', hz']

theorem valid_has {g : Board} (h : ValidGrid g) {axis x d : Nat} (ha : axis < 3) (hx : x < 9)
    (hd : d < 9) : ∃ y < 9, g[posfor x y axis]?.getD none = some d := by
  have hlen := h.2.2 axis ha x hx d hd
  obtain ⟨a, hla⟩ := List.length_eq_one.1 hlen
  have ha' : a ∈ (List.range 9).filter (fun y => g[posfor x y axis]?.getD none = some d) := by
    rw [hla]; simp
  simp only [List.mem_filter, List.mem_range, decide_eq_true_eq] at ha'
  exact ⟨a, ha'.1, ha'.2⟩

/-- Two cells of one group of a valid grid that hold the same digit are the
same cell. -/
theorem valid_same_group {g : Board} (h : ValidGrid g) {axis p q d : Nat} (ha : axis < 3)
    (hp : p < 81) (hq : q < 81) (hax : axisfor p axis = axisfor q axis)
    (hpd : g[p]?.getD none = some d) (hqd : g[q]?.getD none = some d) : p = q := by
  obtain ⟨y, hy, hpy⟩ := posfor_onto axis ha p hp
  obtain ⟨z, hz, hqz⟩ := posfor_onto axis ha q hq
  rw [← hax] at hqz
  have : y = z := valid_inj h ha (axisfor_lt axis ha p hp) hy hz (by rw [hpy, hqz, hpd, hqd])
  rw [← hpy, ← hqz, this]

/-- A digit of a completion is allowed at the empty cell it fills. -/
theorem completion_allowed {b S : Board} (hlen : b.length = 81) (hS : Completion b S)
    {p d : Nat} (hp : p < 81) (he : b[p]?.getD none = none) (hSd : S[p]?.getD none = some d) :
    ((figurebits b).allowed[p]?.getD 0).testBit d = true := by
  have hd : d < 9 := wellFormed_cell (validGrid_wellFormed hS.1) hSd
  rw [testBit_allowed b hlen p d hp hd]
  refine ⟨he, fun axis ha => ?_⟩
  rw [testBit_axismissing _ _ _ _ hd]
  intro y hy hby
  have hq := posfor_lt axis ha _ (axisfor_lt axis ha p hp) y hy
  have hSq : S[posfor (axisfor p axis) y axis]?.getD none = some d := by
    rcases hS.2 _ hq with h | h
    · rw [hby] at h; exact absurd h (by simp)
    · rw [h, hby]
  have : p = posfor (axisfor p axis) y axis :=
    valid_same_group hS.1 ha hp hq
      (by rw [axisfor_posfor_all axis ha _ (axisfor_lt axis ha p hp) y hy]) hSd hSq
  rw [← this, he] at hby
  exact absurd hby (by simp)

theorem mem_spotsfor (al : List Nat) (x axis n q : Nat) :
    q ∈ spotsfor al x axis (1 <<< n) ↔
      (∃ y < 9, posfor x y axis = q) ∧ (al[q]?.getD 0).testBit n = true := by
  unfold spotsfor
  rw [List.mem_filter, hasbit_eq, List.mem_map]
  simp only [List.mem_range]

theorem spotsfor_length_le (al : List Nat) (x axis bit : Nat) :
    (spotsfor al x axis bit).length ≤ 9 := by
  unfold spotsfor
  exact (List.length_filter_le _ _).trans (by simp)

/-- The cell of a completion that holds a digit its group still needs is one
of the spots of that digit. -/
theorem completion_spot {b S : Board} (hlen : b.length = 81) (hS : Completion b S)
    {axis x n : Nat} (ha : axis < 3) (hx : x < 9) (hn : n < 9)
    (hneed : (axismissing b x axis).testBit n = true) :
    ∃ q ∈ spotsfor (figurebits b).allowed x axis (1 <<< n), S[q]?.getD none = some n := by
  obtain ⟨y, hy, hSy⟩ := valid_has hS.1 ha hx hn
  have hq := posfor_lt axis ha x hx y hy
  have he : b[posfor x y axis]?.getD none = none := by
    rcases hS.2 _ hq with h | h
    · exact h
    · rw [testBit_axismissing _ _ _ _ hn] at hneed
      rw [hSy] at h
      exact absurd h.symm (hneed y hy)
  exact ⟨_, (mem_spotsfor _ _ _ _ _).2 ⟨⟨y, hy, rfl⟩, completion_allowed hlen hS hq he hSy⟩, hSy⟩

/-! ## Counting empty cells -/

theorem count_none_le (l : List (Option Nat)) : ∀ (l' : List (Option Nat)),
    l.length = l'.length →
    (∀ i : Nat, l[i]?.getD none ≠ none → l'[i]?.getD none ≠ none) →
    l'.count none ≤ l.count none := by
  induction l with
  | nil =>
    intro l' h _
    cases l' with
    | nil => simp
    | cons _ _ => simp at h
  | cons a l ih =>
    intro l' h hk
    cases l' with
    | nil => simp at h
    | cons a' l' =>
      have ih' := ih l' (by simpa using h)
        (fun i hi => by simpa using hk (i + 1) (by simpa using hi))
      have h0 := hk 0
      simp only [List.getElem?_cons_zero, Option.getD_some] at h0
      rw [List.count_cons, List.count_cons]
      cases a <;> cases a' <;> simp_all <;> omega

theorem count_none_lt (l : List (Option Nat)) : ∀ (l' : List (Option Nat)),
    l.length = l'.length →
    (∀ i : Nat, l[i]?.getD none ≠ none → l'[i]?.getD none ≠ none) →
    (∃ i : Nat, l[i]?.getD none = none ∧ l'[i]?.getD none ≠ none) →
    l'.count none < l.count none := by
  induction l with
  | nil =>
    intro l' h _ hex
    cases l' with
    | nil => obtain ⟨i, _, h2⟩ := hex; simp at h2
    | cons _ _ => simp at h
  | cons a l ih =>
    intro l' h hk hex
    cases l' with
    | nil => simp at h
    | cons a' l' =>
      have hk' : ∀ i : Nat, l[i]?.getD none ≠ none → l'[i]?.getD none ≠ none :=
        fun i hi => by simpa using hk (i + 1) (by simpa using hi)
      have hle := count_none_le l l' (by simpa using h) hk'
      have h0 := hk 0
      simp only [List.getElem?_cons_zero, Option.getD_some] at h0
      obtain ⟨i, hi1, hi2⟩ := hex
      rw [List.count_cons, List.count_cons]
      cases i with
      | zero =>
        simp only [List.getElem?_cons_zero, Option.getD_some] at hi1 hi2
        subst hi1
        cases a' <;> simp_all
        omega
      | succ j =>
        have ih' := ih l' (by simpa using h) hk' ⟨j, by simpa using hi1, by simpa using hi2⟩
        cases a <;> cases a' <;> simp_all <;> omega

theorem emptyCount_le {b b' : Board} (hb : b.length = 81) (hb' : b'.length = 81)
    (h : Agrees b b') : emptyCount b' ≤ emptyCount b := by
  refine count_none_le b b' (by omega) (fun i hi => ?_)
  have hi81 : i < 81 := by
    by_contra hlt
    rw [List.getElem?_eq_none (by omega)] at hi
    simp at hi
  rcases h i hi81 with h' | h'
  · exact absurd h' hi
  · rw [h']; exact hi

theorem emptyCount_lt {b b' : Board} (hb : b.length = 81) (hb' : b'.length = 81)
    (h : Agrees b b') {p : Nat} (hp1 : b[p]?.getD none = none) (hp2 : b'[p]?.getD none ≠ none) :
    emptyCount b' < emptyCount b := by
  refine count_none_lt b b' (by omega) (fun i hi => ?_) ⟨p, hp1, hp2⟩
  have hi81 : i < 81 := by
    by_contra hlt
    rw [List.getElem?_eq_none (by omega)] at hi
    simp at hi
  rcases h i hi81 with h' | h'
  · exact absurd h' hi
  · rw [h']; exact hi

theorem emptyCount_le_length (b : Board) : emptyCount b ≤ b.length :=
  List.count_le_length _ _

/-! ## Loops of a pass -/

theorem scanLoop_inv {α : Type} (f : Scan → α → Except Scan Scan) (P E : Scan → Prop)
    (l : List α) (hstep : ∀ s a, a ∈ l → P s → Outcome P E (f s a)) :
    ∀ s, P s → Outcome P E (scanLoop f l s) := by
  induction l with
  | nil => intro s hs; exact hs
  | cons a l ih =>
    intro s hs
    have h1 := hstep s a (by simp) hs
    unfold scanLoop
    cases hf : f s a with
    | error e => rw [hf] at h1; exact h1
    | ok s1 =>
      rw [hf] at h1
      exact ih (fun s a ha hP => hstep s a (by simp [ha]) hP) s1 h1

theorem scanLoop_still {α : Type} (f : Scan → α → Except Scan Scan) (Q : Scan → Prop)
    (R : Scan → α → Prop)
    (hstep : ∀ s a s', f s a = .ok s' → Q s' → s' = s ∧ R s a) :
    ∀ (l : List α) (s s' : Scan), scanLoop f l s = .ok s' → Q s' → s' = s ∧ ∀ a ∈ l, R s a := by
  intro l
  induction l with
  | nil =>
    intro s s' h _
    simp only [scanLoop, Except.ok.injEq] at h
    exact ⟨h.symm, by simp⟩
  | cons a l ih =>
    intro s s' h hQ
    unfold scanLoop at h
    cases hf : f s a with
    | error e => rw [hf] at h; simp at h
    | ok s1 =>
      rw [hf] at h
      obtain ⟨h1, h2⟩ := ih s1 s' h hQ
      obtain ⟨h3, h4⟩ := hstep s a s1 hf (h1 ▸ hQ)
      subst h3
      refine ⟨h1, fun b hb => ?_⟩
      rcases List.mem_cons.1 hb with rfl | hb
      · exact h4
      · exact h2 b hb

theorem pickbetter_guess (b : Option (List Cand)) (c : Nat) (t : List Cand) (rng : Nat → Nat)
    (k : Nat) :
    (pickbetter b c t rng k).guess = some t ∨ (pickbetter b c t rng k).guess = b := by
  unfold pickbetter
  cases b with
  | none => simp
  | some bl => dsimp only; split_ifs <;> simp

theorem pickbetter_guess_ne_none (b : Option (List Cand)) (c : Nat) (t : List Cand)
    (rng : Nat → Nat) (k : Nat) : (pickbetter b c t rng k).guess ≠ none := by
  unfold pickbetter
  cases b with
  | none => simp
  | some bl => dsimp only; split_ifs <;> simp

theorem PassInv.write {b0 bb : Board} {s : Scan} (h : PassInv b0 bb s) (h0 : Agrees b0 bb)
    {p n : Nat} (hp : p < 81) (he : bb[p]?.getD none = none) (hn : n < 9)
    (hforced : ∀ S, Completion b0 S → S[p]?.getD none = some n) :
    PassInv b0 bb { s with board := s.board.set p (some n), stuck := false } where
  wf := wellFormed_set h.wf p n hn
  ext := by
    intro q hq
    by_cases hpq : p = q
    · subst hpq; exact Or.inl he
    · rw [cell_set_ne _ p q hpq]; exact h.ext q hq
  still := by intro hs; simp at hs
  moved := fun _ => ⟨p, h0.empty_of_empty hp he, by
    show (s.board.set p (some n))[p]?.getD none ≠ none
    rw [cell_set_self _ p (by rw [h.wf.1]; exact hp)]; simp⟩
  guess := h.guess
  sound := fun S hS => Agrees.set_left h.wf.1 (h.sound S hS) (hforced S hS)

theorem PassInv.pick {b0 bb : Board} {s : Scan} (h : PassInv b0 bb s) {t : List Cand}
    (ht : GoodGuess b0 t) (rng : Nat → Nat) :
    PassInv b0 bb { s with guess := (pickbetter s.guess s.count t rng s.k).guess,
                           count := (pickbetter s.guess s.count t rng s.k).count,
                           k := (pickbetter s.guess s.count t rng s.k).k } where
  wf := h.wf
  ext := h.ext
  still := h.still
  moved := h.moved
  guess := by
    intro g hg
    rcases pickbetter_guess s.guess s.count t rng s.k with h1 | h1
    · rw [h1] at hg; cases hg; exact ht
    · rw [h1] at hg; exact h.guess g hg
  sound := h.sound

theorem PassInv.toErr {b0 bb : Board} {s : Scan} (h : PassInv b0 bb s) (h0 : Agrees b0 bb)
    (hno : ∀ S, ¬ Completion b0 S) : PassErr b0 s :=
  ⟨h.wf, h0.trans h.ext, hno⟩

theorem two_le_length_of {α : Type} (l : List α) (h0 : l ≠ []) (h1 : ∀ a, l ≠ [a]) :
    2 ≤ l.length := by
  match l, h0, h1 with
  | [], h0, _ => exact absurd rfl h0
  | [a], _, h1 => exact absurd rfl (h1 a)
  | _ :: _ :: _, _, _ => simp

/-- The alternatives for one empty cell: its allowed digits. -/
theorem goodGuess_cell {b : Board} (hlen : b.length = 81) {pos : Nat} (hp : pos < 81)
    (he : b[pos]?.getD none = none)
    (h2 : 2 ≤ (listbits ((figurebits b).allowed[pos]?.getD 0)).length) :
    GoodGuess b ((listbits ((figurebits b).allowed[pos]?.getD 0)).map
      (fun val => Cand.mk pos val)) := by
  refine ⟨by simpa using h2, by simpa using listbits_length_le _, ?_, ?_, ?_⟩
  · intro c hc
    rw [List.mem_map] at hc
    obtain ⟨d, hd, rfl⟩ := hc
    exact ⟨hp, ((mem_listbits _ _).1 hd).1, he⟩
  · intro S hS
    obtain ⟨d, hd, hSd⟩ := hS.1.2.1 pos hp
    refine ⟨⟨pos, d⟩, ?_, hSd⟩
    rw [List.mem_map]
    exact ⟨d, (mem_listbits _ _).2 ⟨hd, completion_allowed hlen hS hp he hSd⟩, rfl⟩
  · rw [List.pairwise_map]
    refine List.Pairwise.imp ?_ (listbits_nodup _)
    intro d e hde S _ hh
    have h1 : S[pos]?.getD none = some d := hh.1
    have h2 : S[pos]?.getD none = some e := hh.2
    rw [h1] at h2
    exact hde (by simpa using h2)

theorem spotsfor_nodup (al : List Nat) {x axis : Nat} (ha : axis < 3) (hx : x < 9) (bit : Nat) :
    (spotsfor al x axis bit).Nodup := by
  unfold spotsfor
  refine List.Nodup.filter _ ?_
  refine List.Nodup.map_on ?_ (List.nodup_range 9)
  intro y hy z hz hyz
  exact posfor_inj axis ha x hx y (List.mem_range.1 hy) z (List.mem_range.1 hz) hyz

/-- The alternatives for one digit a group needs: the cells that allow it. -/
theorem goodGuess_group {b : Board} (hlen : b.length = 81) {axis x n : Nat} (ha : axis < 3)
    (hx : x < 9) (hn : n < 9) (hneed : (axismissing b x axis).testBit n = true)
    (h2 : 2 ≤ (spotsfor (figurebits b).allowed x axis (1 <<< n)).length) :
    GoodGuess b ((spotsfor (figurebits b).allowed x axis (1 <<< n)).map
      (fun val => Cand.mk val n)) := by
  refine ⟨by simpa using h2, by simpa using spotsfor_length_le _ _ _ _, ?_, ?_, ?_⟩
  · intro c hc
    rw [List.mem_map] at hc
    obtain ⟨q, hq, rfl⟩ := hc
    obtain ⟨⟨y, hy, rfl⟩, hbit⟩ := (mem_spotsfor _ _ _ _ _).1 hq
    have hq81 := posfor_lt axis ha x hx y hy
    exact ⟨hq81, hn, ((testBit_allowed b hlen _ n hq81 hn).1 hbit).1⟩
  · intro S hS
    obtain ⟨q, hq, hSq⟩ := completion_spot hlen hS ha hx hn hneed
    exact ⟨⟨q, n⟩, List.mem_map.2 ⟨q, hq, rfl⟩, hSq⟩
  · rw [List.pairwise_map]
    refine List.Pairwise.imp_of_mem ?_ (spotsfor_nodup _ ha hx _)
    intro p q hp hq hpq S hS hh
    obtain ⟨⟨y, hy, rfl⟩, _⟩ := (mem_spotsfor _ _ _ _ _).1 hp
    obtain ⟨⟨z, hz, rfl⟩, _⟩ := (mem_spotsfor _ _ _ _ _).1 hq
    have h1 : S[posfor x y axis]?.getD none = some n := hh.1
    have h2 : S[posfor x z axis]?.getD none = some n := hh.2
    have := valid_inj hS ha hx hy hz (by rw [h1, h2])
    exact hpq (by rw [this])

/-! ## One pass of `deduce` -/

theorem nakedStep_inv {b0 : Board} (hb0 : b0.length = 81) (rng : Nat → Nat) {s : Scan}
    (h : PassInv b0 b0 s) {pos : Nat} (hp : pos < 81) :
    Outcome (PassInv b0 b0) (PassErr b0) (nakedStep (figurebits b0).allowed rng s pos) := by
  unfold nakedStep
  by_cases he : s.board[pos]?.getD none = none
  · rw [if_pos he]
    have hbe : b0[pos]?.getD none = none := h.ext.empty_of_empty hp he
    have hmem : ∀ S, Completion b0 S → ∃ d, S[pos]?.getD none = some d ∧
        d ∈ listbits ((figurebits b0).allowed[pos]?.getD 0) := by
      intro S hS
      obtain ⟨d, hd, hSd⟩ := hS.1.2.1 pos hp
      exact ⟨d, hSd, (mem_listbits _ _).2 ⟨hd, completion_allowed hb0 hS hp hbe hSd⟩⟩
    split
    · next heq =>
      refine h.toErr (Agrees.refl b0) (fun S hS => ?_)
      obtain ⟨d, _, hd⟩ := hmem S hS
      rw [heq] at hd
      simp at hd
    · next n heq =>
      have hn : n < 9 := ((mem_listbits _ n).1 (by rw [heq]; simp)).1
      refine h.write (Agrees.refl b0) hp hbe hn (fun S hS => ?_)
      obtain ⟨d, hSd, hd⟩ := hmem S hS
      rw [heq] at hd
      simp at hd
      rw [hSd, hd]
    · next h0 h1 =>
      by_cases hst : s.stuck = true
      · rw [if_pos hst]
        exact h.pick (goodGuess_cell hb0 hp hbe (two_le_length_of _ h0 h1)) rng
      · rw [if_neg hst]
        exact h
  · rw [if_neg he]
    exact h

theorem hiddenStep_inv {b0 bb : Board} (hbb : bb.length = 81) (h0 : Agrees b0 bb)
    (hcomp : ∀ S, Completion b0 S → Completion bb S) (rng : Nat → Nat) {s : Scan}
    (h : PassInv b0 bb s) {axis x n : Nat} (ha : axis < 3) (hx : x < 9) (hn : n < 9)
    (hneed : (axismissing bb x axis).testBit n = true) :
    Outcome (PassInv b0 bb) (PassErr b0)
      (hiddenStep (figurebits bb).allowed rng x axis s n) := by
  unfold hiddenStep
  split
  · next heq =>
    refine h.toErr h0 (fun S hS => ?_)
    obtain ⟨q, hq, _⟩ := completion_spot hbb (hcomp S hS) ha hx hn hneed
    rw [heq] at hq
    simp at hq
  · next p heq =>
    have hp : p ∈ spotsfor (figurebits bb).allowed x axis (1 <<< n) := by rw [heq]; simp
    obtain ⟨⟨y, hy, rfl⟩, hbit⟩ := (mem_spotsfor _ _ _ _ _).1 hp
    have hp81 := posfor_lt axis ha x hx y hy
    refine h.write h0 hp81 ((testBit_allowed bb hbb _ n hp81 hn).1 hbit).1 hn (fun S hS => ?_)
    obtain ⟨q, hq, hSq⟩ := completion_spot hbb (hcomp S hS) ha hx hn hneed
    rw [heq] at hq
    simp at hq
    rw [← hq, hSq]
  · next h0' h1 =>
    by_cases hst : s.stuck = true
    · rw [if_pos hst]
      have hb : bb = b0 := (h.still hst).2
      subst hb
      exact h.pick (goodGuess_group hbb ha hx hn hneed (two_le_length_of _ h0' h1)) rng
    · rw [if_neg hst]
      exact h

theorem hiddenScan_inv {b0 bb : Board} (hbb : bb.length = 81) (h0 : Agrees b0 bb)
    (hcomp : ∀ S, Completion b0 S → Completion bb S) (rng : Nat → Nat) {s : Scan}
    (h : PassInv b0 bb s) :
    Outcome (PassInv b0 bb) (PassErr b0) (hiddenScan (figurebits bb) rng s) := by
  unfold hiddenScan
  refine scanLoop_inv _ _ _ _ (fun s axis ha hs => ?_) s h
  refine scanLoop_inv _ _ _ _ (fun s x hx hs => ?_) s hs
  refine scanLoop_inv _ _ _ _ (fun s n hn hs => ?_) s hs
  rw [List.mem_range] at ha hx
  rw [figurebits_needed bb axis ha x hx, mem_listbits] at hn
  exact hiddenStep_inv hbb h0 hcomp rng hs ha hx hn.1 hn.2

theorem nakedStep_idle (al : List Nat) (rng : Nat → Nat) (s : Scan) (pos : Nat) (s' : Scan)
    (h : nakedStep al rng s pos = .ok s') (hi : Idle s') :
    s' = s ∧ s.board[pos]?.getD none ≠ none := by
  unfold nakedStep at h
  by_cases he : s.board[pos]?.getD none = none
  · rw [if_pos he] at h
    split at h
    · simp at h
    · simp only [Except.ok.injEq] at h
      subst h
      exact absurd hi.1 (by simp)
    · by_cases hst : s.stuck = true
      · rw [if_pos hst] at h
        simp only [Except.ok.injEq] at h
        subst h
        exact absurd hi.2 (pickbetter_guess_ne_none _ _ _ _ _)
      · rw [if_neg hst] at h
        simp only [Except.ok.injEq] at h
        subst h
        exact absurd hi.1 hst
  · rw [if_neg he] at h
    simp only [Except.ok.injEq] at h
    exact ⟨h.symm, he⟩

theorem hiddenStep_idle (al : List Nat) (rng : Nat → Nat) (x axis : Nat) (s : Scan) (n : Nat)
    (s' : Scan) (h : hiddenStep al rng x axis s n = .ok s') (hi : Idle s') : s' = s ∧ False := by
  unfold hiddenStep at h
  split at h
  · simp at h
  · simp only [Except.ok.injEq] at h
    subst h
    exact absurd hi.1 (by simp)
  · by_cases hst : s.stuck = true
    · rw [if_pos hst] at h
      simp only [Except.ok.injEq] at h
      subst h
      exact absurd hi.2 (pickbetter_guess_ne_none _ _ _ _ _)
    · rw [if_neg hst] at h
      simp only [Except.ok.injEq] at h
      subst h
      exact absurd hi.1 hst

theorem hiddenScan_idle (bits : Bits) (rng : Nat → Nat) (s s' : Scan)
    (h : hiddenScan bits rng s = .ok s') (hi : Idle s') :
    s' = s ∧ ∀ axis < 3, ∀ x < 9, listbits (bits.needed[axis * 9 + x]?.getD 0) = [] := by
  unfold hiddenScan at h
  have key := scanLoop_still
    (fun s axis => scanLoop (fun s x => scanLoop (hiddenStep bits.allowed rng x axis)
      (listbits (bits.needed[axis * 9 + x]?.getD 0)) s) (List.range 9) s) Idle
    (fun _ axis => ∀ x < 9, listbits (bits.needed[axis * 9 + x]?.getD 0) = [])
    (fun s axis s1 h1 hi1 => by
      have mid := scanLoop_still
        (fun s x => scanLoop (hiddenStep bits.allowed rng x axis)
          (listbits (bits.needed[axis * 9 + x]?.getD 0)) s) Idle
        (fun _ x => listbits (bits.needed[axis * 9 + x]?.getD 0) = [])
        (fun s x s2 h2 hi2 => by
          have inner := scanLoop_still (hiddenStep bits.allowed rng x axis) Idle
            (fun _ _ => False) (fun s n s3 h3 hi3 => hiddenStep_idle _ _ _ _ _ _ _ h3 hi3)
            _ s s2 h2 hi2
          refine ⟨inner.1, ?_⟩
          by_contra hne
          obtain ⟨a, ha⟩ := List.exists_mem_of_ne_nil _ hne
          exact inner.2 a ha)
        (List.range 9) s s1 h1 hi1
      exact ⟨mid.1, fun x hx => mid.2 x (List.mem_range.2 hx)⟩)
    (List.range 3) s s' h hi
  exact ⟨key.1, fun axis ha => key.2 axis (List.mem_range.2 ha)⟩

/-- A full board in which every group has every digit is a valid grid. -/
theorem validGrid_of_full {b : Board} (hb : WellFormed b)
    (hfull : ∀ p < 81, b[p]?.getD none ≠ none)
    (hall : ∀ axis < 3, ∀ x < 9, ∀ d < 9, ∃ y < 9, b[posfor x y axis]?.getD none = some d) :
    ValidGrid b := by
  refine ⟨hb.1, fun p hp => ?_, fun axis ha x hx d hd => ?_⟩
  · cases hc : b[p]?.getD none with
    | none => exact absurd hc (hfull p hp)
    | some d => exact ⟨d, wellFormed_cell hb hc, rfl⟩
  · let f : Fin 9 → Fin 9 := fun y =>
      ⟨(b[posfor x y.1 axis]?.getD none).getD 0 % 9, Nat.mod_lt _ (by omega)⟩
    have hsurj : Function.Surjective f := by
      intro e
      obtain ⟨y, hy, hye⟩ := hall axis ha x hx e.1 e.2
      refine ⟨⟨y, hy⟩, ?_⟩
      apply Fin.ext
      show (b[posfor x y axis]?.getD none).getD 0 % 9 = e.1
      rw [hye]
      exact Nat.mod_eq_of_lt e.2
    have hinj : Function.Injective f := Finite.injective_iff_surjective.2 hsurj
    apply Nat.le_antisymm
    · refine nodup_length_le_one _ ((List.nodup_range 9).filter _) (fun y hy z hz => ?_)
      simp only [List.mem_filter, List.mem_range, decide_eq_true_eq] at hy hz
      have : f ⟨y, hy.1⟩ = f ⟨z, hz.1⟩ := by
        apply Fin.ext
        show (b[posfor x y axis]?.getD none).getD 0 % 9 = (b[posfor x z axis]?.getD none).getD 0 % 9
        rw [hy.2, hz.2]
      have := hinj this
      exact congrArg Fin.val this
    · obtain ⟨y, hy, hyd⟩ := hall axis ha x hx d hd
      apply List.length_pos_of_mem (a := y)
      simp [hy, hyd]

theorem deducePass_spec (rng : Nat → Nat) {b : Board} (hb : WellFormed b) (k : Nat) :
    Outcome (fun s => (∃ bb, Agrees b bb ∧ PassInv b bb s) ∧ (Idle s → ValidGrid b))
      (PassErr b) (deducePass rng b k) := by
  unfold deducePass
  have hinit : PassInv b b { board := b, stuck := true, guess := none, count := 0, k := k } :=
    { wf := hb
      ext := Agrees.refl b
      still := fun _ => ⟨rfl, rfl⟩
      moved := fun h => by simp at h
      guess := fun g h => by simp at h
      sound := fun S hS => hS.2 }
  have hnaked := scanLoop_inv (nakedStep (figurebits b).allowed rng) (PassInv b b) (PassErr b)
    (List.range 81) (fun s pos hpos hs => nakedStep_inv hb.1 rng hs (List.mem_range.1 hpos)) _ hinit
  dsimp only
  cases hres : scanLoop (nakedStep (figurebits b).allowed rng) (List.range 81)
      { board := b, stuck := true, guess := none, count := 0, k := k } with
  | error e => rw [hres] at hnaked; exact hnaked
  | ok s1 =>
    rw [hres] at hnaked
    have h1 : PassInv b b s1 := hnaked
    have hbits : (if s1.stuck = false then figurebits s1.board else figurebits b)
        = figurebits s1.board := by
      split_ifs with hst
      · rfl
      · rw [(h1.still (by simpa using hst)).1]
    dsimp only
    rw [hbits]
    have h2 : PassInv b s1.board s1 :=
      { wf := h1.wf
        ext := Agrees.refl _
        still := fun hst => ⟨(h1.still hst).1, (h1.still hst).1⟩
        moved := h1.moved
        guess := h1.guess
        sound := h1.sound }
    have hhid := hiddenScan_inv h1.wf.1 h1.ext (fun S hS => ⟨hS.1, h1.sound S hS⟩) rng h2
    cases hres2 : hiddenScan (figurebits s1.board) rng s1 with
    | error e => rw [hres2] at hhid; exact hhid
    | ok s2 =>
      rw [hres2] at hhid
      refine ⟨⟨s1.board, h1.ext, hhid⟩, fun hidle => ?_⟩
      obtain ⟨hs21, hneeded⟩ := hiddenScan_idle _ rng s1 s2 hres2 hidle
      subst hs21
      obtain ⟨hs10, hfilled⟩ := scanLoop_still (nakedStep (figurebits b).allowed rng) Idle
        (fun s pos => s.board[pos]?.getD none ≠ none)
        (fun s pos s' h hi => nakedStep_idle _ rng s pos s' h hi) _ _ _ hres hidle
      subst hs10
      refine validGrid_of_full hb (fun p hp => hfilled p (List.mem_range.2 hp))
        (fun axis ha x hx d hd => ?_)
      have hnone := hneeded axis ha x hx
      rw [figurebits_needed b axis ha x hx] at hnone
      have hnot : ¬ (axismissing b x axis).testBit d = true := by
        intro hbit
        have : d ∈ listbits (axismissing b x axis) := (mem_listbits _ _).2 ⟨hd, hbit⟩
        rw [hnone] at this
        simp at this
      rw [testBit_axismissing _ _ _ _ hd] at hnot
      push_neg at hnot
      exact hnot

/-! ## Shuffling -/

theorem swap_perm {α : Type} [DecidableEq α] (xs : List α) (i j : Nat) :
    (swap xs i j).Perm xs := by
  unfold swap
  split
  · next a b hi hj =>
    obtain ⟨hil, hai⟩ := List.getElem?_eq_some_iff.1 hi
    obtain ⟨hjl, hbj⟩ := List.getElem?_eq_some_iff.1 hj
    rw [List.perm_iff_count]
    intro c
    rw [List.count_set _ _ _ _ (by simpa using hjl), List.count_set _ _ _ _ hil]
    have hca : 0 < xs.count a := List.count_pos_iff.2 (hai ▸ List.getElem_mem hil)
    have hcb : 0 < xs.count b := List.count_pos_iff.2 (hbj ▸ List.getElem_mem hjl)
    by_cases hij : i = j
    · subst hij
      have hab : a = b := by rw [← hai, ← hbj]
      subst hab
      simp only [List.getElem_set_self, hai]
      by_cases hac : a = c
      · subst hac; simp <;> omega
      · simp [hac]
    · rw [List.getElem_set_ne hij, hai, hbj]
      by_cases hac : a = c <;> by_cases hbc : b = c
      · subst hac; subst hbc; simp <;> omega
      · subst hac; simp [hbc] <;> omega
      · subst hbc; simp [hac] <;> omega
      · simp [hac, hbc]
  · exact List.Perm.refl _

theorem swap_length {α : Type} (xs : List α) (i j : Nat) : (swap xs i j).length = xs.length := by
  unfold swap
  split <;> simp

/-- What the rejection loop yields: an index other than `i`, the residue of
the last draw read, after at least one draw. -/
theorem otherIndex_spec (rng : Nat → Nat) (n i : Nat) :
    ∀ (tries k j k1 : Nat), otherIndex rng n i tries k = some (j, k1) →
      j ≠ i ∧ k < k1 ∧ j = rng (k1 - 1) % n := by
  intro tries
  induction tries with
  | zero => intro k j k1 h; simp [otherIndex] at h
  | succ tries ih =>
    intro k j k1 h
    rw [otherIndex] at h
    by_cases hk : rng k % n = i
    · rw [if_pos hk] at h
      obtain ⟨h1, h2, h3⟩ := ih (k + 1) j k1 h
      exact ⟨h1, by omega, h3⟩
    · rw [if_neg hk] at h
      simp only [Option.some.injEq, Prod.mk.injEq] at h
      obtain ⟨rfl, rfl⟩ := h
      exact ⟨hk, by omega, by simp⟩

/-- The rejection loop ends once a draw within the budget gives another index. -/
theorem otherIndex_total (rng : Nat → Nat) (n i : Nat) :
    ∀ (tries k : Nat), (∃ j < tries, rng (k + j) % n ≠ i) →
      ∃ r, otherIndex rng n i tries k = some r := by
  intro tries
  induction tries with
  | zero => rintro k ⟨j, hj, _⟩; omega
  | succ tries ih =>
    rintro k ⟨j, hj, hne⟩
    rw [otherIndex]
    by_cases hk : rng k % n = i
    · rw [if_pos hk]
      cases j with
      | zero => exact absurd hk hne
      | succ j =>
        refine ih (k + 1) ⟨j, by omega, ?_⟩
        have : k + 1 + j = k + (j + 1) := by omega
        rw [this]
        exact hne
    · rw [if_neg hk]
      exact ⟨_, rfl⟩

/-- On draws that keep giving `i` the rejection loop has no result, whatever
the budget. -/
theorem otherIndex_none (rng : Nat → Nat) (n i : Nat) (h : ∀ k, rng k % n = i) :
    ∀ (tries k : Nat), otherIndex rng n i tries k = none := by
  intro tries
  induction tries with
  | zero => intro k; rfl
  | succ tries ih =>
    intro k
    rw [otherIndex, if_pos (h k)]
    exact ih (k + 1)

theorem shuffleLoop_perm {α : Type} [DecidableEq α] (tries : Nat) (rng : Nat → Nat) :
    ∀ (is : List Nat) (xs : List α) (k : Nat) (ys : List α) (k' : Nat),
      shuffleLoop tries rng is xs k = some (ys, k') → ys.Perm xs := by
  intro is
  induction is with
  | nil =>
    intro xs k ys k' h
    simp only [shuffleLoop, Option.some.injEq, Prod.mk.injEq] at h
    rw [← h.1]
  | cons i rest ih =>
    intro xs k ys k' h
    rw [shuffleLoop] at h
    cases ho : otherIndex rng xs.length i tries k with
    | none => rw [ho] at h; simp at h
    | some pr =>
      obtain ⟨j, k1⟩ := pr
      rw [ho] at h
      exact (ih _ _ _ _ h).trans (swap_perm xs i j)

theorem shuffleLoop_total {α : Type} (tries : Nat) (rng : Nat → Nat)
    (hfair : FairWithin rng tries) :
    ∀ (is : List Nat) (xs : List α) (k : Nat), 2 ≤ xs.length →
      ∃ r, shuffleLoop tries rng is xs k = some r := by
  intro is
  induction is with
  | nil => intro xs k _; exact ⟨_, rfl⟩
  | cons i rest ih =>
    intro xs k hlen
    rw [shuffleLoop]
    obtain ⟨⟨j, k1⟩, ho⟩ := otherIndex_total rng xs.length i tries k (hfair k xs.length i hlen)
    rw [ho]
    exact ih _ _ (by rw [swap_length]; exact hlen)

/-- On draws that let the rejection loops end, `shuffleArray` returns on every
array but a one-element one, and what it returns is a permutation. -/
theorem shuffleArray_spec {α : Type} [DecidableEq α] (xs : List α) (tries : Nat)
    (rng : Nat → Nat) (k : Nat) (hfair : FairWithin rng tries) (h : xs.length ≠ 1) :
    ∃ ys k', shuffleArray xs tries rng k = some (ys, k') ∧ ys.Perm xs := by
  unfold shuffleArray
  by_cases h0 : xs.length = 0
  · rw [h0]
    exact ⟨xs, k, rfl, List.Perm.refl _⟩
  · obtain ⟨⟨ys, k'⟩, hr⟩ := shuffleLoop_total tries rng hfair (List.range xs.length) xs k
      (by omega)
    exact ⟨ys, k', hr, shuffleLoop_perm tries rng _ xs k ys k' hr⟩

theorem shuffleArray_perm {α : Type} [DecidableEq α] (xs : List α) (tries : Nat)
    (rng : Nat → Nat) (k : Nat) (ys : List α) (k' : Nat)
    (h : shuffleArray xs tries rng k = some (ys, k')) : ys.Perm xs :=
  shuffleLoop_perm tries rng _ xs k ys k' h

theorem Exclusive.symm {c c' : Cand} (h : Exclusive c c') : Exclusive c' c :=
  fun S hS hh => h S hS ⟨hh.2, hh.1⟩

theorem GoodGuess.perm {b : Board} {g g' : List Cand} (h : GoodGuess b g) (hp : g'.Perm g) :
    GoodGuess b g' := by
  obtain ⟨h1, h2, h3, h4, h5⟩ := h
  refine ⟨by rw [hp.length_eq]; exact h1, by rw [hp.length_eq]; exact h2,
    fun c hc => h3 c (hp.mem_iff.1 hc), fun S hS => ?_, ?_⟩
  · obtain ⟨c, hc, hh⟩ := h4 S hS
    exact ⟨c, hp.mem_iff.2 hc, hh⟩
  · exact (hp.pairwise_iff (fun {_ _} h => Exclusive.symm h)).2 h5

/-! ## The deduction engine -/

/-- What a run of the loop of `deduce` on a well-formed board gives: whatever it
returns satisfies `DeduceSpec`, and it does return on draws that let the
rejection loops end. -/
theorem deduceLoop_spec (tries : Nat) (rng : Nat → Nat) :
    ∀ (fuel : Nat) (b : Board) (k : Nat), WellFormed b → emptyCount b < fuel →
      (∀ r, deduceLoop tries rng fuel b k = some r → DeduceSpec b r) ∧
      (FairWithin rng tries → ∃ r, deduceLoop tries rng fuel b k = some r) := by
  intro fuel
  induction fuel with
  | zero => intro b k _ h; omega
  | succ fuel ih =>
    intro b k hb hfuel
    have hpass := deducePass_spec rng hb k
    unfold deduceLoop
    cases hres : deducePass rng b k with
    | error e =>
      rw [hres] at hpass
      obtain ⟨h1, h2, h3⟩ := (hpass : PassErr b e)
      refine ⟨fun r hr => ?_, fun _ => ⟨_, rfl⟩⟩
      simp only [Option.some.injEq] at hr
      subst hr
      exact
        { wf := h1
          ext := h2
          sound := fun S hS => absurd hS (h3 S)
          solved := fun h => by simp at h
          stuck := fun g hg hne => by
            simp only [Option.some.injEq] at hg
            exact absurd hg.symm hne }
    | ok s =>
      rw [hres] at hpass
      obtain ⟨⟨bb, hbb, hinv⟩, hidle⟩ := (hpass :
        (∃ bb, Agrees b bb ∧ PassInv b bb s) ∧ (Idle s → ValidGrid b))
      dsimp only
      by_cases hst : s.stuck = true
      · rw [if_pos hst]
        have hsb : s.board = b := (hinv.still hst).1
        cases hg : s.guess with
        | none =>
          have hv : ValidGrid b := hidle ⟨hst, hg⟩
          refine ⟨fun r hr => ?_, fun _ => ⟨_, rfl⟩⟩
          simp only [Option.some.injEq] at hr
          subst hr
          exact
            { wf := hinv.wf
              ext := hbb.trans hinv.ext
              sound := fun S hS => ⟨hinv.sound S hS, by simp⟩
              solved := fun _ => by rw [hsb]; exact hv
              stuck := fun g h => by simp at h }
        | some g =>
          have hgood : GoodGuess b g := hinv.guess g hg
          dsimp only
          refine ⟨fun r hr => ?_, fun hfair => ?_⟩
          · cases hsh : shuffleArray g tries rng s.k with
            | none => rw [hsh] at hr; simp at hr
            | some pr =>
              obtain ⟨g1, k1⟩ := pr
              rw [hsh] at hr
              simp only [Option.some.injEq] at hr
              subst hr
              have hgood1 : GoodGuess b g1 :=
                hgood.perm (shuffleArray_perm g tries rng s.k g1 k1 hsh)
              exact
                { wf := hinv.wf
                  ext := hbb.trans hinv.ext
                  sound := fun S hS => ⟨hinv.sound S hS, by
                    intro h
                    simp only [Option.some.injEq] at h
                    have := hgood1.1
                    rw [h] at this
                    simp at this⟩
                  solved := fun h => by simp at h
                  stuck := fun g' h _ => by
                    simp only [Option.some.injEq] at h
                    rw [← h]
                    show GoodGuess s.board g1
                    rw [hsb]; exact hgood1 }
          · obtain ⟨g1, k1, hsh, _⟩ := shuffleArray_spec g tries rng s.k hfair
              (by have := hgood.1; omega)
            rw [hsh]
            exact ⟨_, rfl⟩
      · rw [if_neg hst]
        have hst' : s.stuck = false := by simpa using hst
        obtain ⟨p, hp1, hp2⟩ := hinv.moved hst'
        have hext : Agrees b s.board := hbb.trans hinv.ext
        have hlt : emptyCount s.board < emptyCount b :=
          emptyCount_lt hb.1 hinv.wf.1 hext hp1 hp2
        obtain ⟨hsound, htotal⟩ := ih s.board s.k hinv.wf (by omega)
        refine ⟨fun r hr => ?_, htotal⟩
        have hspec := hsound r hr
        exact
          { wf := hspec.wf
            ext := hext.trans hspec.ext
            sound := fun S hS => hspec.sound S ⟨hS.1, hinv.sound S hS⟩
            solved := hspec.solved
            stuck := hspec.stuck }

theorem emptyCount_lt_82 {b : Board} (hb : WellFormed b) : emptyCount b < 82 := by
  have := emptyCount_le_length b
  rw [hb.1] at this
  omega

/-- Whatever the source's `deduce` returns on a well-formed board satisfies
`DeduceSpec`. -/
theorem deduce_sound (tries : Nat) (rng : Nat → Nat) (b : Board) (k : Nat) (r : Deduced)
    (hb : WellFormed b) (h : deduce b tries rng k = some r) : DeduceSpec b r :=
  (deduceLoop_spec tries rng 82 b k hb (emptyCount_lt_82 hb)).1 r h

/-- The source's `deduce` returns on every well-formed board, on draws that let
the rejection loops end, and its result satisfies `DeduceSpec`. -/
theorem deduce_spec (tries : Nat) (rng : Nat → Nat) (b : Board) (k : Nat)
    (hfair : FairWithin rng tries) (hb : WellFormed b) :
    ∃ r, deduce b tries rng k = some r ∧ DeduceSpec b r := by
  obtain ⟨r, hr⟩ := (deduceLoop_spec tries rng 82 b k hb (emptyCount_lt_82 hb)).2 hfair
  exact ⟨r, hr, deduce_sound tries rng b k r hb hr⟩

/-! ## The search controller -/

theorem validGrid_eq_of_agrees {A S : Board} (hA : ValidGrid A) (hS : S.length = 81)
    (h : Agrees A S) : A = S := by
  apply List.ext_getElem?
  intro p
  by_cases hp : p < 81
  · obtain ⟨d, _, hd⟩ := hA.2.1 p hp
    have hSp : S[p]?.getD none = some d := by
      rcases h p hp with h1 | h1
      · rw [hd] at h1; simp at h1
      · rw [h1, hd]
    rw [List.getElem?_eq_getElem (by rw [hA.1]; exact hp)] at hd ⊢
    rw [List.getElem?_eq_getElem (by rw [hS]; exact hp)] at hSp ⊢
    simp only [Option.getD_some] at hd hSp
    rw [hd, hSp]
  · rw [List.getElem?_eq_none (by rw [hA.1]; omega), List.getElem?_eq_none (by rw [hS]; omega)]

theorem Holds.of_agrees {B B' : Board} {c : Cand} (hc : c.pos < 81) (h : Holds B c)
    (hag : Agrees B B') : Holds B' c := by
  unfold Holds at h ⊢
  rcases hag c.pos hc with h1 | h1
  · rw [h] at h1; simp at h1
  · rw [h1, h]

theorem FrameOK.cand {orig : Board} {f : Frame} (hf : FrameOK orig f) {i : Nat} {c : Cand}
    (hc : f.guesses[i]? = some c) :
    GoodGuess f.board f.guesses ∧ c.pos < 81 ∧ c.num < 9 ∧ f.board[c.pos]?.getD none = none := by
  have hmem : c ∈ f.guesses := List.getElem?_mem hc
  rcases hf.good with h | h
  · rw [h] at hmem; simp at hmem
  · exact ⟨h, h.2.2.1 c hmem⟩

/-- The facts about one productive iteration of `solvenext`: the board after
the guess and `deduce`. -/
theorem try_sound {orig : Board} {t : Frame} (ht : FrameOK orig t) {c : Cand}
    (hc : t.guesses[t.count]? = some c) (tries : Nat) (rng : Nat → Nat) (k : Nat) (r : Deduced)
    (hr : deduce (t.board.set c.pos (some c.num)) tries rng k = some r) :
    DeduceSpec (t.board.set c.pos (some c.num)) r ∧
      Agrees t.board r.board ∧ Holds r.board c ∧ emptyCount r.board < emptyCount t.board ∧
      FrameOK orig { guesses := r.guesses.getD [], count := 0, board := r.board } := by
  obtain ⟨_, hp, hn, he⟩ := ht.cand hc
  have hwf : WellFormed (t.board.set c.pos (some c.num)) := wellFormed_set ht.wf _ _ hn
  have hspec := deduce_sound tries rng _ k r hwf hr
  have hag1 : Agrees t.board (t.board.set c.pos (some c.num)) := Agrees.set he _
  have hag : Agrees t.board r.board := hag1.trans hspec.ext
  have hholds : Holds r.board c :=
    Holds.of_agrees hp (cell_set_self _ _ (by rw [ht.wf.1]; exact hp) _) hspec.ext
  refine ⟨hspec, hag, hholds, ?_, ?_⟩
  · refine emptyCount_lt ht.wf.1 hspec.wf.1 hag he ?_
    have : r.board[c.pos]?.getD none = some c.num := hholds
    rw [this]; simp
  · refine ⟨hspec.wf, ht.ext.trans hag, ?_⟩
    cases hg : r.guesses with
    | none => left; rfl
    | some g =>
      by_cases hne : g = []
      · left; simp [hne]
      · right; exact hspec.stuck g hg hne

/-- On draws that let the rejection loops end, the `deduce` of a productive
iteration returns. -/
theorem try_spec {orig : Board} {t : Frame} (ht : FrameOK orig t) {c : Cand}
    (hc : t.guesses[t.count]? = some c) (tries : Nat) (rng : Nat → Nat) (k : Nat)
    (hfair : FairWithin rng tries) :
    ∃ r, deduce (t.board.set c.pos (some c.num)) tries rng k = some r ∧
      DeduceSpec (t.board.set c.pos (some c.num)) r ∧
      Agrees t.board r.board ∧ Holds r.board c ∧ emptyCount r.board < emptyCount t.board ∧
      FrameOK orig { guesses := r.guesses.getD [], count := 0, board := r.board } := by
  obtain ⟨_, _, hn, _⟩ := ht.cand hc
  obtain ⟨r, hr, _⟩ := deduce_spec tries rng _ k hfair (wellFormed_set ht.wf _ _ hn)
  exact ⟨r, hr, try_sound ht hc tries rng k r hr⟩

/-- An induction principle for `solvenext`: an invariant of the stack that
survives a pop and a push yields the postcondition of whatever is returned. -/
theorem solvenext_ind (tries : Nat) (rng : Nat → Nat) (orig : Board) (Inv : List Frame → Prop)
    (Post : Solved → Prop) (hOK : ∀ st, Inv st → StackOK orig st)
    (hempty : Inv [] → ∀ k, Post { state := [], answer := none, k := k })
    (hpop : ∀ t rest, Inv (t :: rest) → t.guesses[t.count]? = none → Inv rest)
    (htry : ∀ t rest c, Inv (t :: rest) → t.guesses[t.count]? = some c → ∀ r,
      DeduceSpec (t.board.set c.pos (some c.num)) r → Agrees t.board r.board → Holds r.board c →
      FrameOK orig { guesses := r.guesses.getD [], count := 0, board := r.board } →
      (r.guesses = none →
        Post { state := { t with count := t.count + 1 } :: rest, answer := some r.board,
               k := r.k }) ∧
      (∀ g, r.guesses = some g →
        Inv ({ guesses := g, count := 0, board := r.board } ::
          { t with count := t.count + 1 } :: rest))) :
    ∀ (fuel : Nat) (st : List Frame) (k : Nat) (res : Solved), Inv st →
      solvenext tries rng fuel st k = some res → Post res := by
  intro fuel
  induction fuel with
  | zero => intro st k res _ h; simp [solvenext] at h
  | succ fuel ih =>
    intro st k res hinv h
    cases st with
    | nil =>
      simp only [solvenext, Option.some.injEq] at h
      rw [← h]; exact hempty hinv k
    | cons t rest =>
      unfold solvenext at h
      cases hc : t.guesses[t.count]? with
      | none =>
        rw [hc] at h
        exact ih rest k res (hpop t rest hinv hc) h
      | some c =>
        rw [hc] at h
        dsimp only at h
        cases hr : deduce (t.board.set c.pos (some c.num)) tries rng k with
        | none => rw [hr] at h; simp at h
        | some r =>
          obtain ⟨hspec, hag, hholds, _, hframe⟩ :=
            try_sound (hOK _ hinv t (by simp)) hc tries rng k r hr
          rw [hr] at h
          dsimp only at h
          obtain ⟨h1, h2⟩ := htry t rest c hinv hc r hspec hag hholds hframe
          cases hg : r.guesses with
          | none =>
            rw [hg] at h
            simp only [Option.some.injEq] at h
            rw [← h]; exact h1 hg
          | some g =>
            rw [hg] at h
            exact ih _ r.k res (h2 g hg) h

theorem FrameOK.bump {orig : Board} {t : Frame} (h : FrameOK orig t) :
    FrameOK orig { t with count := t.count + 1 } :=
  ⟨h.wf, h.ext, h.good⟩

theorem StackOK.tail {orig : Board} {t : Frame} {rest : List Frame}
    (h : StackOK orig (t :: rest)) : StackOK orig rest :=
  fun f hf => h f (List.mem_cons_of_mem _ hf)

theorem StackOK.bumpTop {orig : Board} {t : Frame} {rest : List Frame}
    (h : StackOK orig (t :: rest)) : StackOK orig ({ t with count := t.count + 1 } :: rest) := by
  intro f hf
  rcases List.mem_cons.1 hf with rfl | hf
  · exact (h t (by simp)).bump
  · exact h f (List.mem_cons_of_mem _ hf)

theorem StackOK.push {orig : Board} {t : Frame} {rest : List Frame}
    (h : StackOK orig (t :: rest)) {r : Deduced} {g : List Cand} (hg : r.guesses = some g)
    (hframe : FrameOK orig { guesses := r.guesses.getD [], count := 0, board := r.board }) :
    StackOK orig ({ guesses := g, count := 0, board := r.board } ::
      { t with count := t.count + 1 } :: rest) := by
  intro f hf
  rcases List.mem_cons.1 hf with rfl | hf
  · rw [hg] at hframe; exact hframe
  · exact h.bumpTop f hf

/-- Whatever `solvenext` returns as an answer is a valid grid that agrees with
the board the search started from, and the stack it returns is well formed. -/
theorem solvenext_sound (tries : Nat) (rng : Nat → Nat) (orig : Board) (fuel : Nat) (st : List Frame)
    (k : Nat) (res : Solved) (hst : StackOK orig st) (h : solvenext tries rng fuel st k = some res) :
    StackOK orig res.state ∧ ∀ A, res.answer = some A → ValidGrid A ∧ Agrees orig A := by
  refine solvenext_ind tries rng orig (StackOK orig)
    (fun res => StackOK orig res.state ∧ ∀ A, res.answer = some A → ValidGrid A ∧ Agrees orig A)
    (fun _ h => h) (fun h _ => ⟨h, fun A hA => by simp at hA⟩) (fun _ _ h _ => h.tail)
    (fun t rest c hinv _ r hspec _ _ hframe => ⟨fun hg => ⟨hinv.bumpTop, fun A hA => ?_⟩,
      fun g hg => hinv.push hg hframe⟩) fuel st k res hst h
  simp only [Option.some.injEq] at hA
  subst hA
  exact ⟨hspec.solved hg, hframe.ext⟩

/-- A valid completion within reach of the search is either the answer
returned or still within reach of the stack returned; in particular an answer
is returned. -/
theorem solvenext_complete (tries : Nat) (rng : Nat → Nat) (orig S : Board) (hS : ValidGrid S) (fuel : Nat)
    (st : List Frame) (k : Nat) (res : Solved) (hst : StackOK orig st) (hcov : Covered S st)
    (h : solvenext tries rng fuel st k = some res) :
    res.answer ≠ none ∧ (res.answer = some S ∨ Covered S res.state) := by
  refine solvenext_ind tries rng orig (fun st => StackOK orig st ∧ Covered S st)
    (fun res => res.answer ≠ none ∧ (res.answer = some S ∨ Covered S res.state))
    (fun _ h => h.1) ?_ ?_ ?_ fuel st k res ⟨hst, hcov⟩ h
  · rintro ⟨_, f, hf, _⟩ _
    simp at hf
  · rintro t rest ⟨hok, f, hf, hag, i, c, hi, hc, hh⟩ hnone
    refine ⟨hok.tail, f, ?_, hag, i, c, hi, hc, hh⟩
    rcases List.mem_cons.1 hf with rfl | hf
    · have h1 : f.guesses.length ≤ f.count := List.getElem?_eq_none_iff.1 hnone
      have h2 : i < f.guesses.length := (List.getElem?_eq_some_iff.1 hc).1
      omega
    · exact hf
  · rintro t rest c0 ⟨hok, f, hf, hag, i, c, hi, hc, hh⟩ hc0 r hspec hagr _ hframe
    have ht := hok t (by simp)
    rcases List.mem_cons.1 hf with rfl | hf
    · by_cases hi0 : i = f.count
      · subst hi0
        rw [hc0] at hc
        simp only [Option.some.injEq] at hc
        subst hc
        have hcomp : Completion (f.board.set c0.pos (some c0.num)) S :=
          ⟨hS, Agrees.set_left ht.wf.1 hag hh⟩
        obtain ⟨hrS, hne⟩ := hspec.sound S hcomp
        refine ⟨fun hg => ⟨by simp, Or.inl ?_⟩, fun g hg => ⟨hok.push hg hframe, ?_⟩⟩
        · rw [validGrid_eq_of_agrees (hspec.solved hg) hS.1 hrS]
        · have hgne : g ≠ [] := fun hg0 => hne (by rw [hg, hg0])
          obtain ⟨c', hc', hh'⟩ := (hspec.stuck g hg hgne).2.2.2.1 S ⟨hS, hrS⟩
          obtain ⟨j, hj⟩ := List.mem_iff_getElem?.1 hc'
          exact ⟨_, List.mem_cons_self _ _, hrS, j, c', Nat.zero_le _, hj, hh'⟩
      · have hcov' : Covered S ({ f with count := f.count + 1 } :: rest) :=
          ⟨_, List.mem_cons_self _ _, hag, i, c, by show f.count + 1 ≤ i; omega, hc, hh⟩
        refine ⟨fun hg => ⟨by simp, Or.inr hcov'⟩, fun g hg => ⟨hok.push hg hframe, ?_⟩⟩
        obtain ⟨f', hf', rest'⟩ := hcov'
        exact ⟨f', List.mem_cons_of_mem _ hf', rest'⟩
    · have hcov' : Covered S ({ t with count := t.count + 1 } :: rest) :=
        ⟨f, List.mem_cons_of_mem _ hf, hag, i, c, hi, hc, hh⟩
      refine ⟨fun hg => ⟨by simp, Or.inr hcov'⟩, fun g hg => ⟨hok.push hg hframe, ?_⟩⟩
      obtain ⟨f', hf', rest'⟩ := hcov'
      exact ⟨f', List.mem_cons_of_mem _ hf', rest'⟩

theorem OnBranch.extend {orig : Board} {f : Frame} (hf : FrameOK orig f) {B B' : Board}
    (h : OnBranch f B) (hag : Agrees B B') : OnBranch f B' := by
  obtain ⟨h1, c, hc, hh⟩ := h
  exact ⟨h1, c, hc, Holds.of_agrees (hf.cand hc).2.1 hh hag⟩

/-- The answer `solvenext` returns lies on the current branch of every frame
of the stack it returns. -/
theorem solvenext_chain (tries : Nat) (rng : Nat → Nat) (orig : Board) (fuel : Nat) (st : List Frame)
    (k : Nat) (res : Solved) (hst : StackOK orig st) (hch : Chain st)
    (h : solvenext tries rng fuel st k = some res) :
    ∀ A, res.answer = some A → ∀ f ∈ res.state, OnBranch f A := by
  refine solvenext_ind tries rng orig (fun st => StackOK orig st ∧ Chain st)
    (fun res => ∀ A, res.answer = some A → ∀ f ∈ res.state, OnBranch f A)
    (fun _ h => h.1) (fun _ _ A hA => by simp at hA)
    (fun t rest h _ => ⟨h.1.tail, (List.pairwise_cons.1 h.2).2⟩) ?_ fuel st k res ⟨hst, hch⟩ h
  rintro t rest c ⟨hok, hch⟩ hc r hspec hagr hholds hframe
  obtain ⟨hhead, htail⟩ := List.pairwise_cons.1 hch
  have hall : ∀ f ∈ { t with count := t.count + 1 } :: rest, OnBranch f r.board := by
    intro f hf
    rcases List.mem_cons.1 hf with rfl | hf
    · exact ⟨by show 1 ≤ t.count + 1; omega, c, by simpa using hc, hholds⟩
    · exact (hhead f hf).extend (hok f (List.mem_cons_of_mem _ hf)) hagr
  refine ⟨fun hg A hA => ?_, fun g hg => ⟨hok.push hg hframe, ?_⟩⟩
  · simp only [Option.some.injEq] at hA
    subst hA
    exact hall
  · exact List.pairwise_cons.2 ⟨hall, List.pairwise_cons.2 ⟨hhead, htail⟩⟩

/-- A grid out of reach of the stack is never returned. -/
theorem solvenext_excluded (tries : Nat) (rng : Nat → Nat) (orig A : Board) (fuel : Nat) (st : List Frame)
    (k : Nat) (res : Solved) (hst : StackOK orig st) (hex : Excluded A st)
    (h : solvenext tries rng fuel st k = some res) : res.answer ≠ some A := by
  refine solvenext_ind tries rng orig (fun st => StackOK orig st ∧ Excluded A st)
    (fun res => res.answer ≠ some A)
    (fun _ h => h.1) (fun _ _ => by simp)
    (fun t rest h _ => ⟨h.1.tail, fun f hf => h.2 f (List.mem_cons_of_mem _ hf)⟩) ?_
    fuel st k res ⟨hst, hex⟩ h
  rintro t rest c ⟨hok, hex⟩ hc r hspec hagr hholds hframe
  have ht := hok t (by simp)
  have hnot : ¬ Agrees r.board A := by
    intro hrA
    rcases hex t (by simp) with h1 | h1
    · exact h1 (hagr.trans hrA)
    · exact h1 t.count c (Nat.le_refl _) hc (Holds.of_agrees (ht.cand hc).2.1 hholds hrA)
  refine ⟨fun hg hA => ?_, fun g hg => ⟨hok.push hg hframe, fun f hf => ?_⟩⟩
  · simp only [Option.some.injEq] at hA
    rw [hA] at hnot
    exact hnot (Agrees.refl A)
  · rcases List.mem_cons.1 hf with rfl | hf
    · exact Or.inl hnot
    · rcases List.mem_cons.1 hf with rfl | hf
      · rcases hex t (by simp) with h1 | h1
        · exact Or.inl h1
        · exact Or.inr (fun i c' hi hc' => h1 i c' (by have : t.count + 1 ≤ i := hi; omega) hc')
      · exact hex f (List.mem_cons_of_mem _ hf)

/-- A valid answer on the current branch of every frame is out of reach of the
untried candidates: they exclude the candidate tried last. -/
theorem excluded_of_onBranch {orig A : Board} {st : List Frame} (hst : StackOK orig st)
    (hA : ValidGrid A) (h : ∀ f ∈ st, OnBranch f A) : Excluded A st := by
  intro f hf
  right
  intro i c hi hc hh
  obtain ⟨h1, c0, hc0, hh0⟩ := h f hf
  obtain ⟨hgood, _⟩ := (hst f hf).cand hc
  obtain ⟨hil, hic⟩ := List.getElem?_eq_some_iff.1 hc
  obtain ⟨h0l, h0c⟩ := List.getElem?_eq_some_iff.1 hc0
  have hpw := List.pairwise_iff_getElem.1 hgood.2.2.2.2 (f.count - 1) i h0l hil (by omega)
  rw [h0c, hic] at hpw
  exact hpw A hA ⟨hh0, hh⟩

/-! ## Termination of the search -/

theorem frameBound_pos (e : Nat) : 1 ≤ frameBound e := by
  cases e with
  | zero => simp [frameBound]
  | succ e => simp only [frameBound]; omega

theorem frameBound_succ_le (e : Nat) : frameBound e ≤ frameBound (e + 1) := by
  simp only [frameBound]; omega

theorem frameBound_mono {e e' : Nat} (h : e ≤ e') : frameBound e ≤ frameBound e' := by
  induction h with
  | refl => exact Nat.le_refl _
  | step _ ih => exact ih.trans (frameBound_succ_le _)

theorem emptyCount_pos {b : Board} {p : Nat} (hp : p < b.length)
    (he : b[p]?.getD none = none) : 0 < emptyCount b := by
  unfold emptyCount
  rw [List.count_pos_iff]
  rw [List.getElem?_eq_getElem hp] at he
  simp only [Option.getD_some] at he
  rw [← he]
  exact List.getElem_mem hp

theorem frameCost_le {orig : Board} {f : Frame} (hf : FrameOK orig f) :
    frameCost f ≤ frameBound (emptyCount f.board) := by
  unfold frameCost
  rcases hf.good with h | h
  · rw [h]
    simp only [List.length_nil, Nat.zero_sub, Nat.zero_mul, Nat.add_zero]
    exact frameBound_pos _
  · obtain ⟨h2, h9, hmem, _, _⟩ := h
    obtain ⟨c, hc⟩ := List.exists_mem_of_length_pos (by omega : 0 < f.guesses.length)
    obtain ⟨hp, _, he⟩ := hmem c hc
    have hpos := emptyCount_pos (by rw [hf.wf.1]; exact hp) he
    obtain ⟨e, he'⟩ : ∃ e, emptyCount f.board = e + 1 := ⟨emptyCount f.board - 1, by omega⟩
    rw [he']
    simp only [Nat.add_sub_cancel, frameBound]
    have : (f.guesses.length - f.count) * (1 + frameBound e) ≤ 9 * (1 + frameBound e) :=
      Nat.mul_le_mul_right _ (by omega)
    omega

theorem stackCost_cons (f : Frame) (st : List Frame) :
    stackCost (f :: st) = frameCost f + stackCost st := by
  simp [stackCost]

theorem frameCost_bump {t : Frame} (h : t.count < t.guesses.length) :
    frameCost t = frameCost { t with count := t.count + 1 }
      + (1 + frameBound (emptyCount t.board - 1)) := by
  unfold frameCost
  dsimp only
  obtain ⟨m, hm⟩ : ∃ m, t.guesses.length - t.count = m + 1 :=
    ⟨t.guesses.length - t.count - 1, by omega⟩
  have hm' : t.guesses.length - (t.count + 1) = m := by omega
  rw [hm, hm', Nat.succ_mul]
  omega

/-- With a budget above the cost of the stack, and on draws that let the
rejection loops end, `solvenext` returns, and the stack it returns costs no
more. -/
theorem solvenext_total (tries : Nat) (rng : Nat → Nat) (hfair : FairWithin rng tries)
    (orig : Board) :
    ∀ (fuel : Nat) (st : List Frame) (k : Nat), StackOK orig st → stackCost st < fuel →
      ∃ res, solvenext tries rng fuel st k = some res ∧
        stackCost res.state ≤ stackCost st := by
  intro fuel
  induction fuel with
  | zero => intro st k _ h; omega
  | succ fuel ih =>
    intro st k hst hfuel
    cases st with
    | nil => exact ⟨_, rfl, Nat.le_refl _⟩
    | cons t rest =>
      rw [stackCost_cons] at hfuel
      unfold solvenext
      cases hc : t.guesses[t.count]? with
      | none =>
        have hpos : 1 ≤ frameCost t := by unfold frameCost; omega
        obtain ⟨res, hres, hle⟩ := ih rest k hst.tail (by omega)
        exact ⟨res, hres, by rw [stackCost_cons]; omega⟩
      | some c =>
        dsimp only
        have ht := hst t (by simp)
        obtain ⟨r, hr, _, _, _, hlt, hframe⟩ := try_spec ht hc tries rng k hfair
        rw [hr]
        dsimp only
        have hbump := frameCost_bump (List.getElem?_eq_some_iff.1 hc).1
        cases hg : r.guesses with
        | none =>
          refine ⟨_, rfl, ?_⟩
          show stackCost ({ t with count := t.count + 1 } :: rest) ≤ stackCost (t :: rest)
          rw [stackCost_cons, stackCost_cons]
          omega
        | some g =>
          have hframe' : FrameOK orig { guesses := g, count := 0, board := r.board } := by
            simpa [hg] using hframe
          have hnew := frameCost_le hframe'
          have hmono : frameBound (emptyCount r.board) ≤ frameBound (emptyCount t.board - 1) :=
            frameBound_mono (by omega)
          have h1 : frameCost { guesses := g, count := 0, board := r.board }
              ≤ frameBound (emptyCount t.board - 1) := hnew.trans hmono
          have e1 : stackCost ({ guesses := g, count := 0, board := r.board } ::
              { t with count := t.count + 1 } :: rest)
              = frameCost { guesses := g, count := 0, board := r.board }
                + (frameCost { t with count := t.count + 1 } + stackCost rest) := by
            rw [stackCost_cons, stackCost_cons]
          obtain ⟨res, hres, hle⟩ := ih _ r.k (hst.push hg hframe) (by rw [e1]; omega)
          exact ⟨res, hres, by rw [stackCost_cons]; rw [e1] at hle; omega⟩

/-! ## `solveboard` -/

theorem initial_frame {board : Board} {r : Deduced} (hspec : DeduceSpec board r)
    {g : List Cand} (hg : r.guesses = some g) :
    FrameOK board { guesses := g, count := 0, board := r.board } := by
  refine ⟨hspec.wf, hspec.ext, ?_⟩
  by_cases hne : g = []
  · exact Or.inl hne
  · exact Or.inr (hspec.stuck g hg hne)

/-- With a budget above `stepBound`, and on draws that let the rejection loops
end, the source's `solveboard` returns, and the stack it returns costs less
than the budget. -/
theorem solveboard_returns (tries : Nat) (rng : Nat → Nat) (fuel : Nat) (board : Board)
    (k : Nat) (hfair : FairWithin rng tries) (hb : WellFormed board) (hfuel : stepBound < fuel) :
    ∃ res, solveboard fuel board tries rng k = some res ∧ stackCost res.state < fuel := by
  obtain ⟨r, hr, hspec⟩ := deduce_spec tries rng board k hfair hb
  unfold solveboard
  rw [hr]
  dsimp only
  cases hg : r.guesses with
  | none => exact ⟨_, rfl, by simp [stackCost]; omega⟩
  | some g =>
    have hframe := initial_frame hspec hg
    have hcost : stackCost [{ guesses := g, count := 0, board := r.board }] < fuel := by
      rw [stackCost_cons]
      have h1 := frameCost_le hframe
      have h2 : frameBound (emptyCount r.board) ≤ frameBound 81 :=
        frameBound_mono (by have := emptyCount_le_length r.board; rw [hspec.wf.1] at this; exact this)
      simp only [stackCost, List.map_nil, List.sum_nil]
      unfold stepBound at hfuel
      have h3 : frameCost { guesses := g, count := 0, board := r.board }
          ≤ frameBound 81 := h1.trans h2
      omega
    obtain ⟨res, hres, hle⟩ := solvenext_total tries rng hfair board fuel _ r.k
      (fun f hf => by simp only [List.mem_singleton] at hf; rw [hf]; exact hframe) hcost
    exact ⟨res, hres, by omega⟩

/-- What the source's `solveboard` returns: a well-formed stack; an answer
that is a valid grid, agrees with the board and is out of reach of the stack;
and every valid completion of the board is the answer or within reach. -/
theorem solveboard_spec (tries : Nat) (rng : Nat → Nat) (fuel : Nat) (board : Board) (k : Nat)
    (res : Solved) (hb : WellFormed board) (h : solveboard fuel board tries rng k = some res) :
    StackOK board res.state ∧
      (∀ A, res.answer = some A → ValidGrid A ∧ Agrees board A ∧ Excluded A res.state) ∧
      (∀ S, Completion board S → res.answer ≠ none ∧
        (res.answer = some S ∨ Covered S res.state)) := by
  unfold solveboard at h
  cases hr : deduce board tries rng k with
  | none => rw [hr] at h; simp at h
  | some r =>
  have hspec := deduce_sound tries rng board k r hb hr
  rw [hr] at h
  dsimp only at h
  cases hg : r.guesses with
  | none =>
    rw [hg] at h
    simp only [Option.some.injEq] at h
    subst h
    refine ⟨fun f hf => by simp at hf, fun A hA => ?_, fun S hS => ⟨by simp, Or.inl ?_⟩⟩
    · simp only [Option.some.injEq] at hA
      subst hA
      exact ⟨hspec.solved hg, hspec.ext, fun f hf => by simp at hf⟩
    · rw [validGrid_eq_of_agrees (hspec.solved hg) hS.1.1 (hspec.sound S hS).1]
  | some g =>
    rw [hg] at h
    dsimp only at h
    have hframe := initial_frame hspec hg
    have hst : StackOK board [{ guesses := g, count := 0, board := r.board }] :=
      fun f hf => by simp only [List.mem_singleton] at hf; rw [hf]; exact hframe
    obtain ⟨hst', hans⟩ := solvenext_sound tries rng board fuel _ r.k res hst h
    have hchain :=
      solvenext_chain tries rng board fuel _ r.k res hst (List.pairwise_singleton _ _) h
    refine ⟨hst', fun A hA => ?_, fun S hS => ?_⟩
    · obtain ⟨hv, hag⟩ := hans A hA
      exact ⟨hv, hag, excluded_of_onBranch hst' hv (hchain A hA)⟩
    · obtain ⟨hrS, hne⟩ := hspec.sound S hS
      have hgne : g ≠ [] := fun hg0 => hne (by rw [hg, hg0])
      obtain ⟨c, hc, hh⟩ := (hspec.stuck g hg hgne).2.2.2.1 S ⟨hS.1, hrS⟩
      obtain ⟨j, hj⟩ := List.mem_iff_getElem?.1 hc
      exact solvenext_complete tries rng board S hS.1 fuel _ r.k res hst
        ⟨_, List.mem_singleton_self _, hrS, j, c, Nat.zero_le _, hj, hh⟩ h

/-! ## `solvepuzzle` and `checkpuzzle` -/

theorem solvepuzzle_eq (fuel : Nat) (board : Board) (tries : Nat) (rng : Nat → Nat) (k : Nat)
    (a : Option Board) (k' : Nat) (h : solvepuzzle fuel board tries rng k = some (a, k')) :
    ∃ res, solveboard fuel board tries rng k = some res ∧ res.answer = a ∧ res.k = k' := by
  unfold solvepuzzle at h
  cases hres : solveboard fuel board tries rng k with
  | none => rw [hres] at h; simp at h
  | some res =>
    rw [hres] at h
    simp only [Option.map_some', Option.some.injEq, Prod.mk.injEq] at h
    exact ⟨res, rfl, h.1, h.2⟩

theorem agrees_set_none (G : Board) (p : Nat) : Agrees (G.set p none) G := by
  intro q _
  by_cases hpq : p = q
  · subst hpq
    by_cases hp : p < G.length
    · left; exact cell_set_self G p hp none
    · left; simp [List.getElem?_eq_none (by simpa using Nat.le_of_not_lt hp :
        (G.set p none).length ≤ p)]
  · right; exact (cell_set_ne G p q hpq none).symm

/-- A valid grid with one cell emptied has no other valid completion. -/
theorem completion_of_one_empty {G S : Board} (hG : ValidGrid G) {p : Nat} (hp : p < 81)
    (hS : Completion (G.set p none) S) : S = G := by
  refine (validGrid_eq_of_agrees hG hS.1.1 (fun q hq => Or.inr ?_)).symm
  have hother : ∀ q < 81, q ≠ p → S[q]?.getD none = G[q]?.getD none := by
    intro q hq hqp
    obtain ⟨d, _, hd⟩ := hG.2.1 q hq
    rcases hS.2 q hq with h | h
    · rw [cell_set_ne G p q (Ne.symm hqp), hd] at h; simp at h
    · rw [h, cell_set_ne G p q (Ne.symm hqp)]
  by_cases hqp : q = p
  · subst hqp
    obtain ⟨e, he, hGe⟩ := hG.2.1 q hq
    obtain ⟨y, hy, hSy⟩ := valid_has hS.1 (by omega : 0 < 3) (axisfor_lt 0 (by omega) q hq) he
    have hq' := posfor_lt 0 (by omega) _ (axisfor_lt 0 (by omega) q hq) y hy
    by_cases hsame : posfor (axisfor q 0) y 0 = q
    · rw [hsame] at hSy; rw [hSy, hGe]
    · have hGy := hother _ hq' hsame
      rw [hSy] at hGy
      have := valid_same_group hG (by omega : 0 < 3) hq hq'
        (by rw [axisfor_posfor_all 0 (by omega) _ (axisfor_lt 0 (by omega) q hq) y hy])
        hGe hGy.symm
      exact absurd this.symm hsame
  · exact hother q hq hqp

theorem boardmatches_iff {b1 b2 : Board} (h1 : b1.length = 81) (h2 : b2.length = 81) :
    boardmatches b1 b2 = true ↔ b1 = b2 := by
  unfold boardmatches
  simp only [List.all_eq_true, List.mem_range, beq_iff_eq]
  constructor
  · intro h
    apply List.ext_getElem?
    intro i
    by_cases hi : i < 81
    · have := h i hi
      rw [List.getElem?_eq_getElem (by omega), List.getElem?_eq_getElem (by omega)] at this ⊢
      simpa using this
    · rw [List.getElem?_eq_none (by omega), List.getElem?_eq_none (by omega)]
  · intro h i _
    rw [h]

/-- With a budget above `stepBound`, and on draws that let the rejection loops
end, the source's `checkpuzzle` returns. -/
theorem checkpuzzle_returns (fuel : Nat) (puzzle : Board) (board : Option Board)
    (tries : Nat) (rng : Nat → Nat) (k : Nat) (hfair : FairWithin rng tries)
    (hb : WellFormed puzzle) (hfuel : stepBound < fuel) :
    ∃ d k', checkpuzzle fuel puzzle board tries rng k = some (d, k') := by
  obtain ⟨t1, h1, hcost⟩ := solveboard_returns tries rng fuel puzzle k hfair hb hfuel
  obtain ⟨hst, _, _⟩ := solveboard_spec tries rng fuel puzzle k t1 hb h1
  obtain ⟨t2, h2, _⟩ := solvenext_total tries rng hfair puzzle fuel t1.state t1.k hst hcost
  unfold checkpuzzle
  rw [h1]
  dsimp only
  cases t1.answer with
  | none => exact ⟨_, _, rfl⟩
  | some answer =>
    dsimp only
    split_ifs
    · exact ⟨_, _, rfl⟩
    · rw [h2]
      dsimp only
      cases t2.answer with
      | none => exact ⟨_, _, rfl⟩
      | some _ => exact ⟨_, _, rfl⟩

/-- A rejection by `checkpuzzle` against a reference that completes the puzzle
is justified: the puzzle has a valid completion other than the reference. -/
theorem checkpuzzle_reject (fuel : Nat) (puzzle B : Board) (tries : Nat) (rng : Nat → Nat) (k k' : Nat)
    (hb : WellFormed puzzle) (hB : Completion puzzle B)
    (h : checkpuzzle fuel puzzle (some B) tries rng k = some (-1, k')) :
    ∃ S, Completion puzzle S ∧ S ≠ B := by
  unfold checkpuzzle at h
  cases h1 : solveboard fuel puzzle tries rng k with
  | none => rw [h1] at h; simp at h
  | some t1 =>
    rw [h1] at h
    dsimp only at h
    obtain ⟨hst, hans, hcomp⟩ := solveboard_spec tries rng fuel puzzle k t1 hb h1
    cases ha : t1.answer with
    | none => exact absurd ha (hcomp B hB).1
    | some A =>
      rw [ha] at h
      dsimp only at h
      obtain ⟨hAv, hAag, hAex⟩ := hans A ha
      by_cases hm : boardmatches B A = true
      · rw [if_neg (by simp [hm])] at h
        have hBA : B = A := (boardmatches_iff hB.1.1 hAv.1).1 hm
        cases h2 : solvenext tries rng fuel t1.state t1.k with
        | none => rw [h2] at h; simp at h
        | some t2 =>
          rw [h2] at h
          dsimp only at h
          cases ha2 : t2.answer with
          | none =>
            rw [ha2] at h
            simp only [Option.some.injEq, Prod.mk.injEq] at h
            omega
          | some A2 =>
            obtain ⟨hv2, hag2⟩ := (solvenext_sound tries rng puzzle fuel _ _ t2 hst h2).2 A2 ha2
            refine ⟨A2, ⟨hv2, hag2⟩, fun h21 => ?_⟩
            have := solvenext_excluded tries rng puzzle A fuel _ _ t2 hst hAex h2
            rw [ha2, h21, hBA] at this
            exact this rfl
      · exact ⟨A, ⟨hAv, hAag⟩, fun hAB => hm ((boardmatches_iff hB.1.1 hAv.1).2 hAB.symm)⟩

/-- An acceptance by `checkpuzzle` is justified: the answer found (the
reference, when one is given) is the only valid completion of the puzzle. -/
theorem checkpuzzle_accept (fuel : Nat) (puzzle : Board) (board : Option Board)
    (tries : Nat) (rng : Nat → Nat) (k k' : Nat) (d : Int) (hb : WellFormed puzzle)
    (h : checkpuzzle fuel puzzle board tries rng k = some (d, k')) (hd : d ≠ -1) :
    ∃ A, Completion puzzle A ∧ (∀ S, Completion puzzle S → S = A) ∧
      ∀ B, board = some B → B.length = 81 → B = A := by
  unfold checkpuzzle at h
  cases h1 : solveboard fuel puzzle tries rng k with
  | none => rw [h1] at h; simp at h
  | some t1 =>
    rw [h1] at h
    dsimp only at h
    obtain ⟨hst, hans, hcomp⟩ := solveboard_spec tries rng fuel puzzle k t1 hb h1
    cases ha : t1.answer with
    | none =>
      rw [ha] at h
      simp only [Option.some.injEq, Prod.mk.injEq] at h
      exact absurd h.1.symm hd
    | some A =>
      rw [ha] at h
      dsimp only at h
      obtain ⟨hAv, hAag, _⟩ := hans A ha
      split_ifs at h with hm
      · simp only [Option.some.injEq, Prod.mk.injEq] at h
        exact absurd h.1.symm hd
      · cases h2 : solvenext tries rng fuel t1.state t1.k with
        | none => rw [h2] at h; simp at h
        | some t2 =>
          rw [h2] at h
          dsimp only at h
          cases ha2 : t2.answer with
          | some A2 =>
            rw [ha2] at h
            simp only [Option.some.injEq, Prod.mk.injEq] at h
            exact absurd h.1.symm hd
          | none =>
            refine ⟨A, ⟨hAv, hAag⟩, fun S hS => ?_, fun B hB hlen => ?_⟩
            · rcases (hcomp S hS).2 with h3 | h3
              · rw [ha] at h3
                simp only [Option.some.injEq] at h3
                exact h3.symm
              · exact absurd ha2 (solvenext_complete tries rng puzzle S hS.1 fuel _ _ t2 hst h3 h2).1
            · subst hB
              simp only [Bool.not_eq_true, beq_eq_false_iff_ne, ne_eq, Decidable.not_not,
                Bool.not_eq_false] at hm
              exact (boardmatches_iff hlen hAv.1).1 (by simpa using hm)

/-- On a puzzle with exactly one valid completion `checkpuzzle`, with or
without that completion as reference, does not answer -1. -/
theorem checkpuzzle_unique (fuel : Nat) (puzzle S : Board) (board : Option Board)
    (tries : Nat) (rng : Nat → Nat) (k k' : Nat) (d : Int) (hb : WellFormed puzzle) (hS : Completion puzzle S)
    (huniq : ∀ S', Completion puzzle S' → S' = S) (hboard : board = none ∨ board = some S)
    (h : checkpuzzle fuel puzzle board tries rng k = some (d, k')) : 0 ≤ d := by
  unfold checkpuzzle at h
  cases h1 : solveboard fuel puzzle tries rng k with
  | none => rw [h1] at h; simp at h
  | some t1 =>
    rw [h1] at h
    dsimp only at h
    obtain ⟨hst, hans, hcomp⟩ := solveboard_spec tries rng fuel puzzle k t1 hb h1
    cases ha : t1.answer with
    | none => exact absurd ha (hcomp S hS).1
    | some A =>
      rw [ha] at h
      dsimp only at h
      obtain ⟨hAv, hAag, hAex⟩ := hans A ha
      have hAS : A = S := huniq A ⟨hAv, hAag⟩
      have hmatch : boardmatches S A = true := (boardmatches_iff hS.1.1 hAv.1).2 hAS.symm
      split_ifs at h with hm
      · rcases hboard with hb0 | hb0
        · subst hb0; simp at hm
        · subst hb0; simp [hmatch] at hm
      · cases h2 : solvenext tries rng fuel t1.state t1.k with
        | none => rw [h2] at h; simp at h
        | some t2 =>
          rw [h2] at h
          dsimp only at h
          cases ha2 : t2.answer with
          | none =>
            rw [ha2] at h
            simp only [Option.some.injEq, Prod.mk.injEq] at h
            rw [← h.1]
            exact Int.natCast_nonneg _
          | some A2 =>
            obtain ⟨hv2, hag2⟩ := (solvenext_sound tries rng puzzle fuel _ _ t2 hst h2).2 A2 ha2
            have h21 : A2 = A := (huniq A2 ⟨hv2, hag2⟩).trans hAS.symm
            have := solvenext_excluded tries rng puzzle A fuel _ _ t2 hst hAex h2
            rw [ha2, h21] at this
            exact absurd rfl this

/-! ## The random draws do not decide whether `deduce` solves a board -/

theorem scanLoop_sim {α : Type} (f1 f2 : Scan → α → Except Scan Scan)
    (hstep : ∀ s1 s2 a, Sim s1 s2 → SimE (f1 s1 a) (f2 s2 a)) :
    ∀ (l : List α) (s1 s2 : Scan), Sim s1 s2 → SimE (scanLoop f1 l s1) (scanLoop f2 l s2) := by
  intro l
  induction l with
  | nil => intro s1 s2 h; exact h
  | cons a l ih =>
    intro s1 s2 h
    have hs := hstep s1 s2 a h
    unfold scanLoop
    cases h1 : f1 s1 a with
    | error e1 =>
      cases h2 : f2 s2 a with
      | error e2 => rw [h1, h2] at hs; exact hs
      | ok t2 => rw [h1, h2] at hs; exact hs.elim
    | ok t1 =>
      cases h2 : f2 s2 a with
      | error e2 => rw [h1, h2] at hs; exact hs.elim
      | ok t2 => rw [h1, h2] at hs; exact ih t1 t2 hs

theorem Sim.pickbetter {s1 s2 : Scan} (h : Sim s1 s2) (t : List Cand) (r1 r2 : Nat → Nat) :
    Sim { s1 with guess := (pickbetter s1.guess s1.count t r1 s1.k).guess,
                  count := (pickbetter s1.guess s1.count t r1 s1.k).count,
                  k := (pickbetter s1.guess s1.count t r1 s1.k).k }
        { s2 with guess := (pickbetter s2.guess s2.count t r2 s2.k).guess,
                  count := (pickbetter s2.guess s2.count t r2 s2.k).count,
                  k := (pickbetter s2.guess s2.count t r2 s2.k).k } :=
  ⟨h.1, h.2.1, by
    constructor
    · intro h'; exact absurd h' (pickbetter_guess_ne_none _ _ _ _ _)
    · intro h'; exact absurd h' (pickbetter_guess_ne_none _ _ _ _ _)⟩

theorem nakedStep_sim (al : List Nat) (r1 r2 : Nat → Nat) (s1 s2 : Scan) (pos : Nat)
    (h : Sim s1 s2) : SimE (nakedStep al r1 s1 pos) (nakedStep al r2 s2 pos) := by
  obtain ⟨b1, st1, g1, c1, k1⟩ := s1
  obtain ⟨b2, st2, g2, c2, k2⟩ := s2
  obtain ⟨hb, hst, hg⟩ := h
  dsimp only at hb hst hg
  subst hb hst
  unfold nakedStep
  dsimp only
  by_cases he : b1[pos]?.getD none = none
  · rw [if_pos he, if_pos he]
    split
    · exact ⟨rfl, rfl, hg⟩
    · exact ⟨rfl, rfl, hg⟩
    · by_cases hs : st1 = true
      · rw [if_pos hs, if_pos hs]
        exact Sim.pickbetter (⟨rfl, rfl, hg⟩ : Sim ⟨b1, st1, g1, c1, k1⟩ ⟨b1, st1, g2, c2, k2⟩) _ r1 r2
      · rw [if_neg hs, if_neg hs]
        exact ⟨rfl, rfl, hg⟩
  · rw [if_neg he, if_neg he]
    exact ⟨rfl, rfl, hg⟩

theorem hiddenStep_sim (al : List Nat) (r1 r2 : Nat → Nat) (x axis : Nat) (s1 s2 : Scan)
    (n : Nat) (h : Sim s1 s2) :
    SimE (hiddenStep al r1 x axis s1 n) (hiddenStep al r2 x axis s2 n) := by
  obtain ⟨b1, st1, g1, c1, k1⟩ := s1
  obtain ⟨b2, st2, g2, c2, k2⟩ := s2
  obtain ⟨hb, hst, hg⟩ := h
  dsimp only at hb hst hg
  subst hb hst
  unfold hiddenStep
  dsimp only
  split
  · exact ⟨rfl, rfl, hg⟩
  · exact ⟨rfl, rfl, hg⟩
  · by_cases hs : st1 = true
    · rw [if_pos hs, if_pos hs]
      exact Sim.pickbetter (⟨rfl, rfl, hg⟩ : Sim ⟨b1, st1, g1, c1, k1⟩ ⟨b1, st1, g2, c2, k2⟩) _ r1 r2
    · rw [if_neg hs, if_neg hs]
      exact ⟨rfl, rfl, hg⟩

theorem hiddenScan_sim (bits : Bits) (r1 r2 : Nat → Nat) (s1 s2 : Scan) (h : Sim s1 s2) :
    SimE (hiddenScan bits r1 s1) (hiddenScan bits r2 s2) := by
  unfold hiddenScan
  refine scanLoop_sim _ _ (fun s1 s2 axis h => ?_) _ s1 s2 h
  refine scanLoop_sim _ _ (fun s1 s2 x h => ?_) _ s1 s2 h
  exact scanLoop_sim _ _ (fun s1 s2 n h => hiddenStep_sim _ r1 r2 x axis s1 s2 n h) _ s1 s2 h

theorem deducePass_sim (r1 r2 : Nat → Nat) (board : Board) (k1 k2 : Nat) :
    SimE (deducePass r1 board k1) (deducePass r2 board k2) := by
  unfold deducePass
  dsimp only
  have hn := scanLoop_sim (nakedStep (figurebits board).allowed r1)
    (nakedStep (figurebits board).allowed r2)
    (fun s1 s2 pos h => nakedStep_sim _ r1 r2 s1 s2 pos h) (List.range 81)
    { board := board, stuck := true, guess := none, count := 0, k := k1 }
    { board := board, stuck := true, guess := none, count := 0, k := k2 }
    ⟨rfl, rfl, Iff.rfl⟩
  cases h1 : scanLoop (nakedStep (figurebits board).allowed r1) (List.range 81)
      { board := board, stuck := true, guess := none, count := 0, k := k1 } with
  | error e1 =>
    cases h2 : scanLoop (nakedStep (figurebits board).allowed r2) (List.range 81)
        { board := board, stuck := true, guess := none, count := 0, k := k2 } with
    | error e2 => rw [h1, h2] at hn; exact hn
    | ok t2 => rw [h1, h2] at hn; exact hn.elim
  | ok t1 =>
    cases h2 : scanLoop (nakedStep (figurebits board).allowed r2) (List.range 81)
        { board := board, stuck := true, guess := none, count := 0, k := k2 } with
    | error e2 => rw [h1, h2] at hn; exact hn.elim
    | ok t2 =>
      rw [h1, h2] at hn
      dsimp only
      have hsim : Sim t1 t2 := hn
      rw [← hsim.1, ← hsim.2.1]
      exact hiddenScan_sim _ r1 r2 t1 t2 hsim

/-- When `deduce` returns `null` or the empty list under one sequence of draws
and one budget, it returns the same, with the same board, under every other:
these results are reached without a shuffle.  (For the empty list the board
is taken well formed.) -/
theorem deduceLoop_quiet_indep (t1 t2 : Nat) (r1 r2 : Nat → Nat) :
    ∀ (fuel : Nat) (board : Board) (k1 k2 : Nat) (d1 : Deduced),
      deduceLoop t1 r1 fuel board k1 = some d1 →
      (d1.guesses = none ∨ (d1.guesses = some [] ∧ WellFormed board)) →
      ∃ d2, deduceLoop t2 r2 fuel board k2 = some d2 ∧ d2.guesses = d1.guesses ∧
        d2.board = d1.board := by
  intro fuel
  induction fuel with
  | zero => intro board k1 k2 d1 h; simp [deduceLoop] at h
  | succ fuel ih =>
    intro board k1 k2 d1 h hq
    have hsim := deducePass_sim r1 r2 board k1 k2
    unfold deduceLoop at h ⊢
    cases h1 : deducePass r1 board k1 with
    | error e1 =>
      cases h2 : deducePass r2 board k2 with
      | ok t2 => rw [h1, h2] at hsim; exact hsim.elim
      | error e2 =>
        rw [h1, h2] at hsim
        obtain ⟨hb, _, _⟩ : Sim e1 e2 := hsim
        rw [h1] at h
        simp only [Option.some.injEq] at h
        exact ⟨_, rfl, by rw [← h], by rw [← h, hb]⟩
    | ok s1 =>
      cases h2 : deducePass r2 board k2 with
      | error e2 => rw [h1, h2] at hsim; exact hsim.elim
      | ok s2 =>
        rw [h1, h2] at hsim
        obtain ⟨hb, hst, hg⟩ : Sim s1 s2 := hsim
        rw [h1] at h
        dsimp only at h ⊢
        by_cases hs : s1.stuck = true
        · rw [if_pos hs] at h
          rw [if_pos (hst ▸ hs)]
          cases hg1 : s1.guess with
          | none =>
            rw [hg1] at h
            simp only [Option.some.injEq] at h
            rw [hg.1 hg1]
            exact ⟨_, rfl, by rw [← h], by rw [← h, hb]⟩
          | some g =>
            rw [hg1] at h
            dsimp only at h
            cases hsh : shuffleArray g t1 r1 s1.k with
            | none => rw [hsh] at h; simp at h
            | some p =>
              obtain ⟨g1, k1'⟩ := p
              rw [hsh] at h
              simp only [Option.some.injEq] at h
              rcases hq with hq | ⟨hq, hwf⟩
              · rw [← h] at hq
                simp at hq
              · rw [← h] at hq
                simp only [Option.some.injEq] at hq
                have hpass := deducePass_spec r1 hwf k1
                rw [h1] at hpass
                obtain ⟨⟨bb, _, hinv⟩, _⟩ := (hpass :
                  (∃ bb, Agrees board bb ∧ PassInv board bb s1) ∧ (Idle s1 → ValidGrid board))
                have := (hinv.guess g hg1).1
                have hperm := (shuffleArray_perm g t1 r1 s1.k g1 k1' hsh).length_eq
                rw [hq] at hperm
                simp at hperm
                omega
        · rw [if_neg hs] at h
          rw [if_neg (hst ▸ hs), ← hb]
          refine ih s1.board s1.k s2.k d1 h ?_
          rcases hq with hq | ⟨hq, hwf⟩
          · exact Or.inl hq
          · have hpass := deducePass_spec r1 hwf k1
            rw [h1] at hpass
            obtain ⟨⟨bb, _, hinv⟩, _⟩ := (hpass :
              (∃ bb, Agrees board bb ∧ PassInv board bb s1) ∧ (Idle s1 → ValidGrid board))
            exact Or.inr ⟨hq, hinv.wf⟩

/-- When `deduce` returns `null` under one sequence of draws it returns
`null`, with the same board, under every other, whatever the budgets. -/
theorem deduce_solved_indep (t1 t2 : Nat) (r1 r2 : Nat → Nat) (board : Board) (k1 k2 : Nat)
    (d1 : Deduced) (h : deduce board t1 r1 k1 = some d1) (hnone : d1.guesses = none) :
    ∃ d2, deduce board t2 r2 k2 = some d2 ∧ d2.guesses = none ∧ d2.board = d1.board := by
  obtain ⟨d2, h2, hg, hb⟩ :=
    deduceLoop_quiet_indep t1 t2 r1 r2 82 board k1 k2 d1 h (Or.inl hnone)
  exact ⟨d2, h2, by rw [hg, hnone], hb⟩

/-- When `deduce` returns the empty list on a well-formed board under one
sequence of draws it does so, with the same board, under every other. -/
theorem deduce_empty_indep (t1 t2 : Nat) (r1 r2 : Nat → Nat) (board : Board) (k1 k2 : Nat)
    (d1 : Deduced) (hb : WellFormed board) (h : deduce board t1 r1 k1 = some d1)
    (hnil : d1.guesses = some []) :
    ∃ d2, deduce board t2 r2 k2 = some d2 ∧ d2.guesses = some [] ∧ d2.board = d1.board := by
  obtain ⟨d2, h2, hg, hb'⟩ :=
    deduceLoop_quiet_indep t1 t2 r1 r2 82 board k1 k2 d1 h (Or.inr ⟨hnil, hb⟩)
  exact ⟨d2, h2, by rw [hg, hnil], hb'⟩

/-! ## `ratepuzzle` -/

theorem ratepuzzleLoop_solved (fuel : Nat) (puzzle : Board) (samples : Nat) (tries : Nat)
    (rng : Nat → Nat)
    (hsolved : ∀ k, ∃ d, deduce puzzle tries rng k = some d ∧ d.guesses = none) :
    ∀ (i total k : Nat), ∃ k',
      ratepuzzleLoop fuel puzzle samples tries rng i total k
        = some (jsDiv total samples, k') := by
  intro i
  induction i with
  | zero => intro total k; exact ⟨k, rfl⟩
  | succ i ih =>
    intro total k
    obtain ⟨d, hd, hg⟩ := hsolved k
    unfold ratepuzzleLoop solveboard
    rw [hd]
    dsimp only
    rw [hg]
    dsimp only
    obtain ⟨k', hk'⟩ := ih total d.k
    exact ⟨k', by simpa using hk'⟩

theorem ratepuzzleLoop_spec (fuel : Nat) (puzzle : Board) (samples : Nat) (tries : Nat)
    (rng : Nat → Nat) (hfair : FairWithin rng tries) (hb : WellFormed puzzle)
    (hfuel : stepBound < fuel) (hS : ∃ S, Completion puzzle S) :
    ∀ (i total k : Nat), ∃ k',
      ratepuzzleLoop fuel puzzle samples tries rng i total k
        = some (jsDiv (total + (sampleLengths fuel puzzle tries rng i k).sum) samples, k')
      ∧ (sampleLengths fuel puzzle tries rng i k).length = i := by
  intro i
  induction i with
  | zero => intro total k; exact ⟨k, by simp [ratepuzzleLoop, sampleLengths], rfl⟩
  | succ i ih =>
    intro total k
    obtain ⟨res, hres, _⟩ := solveboard_returns tries rng fuel puzzle k hfair hb hfuel
    obtain ⟨S, hS'⟩ := hS
    have hans := ((solveboard_spec tries rng fuel puzzle k res hb hres).2.2 S hS').1
    obtain ⟨A, hA⟩ := Option.ne_none_iff_exists'.1 hans
    unfold ratepuzzleLoop sampleLengths
    rw [hres]
    dsimp only
    rw [hA]
    dsimp only
    obtain ⟨k', hk', hlen⟩ := ih (total + res.state.length) res.k
    refine ⟨k', ?_, by simp [hlen]⟩
    rw [hk', List.sum_cons, Nat.add_assoc]

theorem ratepuzzleLoop_unsolvable (fuel : Nat) (puzzle : Board) (samples : Nat) (tries : Nat)
    (rng : Nat → Nat) (hfair : FairWithin rng tries) (hb : WellFormed puzzle)
    (hfuel : stepBound < fuel) (hS : ¬ ∃ S, Completion puzzle S) (i total k : Nat) :
    ∃ k', ratepuzzleLoop fuel puzzle samples tries rng (i + 1) total k = some (-1, k') := by
  obtain ⟨res, hres, _⟩ := solveboard_returns tries rng fuel puzzle k hfair hb hfuel
  unfold ratepuzzleLoop
  rw [hres]
  dsimp only
  cases hA : res.answer with
  | none => exact ⟨_, rfl⟩
  | some A =>
    obtain ⟨hv, hag, _⟩ := (solveboard_spec tries rng fuel puzzle k res hb hres).2.1 A hA
    exact absurd ⟨A, hv, hag⟩ hS

/-! ## The quotient of `ratepuzzle` -/

theorem jsDiv_nonneg (a b : Nat) : 0 ≤ jsDiv a b := by
  unfold jsDiv
  split_ifs
  · exact le_refl 0
  · exact div_nonneg (Nat.cast_nonneg _) (by positivity)

theorem jsDiv_zero (b : Nat) : jsDiv 0 b = 0 := by
  simp [jsDiv]

/-! ## Draws -/

theorem fairWithin_counter : FairWithin counter 2 := by
  intro k n i hn
  by_cases hk : (k + 1) % n = i
  · refine ⟨1, by omega, ?_⟩
    show (k + 1 + 1) % n ≠ i
    rw [← hk, Nat.add_mod (k + 1) 1, Nat.mod_eq_of_lt (by omega : 1 < n)]
    have hr : (k + 1) % n < n := Nat.mod_lt _ (by omega)
    by_cases hlast : (k + 1) % n + 1 = n
    · rw [hlast, Nat.mod_self]; omega
    · rw [Nat.mod_eq_of_lt (by omega)]; omega
  · exact ⟨0, by omega, hk⟩

theorem FairWithin.mono {rng : Nat → Nat} {t t' : Nat} (h : FairWithin rng t) (ht : t ≤ t') :
    FairWithin rng t' := by
  intro k n i hn
  obtain ⟨j, hj, hne⟩ := h k n i hn
  exact ⟨j, by omega, hne⟩

/-- On the draws `zeros` the shuffle of a non-empty array has no result. -/
theorem shuffleArray_zeros {α : Type} (xs : List α) (hne : xs ≠ []) (tries k : Nat) :
    shuffleArray xs tries zeros k = none := by
  unfold shuffleArray
  obtain ⟨n, hn⟩ : ∃ n, xs.length = n + 1 :=
    ⟨xs.length - 1, by have := List.length_pos.2 hne; omega⟩
  rw [hn, List.range_succ_eq_map, shuffleLoop, hn,
    otherIndex_none zeros (n + 1) 0 (fun _ => Nat.zero_mod _) tries k]

/-- On a well-formed board where `deduce` ends on a non-empty candidate list
under some draws, it has no result on the draws `zeros`: the shuffle of the
list does not end. -/
theorem deduceLoop_zeros (t1 : Nat) (r1 : Nat → Nat) :
    ∀ (fuel : Nat) (board : Board) (k1 : Nat) (d1 : Deduced) (g : List Cand),
      WellFormed board → deduceLoop t1 r1 fuel board k1 = some d1 → d1.guesses = some g →
      g ≠ [] → ∀ t2 k2, deduceLoop t2 zeros fuel board k2 = none := by
  intro fuel
  induction fuel with
  | zero => intro board k1 d1 g _ h; simp [deduceLoop] at h
  | succ fuel ih =>
    intro board k1 d1 g hwf h hg hne t2 k2
    have hsim := deducePass_sim r1 zeros board k1 k2
    have hpass := deducePass_spec zeros hwf k2
    unfold deduceLoop at h ⊢
    cases h1 : deducePass r1 board k1 with
    | error e1 =>
      rw [h1] at h
      simp only [Option.some.injEq] at h
      rw [← h] at hg
      simp only [Option.some.injEq] at hg
      exact absurd hg.symm hne
    | ok s1 =>
      cases h2 : deducePass zeros board k2 with
      | error e2 => rw [h1, h2] at hsim; exact hsim.elim
      | ok s2 =>
        rw [h1, h2] at hsim
        rw [h2] at hpass
        obtain ⟨⟨bb, _, hinv⟩, _⟩ := (hpass :
          (∃ bb, Agrees board bb ∧ PassInv board bb s2) ∧ (Idle s2 → ValidGrid board))
        obtain ⟨hb, hst, hgs⟩ : Sim s1 s2 := hsim
        rw [h1] at h
        dsimp only at h ⊢
        by_cases hs : s1.stuck = true
        · rw [if_pos hs] at h
          rw [if_pos (hst ▸ hs)]
          cases hg2 : s2.guess with
          | none =>
            rw [hgs.2 hg2] at h
            simp only [Option.some.injEq] at h
            rw [← h] at hg
            simp at hg
          | some g2 =>
            dsimp only
            have hlen := (hinv.guess g2 hg2).1
            rw [shuffleArray_zeros g2 (by intro h0; rw [h0] at hlen; simp at hlen)]
        · rw [if_neg hs] at h
          rw [if_neg (hst ▸ hs), ← hb]
          have hpass1 := deducePass_spec r1 hwf k1
          rw [h1] at hpass1
          obtain ⟨⟨bb1, _, hinv1⟩, _⟩ := (hpass1 :
            (∃ bb, Agrees board bb ∧ PassInv board bb s1) ∧ (Idle s1 → ValidGrid board))
          exact ih s1.board s1.k d1 g hinv1.wf h hg hne t2 s2.k

/-- A well-formed board with two distinct valid completions makes `deduce` end
on a non-empty candidate list, whenever it returns. -/
theorem deduce_stuck_of_two {board S1 S2 : Board} (hb : WellFormed board) (hne : S1 ≠ S2)
    (h1 : Completion board S1) (h2 : Completion board S2) (tries : Nat) (rng : Nat → Nat)
    (k : Nat) (r : Deduced) (h : deduce board tries rng k = some r) :
    ∃ g, r.guesses = some g ∧ g ≠ [] := by
  have hspec := deduce_sound tries rng board k r hb h
  cases hg : r.guesses with
  | none =>
    have hv := hspec.solved hg
    have e1 := validGrid_eq_of_agrees hv h1.1.1 (hspec.sound S1 h1).1
    have e2 := validGrid_eq_of_agrees hv h2.1.1 (hspec.sound S2 h2).1
    exact absurd (e1.symm.trans e2) hne
  | some g =>
    refine ⟨g, rfl, fun h0 => ?_⟩
    rw [h0] at hg
    exact (hspec.sound S1 h1).2 hg

/-- On the draws `zeros`, `solveboard` has no result on a well-formed board
where `deduce` ends on a non-empty candidate list under some draws. -/
theorem solveboard_zeros (t1 : Nat) (r1 : Nat → Nat) (board : Board) (k1 : Nat) (d1 : Deduced)
    (g : List Cand) (hb : WellFormed board) (h : deduce board t1 r1 k1 = some d1)
    (hg : d1.guesses = some g) (hne : g ≠ []) (fuel tries k : Nat) :
    solveboard fuel board tries zeros k = none := by
  unfold solveboard
  have : deduce board tries zeros k = none :=
    deduceLoop_zeros t1 r1 82 board k1 d1 g hb h hg hne tries k
  rw [this]

/-- On the draws `zeros`, `solveboard` has no result on a well-formed board
with two distinct valid completions. -/
theorem solveboard_zeros_of_two {board S1 S2 : Board} (hb : WellFormed board) (hne : S1 ≠ S2)
    (h1 : Completion board S1) (h2 : Completion board S2) (fuel tries k : Nat) :
    solveboard fuel board tries zeros k = none := by
  obtain ⟨r, hr, _⟩ := deduce_spec 2 counter board 0 fairWithin_counter hb
  obtain ⟨g, hg, hgne⟩ := deduce_stuck_of_two hb hne h1 h2 2 counter 0 r hr
  exact solveboard_zeros 2 counter board 0 r g hb hr hg hgne fuel tries k

/-! ## Composing a run from its passes -/

theorem deduceLoop_step (tries : Nat) (rng : Nat → Nat) (fuel : Nat) (b : Board) (k : Nat)
    (b1 : Board) (g : Option (List Cand)) (c k1 : Nat)
    (h : deducePass rng b k
      = .ok { board := b1, stuck := false, guess := g, count := c, k := k1 }) :
    deduceLoop tries rng (fuel + 1) b k = deduceLoop tries rng fuel b1 k1 := by
  rw [deduceLoop, h]
  rfl

theorem deduceLoop_done (tries : Nat) (rng : Nat → Nat) (fuel : Nat) (b : Board) (k : Nat)
    (b1 : Board) (c k1 : Nat)
    (h : deducePass rng b k
      = .ok { board := b1, stuck := true, guess := none, count := c, k := k1 }) :
    deduceLoop tries rng (fuel + 1) b k = some { guesses := none, board := b1, k := k1 } := by
  rw [deduceLoop, h]
  rfl

theorem deduceLoop_guess (tries : Nat) (rng : Nat → Nat) (fuel : Nat) (b : Board) (k : Nat)
    (b1 : Board) (g g1 : List Cand) (c k1 k2 : Nat)
    (h : deducePass rng b k
      = .ok { board := b1, stuck := true, guess := some g, count := c, k := k1 })
    (hs : shuffleArray g tries rng k1 = some (g1, k2)) :
    deduceLoop tries rng (fuel + 1) b k = some { guesses := some g1, board := b1, k := k2 } := by
  rw [deduceLoop, h]
  dsimp only
  rw [if_pos rfl, hs]

theorem deduceLoop_error (tries : Nat) (rng : Nat → Nat) (fuel : Nat) (b : Board) (k : Nat)
    (b1 : Board) (st : Bool) (g : Option (List Cand)) (c k1 : Nat)
    (h : deducePass rng b k
      = .error { board := b1, stuck := st, guess := g, count := c, k := k1 }) :
    deduceLoop tries rng (fuel + 1) b k = some { guesses := some [], board := b1, k := k1 } := by
  rw [deduceLoop, h]

theorem solveboard_of_guess (fuel : Nat) (b : Board) (tries : Nat) (rng : Nat → Nat) (k : Nat)
    (g : List Cand) (b1 : Board) (k1 : Nat)
    (h : deduce b tries rng k = some { guesses := some g, board := b1, k := k1 }) :
    solveboard fuel b tries rng k
      = solvenext tries rng fuel [{ guesses := g, count := 0, board := b1 }] k1 := by
  unfold solveboard
  rw [h]

theorem solvenext_pop (tries : Nat) (rng : Nat → Nat) (fuel : Nat) (g : List Cand) (c : Nat)
    (b : Board) (rest : List Frame) (k : Nat) (h : g[c]? = none) :
    solvenext tries rng (fuel + 1) ({ guesses := g, count := c, board := b } :: rest) k
      = solvenext tries rng fuel rest k := by
  rw [solvenext]
  dsimp only
  rw [h]

theorem solvenext_found (tries : Nat) (rng : Nat → Nat) (fuel : Nat) (g : List Cand) (c : Nat)
    (b : Board) (rest : List Frame) (k p n : Nat) (A : Board) (k1 : Nat)
    (h : g[c]? = some { pos := p, num := n })
    (hd : deduce (b.set p (some n)) tries rng k = some { guesses := none, board := A, k := k1 }) :
    solvenext tries rng (fuel + 1) ({ guesses := g, count := c, board := b } :: rest) k
      = some { state := { guesses := g, count := c + 1, board := b } :: rest, answer := some A,
               k := k1 } := by
  rw [solvenext]
  dsimp only
  rw [h]
  dsimp only
  rw [hd]

theorem solvenext_push (tries : Nat) (rng : Nat → Nat) (fuel : Nat) (g : List Cand) (c : Nat)
    (b : Board) (rest : List Frame) (k p n : Nat) (g1 : List Cand) (b1 : Board) (k1 : Nat)
    (h : g[c]? = some { pos := p, num := n })
    (hd : deduce (b.set p (some n)) tries rng k
      = some { guesses := some g1, board := b1, k := k1 }) :
    solvenext tries rng (fuel + 1) ({ guesses := g, count := c, board := b } :: rest) k
      = solvenext tries rng fuel
          ({ guesses := g1, count := 0, board := b1 }
            :: { guesses := g, count := c + 1, board := b } :: rest) k1 := by
  rw [solvenext]
  dsimp only
  rw [h]
  dsimp only
  rw [hd]

/-! ## A pass on a valid grid -/

theorem scanLoop_idle {α : Type} (f : Scan → α → Except Scan Scan) (l : List α) (s : Scan)
    (h : ∀ a ∈ l, f s a = .ok s) : scanLoop f l s = .ok s := by
  induction l with
  | nil => rfl
  | cons a l ih =>
    rw [scanLoop, h a (List.mem_cons_self _ _)]
    exact ih (fun a ha => h a (List.mem_cons_of_mem _ ha))

/-- A pass on a valid grid changes nothing and reads no draw. -/
theorem deducePass_full (rng : Nat → Nat) (G : Board) (k : Nat) (hG : ValidGrid G) :
    deducePass rng G k
      = .ok { board := G, stuck := true, guess := none, count := 0, k := k } := by
  unfold deducePass
  dsimp only
  rw [scanLoop_idle]
  · dsimp only
    rw [if_neg (by decide)]
    unfold hiddenScan
    refine scanLoop_idle _ _ _ (fun axis ha => ?_)
    refine scanLoop_idle _ _ _ (fun x hx => ?_)
    rw [List.mem_range] at ha hx
    rw [figurebits_needed G axis ha x hx]
    have hnil : listbits (axismissing G x axis) = [] := by
      rw [List.eq_nil_iff_forall_not_mem]
      intro d hd
      obtain ⟨hd9, hbit⟩ := (mem_listbits _ _).1 hd
      obtain ⟨y, hy, hGy⟩ := valid_has hG ha hx hd9
      exact ((testBit_axismissing G x axis d hd9).1 hbit) y hy hGy
    rw [hnil]
    rfl
  · intro pos hpos
    rw [List.mem_range] at hpos
    obtain ⟨d, _, hd⟩ := hG.2.1 pos hpos
    unfold nakedStep
    dsimp only
    rw [if_neg (by rw [hd]; exact Option.some_ne_none d)]

/-! ## Runs on the concrete boards -/

theorem wellFormed_puzzleOne : WellFormed puzzleOne := by decide!

theorem wellFormed_puzzleTwo : WellFormed puzzleTwo := by decide!

theorem wellFormed_fullClash : WellFormed fullClash := by decide!

theorem deduce_puzzleOne :
    deduce puzzleOne 0 zeros 0 = some { guesses := none, board := gridA, k := 0 } := by decide!

theorem validGrid_gridA : ValidGrid gridA :=
  (deduce_sound 0 zeros puzzleOne 0 _ wellFormed_puzzleOne deduce_puzzleOne).solved rfl

theorem pass_puzzleTwo :
    deducePass counter puzzleTwo 0
      = .ok { board := puzzleTwo, stuck := true, guess := some frameTwo.guesses, count := 16,
              k := 15 } := by decide!

theorem shuffle_frameTwo :
    shuffleArray frameTwo.guesses 2 counter 15 = some (frameTwo.guesses, 18) := by decide!

theorem deduce_puzzleTwo :
    deduce puzzleTwo 2 counter 0
      = some { guesses := some frameTwo.guesses, board := puzzleTwo, k := 18 } :=
  deduceLoop_guess 2 counter 81 puzzleTwo 0 puzzleTwo frameTwo.guesses frameTwo.guesses 16 15 18
    pass_puzzleTwo shuffle_frameTwo

theorem pass_puzzleTwo_four :
    deducePass counter (puzzleTwo.set 1 (some 4)) 18
      = .ok { board := gridB, stuck := false, guess := none, count := 0, k := 18 } := by decide!

theorem pass_gridB :
    deducePass counter gridB 18
      = .ok { board := gridB, stuck := true, guess := none, count := 0, k := 18 } := by decide!

theorem pass_puzzleTwo_five :
    deducePass counter (puzzleTwo.set 1 (some 5)) 18
      = .ok { board := gridA, stuck := false, guess := none, count := 0, k := 18 } := by decide!

theorem deduce_puzzleTwo_four :
    deduce (puzzleTwo.set 1 (some 4)) 2 counter 18
      = some { guesses := none, board := gridB, k := 18 } :=
  (deduceLoop_step 2 counter 81 _ 18 gridB none 0 18 pass_puzzleTwo_four).trans
    (deduceLoop_done 2 counter 80 gridB 18 gridB 0 18 pass_gridB)

theorem deduce_puzzleTwo_five :
    deduce (puzzleTwo.set 1 (some 5)) 2 counter 18
      = some { guesses := none, board := gridA, k := 18 } :=
  (deduceLoop_step 2 counter 81 _ 18 gridA none 0 18 pass_puzzleTwo_five).trans
    (deduceLoop_done 2 counter 80 gridA 18 gridA 0 18
      (deducePass_full counter gridA 18 validGrid_gridA))

theorem solveboard_puzzleTwo :
    solveboard 2 puzzleTwo 2 counter 0
      = some { state := [frameTwo], answer := some gridB, k := 18 } :=
  (solveboard_of_guess 2 puzzleTwo 2 counter 0 frameTwo.guesses puzzleTwo 18
      deduce_puzzleTwo).trans
    (solvenext_found 2 counter 1 frameTwo.guesses 0 puzzleTwo [] 18 1 4 gridB 18 rfl
      deduce_puzzleTwo_four)

theorem solvenext_puzzleTwo :
    solvenext 2 counter 2 [frameTwo] 18
      = some { state := [{ frameTwo with count := 2 }], answer := some gridA, k := 18 } :=
  solvenext_found 2 counter 1 frameTwo.guesses 1 puzzleTwo [] 18 1 5 gridA 18 rfl
    deduce_puzzleTwo_five

theorem deduce_fullClash :
    deduce fullClash 0 zeros 0 = some { guesses := some [], board := fullClash, k := 0 } := by
  decide!

theorem completion_puzzleOne : Completion puzzleOne gridA :=
  ⟨validGrid_gridA, by decide!⟩

theorem completion_gridB : Completion puzzleTwo gridB := by
  obtain ⟨hv, hag, _⟩ :=
    (solveboard_spec 2 counter 2 puzzleTwo 0 _ wellFormed_puzzleTwo solveboard_puzzleTwo).2.1
      gridB rfl
  exact ⟨hv, hag⟩

theorem completion_gridA : Completion puzzleTwo gridA :=
  ⟨validGrid_gridA, by decide!⟩

theorem gridA_ne_gridB : gridA ≠ gridB := by decide!

/-! ## Geometry -/

/-- C12: for every group index `x` in 0..8, in-group index `y` in 0..8 and
axis in 0..2, `axisfor(posfor(x, y, axis), axis) = x`. -/
theorem axisfor_posfor (x y axis : Nat) (hx : x < 9) (hy : y < 9) (ha : axis < 3) :
    axisfor (posfor x y axis) axis = x :=
  axisfor_posfor_all axis ha x hx y hy

theorem axisfor_posfor_witness : axisfor (posfor 4 7 2) 2 = 4 :=
  axisfor_posfor 4 7 2 (by decide) (by decide) (by decide)

/-- C13: for each fixed axis in 0..2 the map `(x, y) ↦ posfor(x, y, axis)` is
a bijection from `{0..8} × {0..8}` onto the positions `0..80`: every value
lies in 0..80, distinct pairs give distinct positions, every position is hit. -/
theorem posfor_bijective (axis : Nat) (ha : axis < 3) :
    (∀ x < 9, ∀ y < 9, posfor x y axis < 81) ∧
      (∀ x < 9, ∀ y < 9, ∀ x' < 9, ∀ y' < 9,
        posfor x y axis = posfor x' y' axis → x = x' ∧ y = y') ∧
      (∀ p < 81, ∃ x < 9, ∃ y < 9, posfor x y axis = p) := by
  refine ⟨posfor_lt axis ha, fun x hx y hy x' hx' y' hy' h => ?_, fun p hp => ?_⟩
  · have hxx : x = x' := by
      rw [← axisfor_posfor_all axis ha x hx y hy, h, axisfor_posfor_all axis ha x' hx' y' hy']
    subst hxx
    exact ⟨rfl, posfor_inj axis ha x hx y hy y' hy' h⟩
  · obtain ⟨y, hy, hpy⟩ := posfor_onto axis ha p hp
    exact ⟨axisfor p axis, axisfor_lt axis ha p hp, y, hy, hpy⟩

theorem posfor_bijective_witness :
    (∀ x < 9, ∀ y < 9, posfor x y 2 < 81) ∧
      (∀ x < 9, ∀ y < 9, ∀ x' < 9, ∀ y' < 9,
        posfor x y 2 = posfor x' y' 2 → x = x' ∧ y = y') ∧
      (∀ p < 81, ∃ x < 9, ∃ y < 9, posfor x y 2 = p) :=
  posfor_bijective 2 (by decide)

/-! ## `deduce` -/

/-- C14: `deduce` only places forced digits.  On a board of 81 cells, each
empty or a digit 0..8, the board `deduce` leaves keeps every cell that was
filled on entry, and agrees on every filled cell with every valid completion
`S` of the board as it was before the call; so `deduce` returns the empty list
only when the input board has no valid completion.  This holds of whatever
`deduce` returns, on all draws; and it does return on draws that let the
rejection loops of the shuffle end. -/
theorem deduce_forced (board : Board) (hb : WellFormed board) (tries : Nat) (rng : Nat → Nat)
    (k : Nat) :
    (∀ r, deduce board tries rng k = some r → Agrees board r.board ∧
        (∀ S, Completion board S → Agrees r.board S) ∧
        (r.guesses = some [] → ¬ ∃ S, Completion board S)) ∧
      (FairWithin rng tries → ∃ r, deduce board tries rng k = some r) := by
  refine ⟨fun r hr => ?_, fun hfair => ?_⟩
  · have hspec := deduce_sound tries rng board k r hb hr
    refine ⟨hspec.ext, fun S hS => (hspec.sound S hS).1, ?_⟩
    rintro hg ⟨S, hS⟩
    exact (hspec.sound S hS).2 hg
  · obtain ⟨r, hr, _⟩ := deduce_spec tries rng board k hfair hb
    exact ⟨r, hr⟩

theorem deduce_forced_witness :
    WellFormed puzzleTwo ∧
      ((∀ r, deduce puzzleTwo 2 counter 0 = some r → Agrees puzzleTwo r.board ∧
          (∀ S, Completion puzzleTwo S → Agrees r.board S) ∧
          (r.guesses = some [] → ¬ ∃ S, Completion puzzleTwo S)) ∧
        (FairWithin counter 2 → ∃ r, deduce puzzleTwo 2 counter 0 = some r)) :=
  ⟨wellFormed_puzzleTwo, deduce_forced puzzleTwo wellFormed_puzzleTwo 2 counter 0⟩

/-! ## `figurebits` -/

theorem testBit_axismissing_high (board : Board) (hb : WellFormed board) (x axis d : Nat)
    (hd : 9 ≤ d) : (axismissing board x axis).testBit d = false := by
  unfold axismissing
  rw [Nat.testBit_xor, testBit_orFold _ (fun _ => false) d]
  · have h511 : Nat.testBit 511 d = false := by
      have := Nat.testBit_two_pow_sub_one 9 d
      simpa [Nat.not_lt.2 hd] using this
    simp [h511]
  · intro bits y
    cases h : board[posfor x y axis]?.getD none with
    | none => simp
    | some e =>
      have he : e < 9 := by
        have hmem : board[posfor x y axis]? = some (some e) := by
          cases h' : board[posfor x y axis]? with
          | none => rw [h'] at h; simp at h
          | some c => rw [h'] at h; simp only [Option.getD_some] at h; rw [h]
        exact hb.2 _ (List.getElem?_mem hmem) e rfl
      have hne : e ≠ d := by omega
      simp [Nat.testBit_or, Nat.one_shiftLeft, Nat.testBit_two_pow, hne]

theorem figurebits_needed_length (board : Board) : (figurebits board).needed.length = 27 := by
  rw [figurebits_needed_eq]
  rfl

theorem maskFold_length {α : Type} (f : List Nat → α → List Nat)
    (hf : ∀ al a, (f al a).length = al.length) (l : List α) (al : List Nat) :
    (l.foldl f al).length = al.length := by
  induction l generalizing al with
  | nil => rfl
  | cons a l ih => rw [List.foldl_cons, ih, hf]

theorem allowedFold_length {α : Type} (f : Bits → α → Bits)
    (hf : ∀ acc a, (f acc a).allowed.length = acc.allowed.length) (l : List α) (acc : Bits) :
    (l.foldl f acc).allowed.length = acc.allowed.length := by
  induction l generalizing acc with
  | nil => rfl
  | cons a l ih => rw [List.foldl_cons, ih, hf]

theorem figurebits_allowed_length (board : Board) :
    (figurebits board).allowed.length = board.length := by
  unfold figurebits
  rw [allowedFold_length _ (fun acc axis => ?_)]
  · simp
  · rw [allowedFold_length _ (fun acc x => ?_)]
    exact maskFold_length _ (fun al y => List.length_set _ _ _) _ _

theorem allowed_eq (board : Board) (pos : Nat) :
    allowed board pos = 511 &&& axismissing board (axisfor pos 0) 0
      &&& axismissing board (axisfor pos 1) 1 &&& axismissing board (axisfor pos 2) 2 := by
  simp [allowed, List.range_succ]

/-- C17: on a board of 81 cells, each empty or a digit 0..8, `figurebits`
returns 27 needed masks, `needed[axis*9 + x] = axismissing(board, x, axis)`,
whose bit `d` is set iff no cell of group `x` on that axis holds digit `d`;
and 81 allowed masks, `allowed[pos] = 0` on a filled cell and otherwise the
AND of the three needed masks of the row, column and box of `pos`, which is
what the standalone helper `allowed(board, pos)` returns. -/
theorem figurebits_spec (board : Board) (hb : WellFormed board) :
    (figurebits board).needed.length = 27 ∧
      (∀ axis < 3, ∀ x < 9,
        (figurebits board).needed[axis * 9 + x]?.getD 0 = axismissing board x axis ∧
        ∀ d < 9, ((axismissing board x axis).testBit d = true ↔
          ∀ y < 9, board[posfor x y axis]?.getD none ≠ some d)) ∧
      (figurebits board).allowed.length = 81 ∧
      ∀ pos < 81,
        (board[pos]?.getD none ≠ none → (figurebits board).allowed[pos]?.getD 0 = 0) ∧
        (board[pos]?.getD none = none →
          (figurebits board).allowed[pos]?.getD 0 =
            (figurebits board).needed[axisfor pos 0]?.getD 0 &&&
              (figurebits board).needed[9 + axisfor pos 1]?.getD 0 &&&
              (figurebits board).needed[18 + axisfor pos 2]?.getD 0 ∧
          (figurebits board).allowed[pos]?.getD 0 = allowed board pos) := by
  refine ⟨figurebits_needed_length board, fun axis ha x hx =>
    ⟨figurebits_needed board axis ha x hx, fun d hd => testBit_axismissing board x axis d hd⟩,
    by rw [figurebits_allowed_length, hb.1], fun pos hp => ⟨fun hfill => ?_, fun hempty => ?_⟩⟩
  · apply Nat.eq_of_testBit_eq
    intro d
    rw [allowed_filled board hb.1 pos hp d hfill, Nat.zero_testBit]
  · have h0 := figurebits_needed board 0 (by omega) _ (axisfor_lt 0 (by omega) pos hp)
    have h1 := figurebits_needed board 1 (by omega) _ (axisfor_lt 1 (by omega) pos hp)
    have h2 := figurebits_needed board 2 (by omega) _ (axisfor_lt 2 (by omega) pos hp)
    simp only [Nat.zero_mul, Nat.zero_add, Nat.one_mul] at h0 h1
    have h2' : (figurebits board).needed[18 + axisfor pos 2]?.getD 0
        = axismissing board (axisfor pos 2) 2 := by
      rw [← h2]
    rw [h0, h1, h2', allowed_eq]
    have key : ∀ d, ((figurebits board).allowed[pos]?.getD 0).testBit d
        = (axismissing board (axisfor pos 0) 0 &&& axismissing board (axisfor pos 1) 1
            &&& axismissing board (axisfor pos 2) 2).testBit d := by
      intro d
      by_cases hd : d < 9
      · rw [Bool.eq_iff_iff, testBit_allowed board hb.1 pos d hp hd]
        simp only [Nat.testBit_and, Bool.and_eq_true]
        constructor
        · rintro ⟨_, h⟩
          exact ⟨⟨h 0 (by omega), h 1 (by omega)⟩, h 2 (by omega)⟩
        · rintro ⟨⟨a0, a1⟩, a2⟩
          refine ⟨hempty, fun axis ha => ?_⟩
          interval_cases axis
          · exact a0
          · exact a1
          · exact a2
      · have hd' : 9 ≤ d := Nat.le_of_not_lt hd
        rw [testBit_allowed_raw]
        have hcell : (((board.map (fun val => if val = none then 511 else 0))[pos]?.getD 0).testBit d)
            = false := by
          have hp' : pos < board.length := by rw [hb.1]; exact hp
          have h511 : Nat.testBit 511 d = false := by
            have := Nat.testBit_two_pow_sub_one 9 d
            simpa [Nat.not_lt.2 hd'] using this
          simp only [List.getElem?_map, List.getElem?_eq_getElem hp', Option.map_some',
            Option.getD_some]
          split_ifs <;> simp [h511]
        rw [hcell, Bool.false_and, Nat.testBit_and, Nat.testBit_and,
          testBit_axismissing_high board hb _ _ d hd']
        simp
    constructor
    · exact Nat.eq_of_testBit_eq key
    · apply Nat.eq_of_testBit_eq
      intro d
      rw [key d]
      by_cases hd : d < 9
      · simp only [Nat.testBit_and, testBit_511 d hd, Bool.true_and]
      · simp only [Nat.testBit_and, testBit_axismissing_high board hb _ _ d (Nat.le_of_not_lt hd),
          Bool.and_false, Bool.false_and]

theorem figurebits_spec_witness :
    (figurebits puzzleTwo).needed.length = 27 ∧
      (∀ axis < 3, ∀ x < 9,
        (figurebits puzzleTwo).needed[axis * 9 + x]?.getD 0 = axismissing puzzleTwo x axis ∧
        ∀ d < 9, ((axismissing puzzleTwo x axis).testBit d = true ↔
          ∀ y < 9, puzzleTwo[posfor x y axis]?.getD none ≠ some d)) ∧
      (figurebits puzzleTwo).allowed.length = 81 ∧
      ∀ pos < 81,
        (puzzleTwo[pos]?.getD none ≠ none → (figurebits puzzleTwo).allowed[pos]?.getD 0 = 0) ∧
        (puzzleTwo[pos]?.getD none = none →
          (figurebits puzzleTwo).allowed[pos]?.getD 0 =
            (figurebits puzzleTwo).needed[axisfor pos 0]?.getD 0 &&&
              (figurebits puzzleTwo).needed[9 + axisfor pos 1]?.getD 0 &&&
              (figurebits puzzleTwo).needed[18 + axisfor pos 2]?.getD 0 ∧
          (figurebits puzzleTwo).allowed[pos]?.getD 0 = allowed puzzleTwo pos) :=
  figurebits_spec puzzleTwo wellFormed_puzzleTwo

/-! ## `shuffleArray` -/

theorem shuffleLoop_draws {α : Type} (tries : Nat) (rng : Nat → Nat) :
    ∀ (is : List Nat) (xs : List α) (k : Nat) (ys : List α) (k' : Nat),
      shuffleLoop tries rng is xs k = some (ys, k') → k + is.length ≤ k' := by
  intro is
  induction is with
  | nil =>
    intro xs k ys k' h
    simp only [shuffleLoop, Option.some.injEq, Prod.mk.injEq] at h
    simp only [List.length_nil]
    omega
  | cons i rest ih =>
    intro xs k ys k' h
    rw [shuffleLoop] at h
    cases ho : otherIndex rng xs.length i tries k with
    | none => rw [ho] at h; simp at h
    | some pr =>
      obtain ⟨j, k1⟩ := pr
      rw [ho] at h
      have h1 := (otherIndex_spec rng xs.length i tries k j k1 ho).2.1
      have h2 := ih _ _ _ _ h
      simp only [List.length_cons]
      omega

/-- A two-element array comes back from `shuffleArray` in its original order. -/
theorem shuffleArray_two {α : Type} (a b : α) (tries : Nat) (rng : Nat → Nat) (k : Nat)
    (ys : List α) (k' : Nat) (h : shuffleArray [a, b] tries rng k = some (ys, k')) :
    ys = [a, b] := by
  unfold shuffleArray at h
  have hr : List.range [a, b].length = [0, 1] := rfl
  have hl : [a, b].length = 2 := rfl
  have hl' : [b, a].length = 2 := rfl
  rw [hr, shuffleLoop, hl] at h
  cases ho : otherIndex rng 2 0 tries k with
  | none => rw [ho] at h; simp at h
  | some pr =>
    obtain ⟨j, k1⟩ := pr
    rw [ho] at h
    dsimp only at h
    obtain ⟨hj, _, hjr⟩ := otherIndex_spec rng 2 0 tries k j k1 ho
    have hj1 : j = 1 := by
      have : j < 2 := by rw [hjr]; exact Nat.mod_lt _ (by decide)
      omega
    subst hj1
    have hs : swap [a, b] 0 1 = [b, a] := rfl
    rw [hs, shuffleLoop, hl'] at h
    cases ho2 : otherIndex rng 2 1 tries k1 with
    | none => rw [ho2] at h; simp at h
    | some pr2 =>
      obtain ⟨j2, k2⟩ := pr2
      rw [ho2] at h
      dsimp only at h
      obtain ⟨hj2, _, hjr2⟩ := otherIndex_spec rng 2 1 tries k1 j2 k2 ho2
      have hj0 : j2 = 0 := by
        have : j2 < 2 := by rw [hjr2]; exact Nat.mod_lt _ (by decide)
        omega
      subst hj0
      have hs2 : swap [b, a] 1 0 = [a, b] := rfl
      rw [hs2] at h
      simp only [shuffleLoop, Option.some.injEq, Prod.mk.injEq] at h
      exact h.1.symm

/-- C18, refuted as stated: on the two-element array `[0, 1]` no sequence of
draws makes `shuffleArray` produce the ordering `[1, 0]`. -/
theorem shuffleArray_pair_counterexample :
    ¬ ∃ (tries : Nat) (rng : Nat → Nat) (k k' : Nat),
      shuffleArray [0, 1] tries rng k = some ([1, 0], k') := by
  rintro ⟨tries, rng, k, k', h⟩
  have := shuffleArray_two 0 1 tries rng k _ k' h
  simp at this

/-- C18, amended: on an array of length `n ≥ 2`, whatever `shuffleArray`
returns is a permutation of its argument, made by exchanging each position in
turn with another position, after at least `n` draws; it returns on draws that
let every rejection loop end; not every ordering is reached: a two-element
array always comes back in its original order. -/
theorem shuffleArray_permutes {α : Type} [DecidableEq α] (xs : List α) (h2 : 2 ≤ xs.length)
    (tries : Nat) (rng : Nat → Nat) (k : Nat) :
    (∀ ys k', shuffleArray xs tries rng k = some (ys, k') →
        ys.Perm xs ∧ k + xs.length ≤ k' ∧ (xs.length = 2 → ys = xs)) ∧
      (FairWithin rng tries → ∃ ys k', shuffleArray xs tries rng k = some (ys, k')) := by
  refine ⟨fun ys k' h => ⟨shuffleArray_perm xs tries rng k ys k' h, ?_, fun hlen => ?_⟩,
    fun hfair => ?_⟩
  · have := shuffleLoop_draws tries rng _ xs k ys k' h
    rw [List.length_range] at this
    exact this
  · match xs, hlen, h with
    | [a, b], _, h => exact shuffleArray_two a b tries rng k ys k' h
  · obtain ⟨ys, k', h, _⟩ := shuffleArray_spec xs tries rng k hfair (by omega)
    exact ⟨ys, k', h⟩

theorem shuffleArray_permutes_witness :
    (∀ ys k', shuffleArray [5, 6, 7] 2 counter 0 = some (ys, k') →
        ys.Perm [5, 6, 7] ∧ 0 + [5, 6, 7].length ≤ k' ∧ ([5, 6, 7].length = 2 → ys = [5, 6, 7])) ∧
      (FairWithin counter 2 → ∃ ys k', shuffleArray [5, 6, 7] 2 counter 0 = some (ys, k')) :=
  shuffleArray_permutes [5, 6, 7] (by decide) 2 counter 0

/-! ## Resuming the search -/

/-- C19: resuming never repeats a solution.  If `solveboard(board)` returns
answer `A` with stack `s`, and `solvenext(s)` then returns a non-null answer
`A2`, then `A2` differs from `A` in at least one cell and `A2` is a valid
completion of the original board; whatever the random draws. -/
theorem solvenext_fresh (board : Board) (hb : WellFormed board) (fuel tries : Nat)
    (rng : Nat → Nat) (k : Nat) (t1 : Solved) (A : Board)
    (h1 : solveboard fuel board tries rng k = some t1) (hA : t1.answer = some A)
    (fuel2 tries2 : Nat) (rng2 : Nat → Nat) (k2 : Nat) (t2 : Solved) (A2 : Board)
    (h2 : solvenext tries2 rng2 fuel2 t1.state k2 = some t2) (hA2 : t2.answer = some A2) :
    (∃ p < 81, A2[p]?.getD none ≠ A[p]?.getD none) ∧ Completion board A2 := by
  obtain ⟨hst, hans, _⟩ := solveboard_spec tries rng fuel board k t1 hb h1
  obtain ⟨hAv, _, hAex⟩ := hans A hA
  obtain ⟨hv2, hag2⟩ := (solvenext_sound tries2 rng2 board fuel2 _ _ t2 hst h2).2 A2 hA2
  have hne : A2 ≠ A := by
    intro h21
    have := solvenext_excluded tries2 rng2 board A fuel2 _ _ t2 hst hAex h2
    rw [hA2, h21] at this
    exact this rfl
  refine ⟨?_, hv2, hag2⟩
  by_contra hall
  apply hne
  apply List.ext_getElem?
  intro i
  by_cases hi : i < 81
  · have hcell : A2[i]?.getD none = A[i]?.getD none := by
      by_contra hc
      exact hall ⟨i, hi, hc⟩
    rw [List.getElem?_eq_getElem (by rw [hv2.1]; exact hi),
      List.getElem?_eq_getElem (by rw [hAv.1]; exact hi)] at hcell ⊢
    simpa using hcell
  · rw [List.getElem?_eq_none (by rw [hv2.1]; omega), List.getElem?_eq_none (by rw [hAv.1]; omega)]

theorem solvenext_fresh_witness :
    solveboard 2 puzzleTwo 2 counter 0
        = some { state := [frameTwo], answer := some gridB, k := 18 } ∧
      solvenext 2 counter 2 [frameTwo] 18
        = some { state := [{ frameTwo with count := 2 }], answer := some gridA, k := 18 } ∧
      (∃ p < 81, gridA[p]?.getD none ≠ gridB[p]?.getD none) ∧ Completion puzzleTwo gridA :=
  ⟨solveboard_puzzleTwo, solvenext_puzzleTwo,
    solvenext_fresh puzzleTwo wellFormed_puzzleTwo 2 2 counter 0
      { state := [frameTwo], answer := some gridB, k := 18 } gridB solveboard_puzzleTwo rfl
      2 2 counter 18 { state := [{ frameTwo with count := 2 }], answer := some gridA, k := 18 }
      gridA solvenext_puzzleTwo rfl⟩

/-! ## The three outcomes of `deduce` -/

theorem agrees_full_eq {b b' : Board} (hb : b.length = 81) (hb' : b'.length = 81)
    (hfull : ∀ p < 81, b[p]?.getD none ≠ none) (h : Agrees b b') : b' = b := by
  apply List.ext_getElem?
  intro p
  by_cases hp : p < 81
  · have hcell : b'[p]?.getD none = b[p]?.getD none := by
      rcases h p hp with h1 | h1
      · exact absurd h1 (hfull p hp)
      · exact h1
    rw [List.getElem?_eq_getElem (by rw [hb']; exact hp),
      List.getElem?_eq_getElem (by rw [hb]; exact hp)] at hcell ⊢
    simpa using hcell
  · rw [List.getElem?_eq_none (by rw [hb']; omega), List.getElem?_eq_none (by rw [hb]; omega)]

theorem goodGuess_empty_cell {b : Board} {g : List Cand} (h : GoodGuess b g) :
    ∃ p < 81, b[p]?.getD none = none := by
  obtain ⟨c, hc⟩ := List.exists_mem_of_length_pos (by have := h.1; omega : 0 < g.length)
  exact ⟨c.pos, (h.2.2.1 c hc).1, (h.2.2.1 c hc).2.2⟩

/-- C16, refuted as stated: on the full board `fullClash` (a repeated digit in
its first row) `deduce` returns the empty list, not `null`, although the board
it leaves behind has no empty cell. -/
theorem deduce_full_counterexample :
    WellFormed fullClash ∧
      deduce fullClash 0 zeros 0 = some { guesses := some [], board := fullClash, k := 0 } ∧
      ∀ p < 81, fullClash[p]?.getD none ≠ none :=
  ⟨wellFormed_fullClash, deduce_fullClash, by decide!⟩

/-- C16, amended: on a board of 81 cells, each empty or a digit 0..8, `deduce`
returns `null` exactly when the board it leaves behind is a valid full grid
(no empty cell, every row, column and box holding each digit 0..8 exactly
once); when it returns a non-empty list that board has an empty cell; and a
completely filled board with a repeated digit in some row, column or box is
left as it is and reported as the empty list, never as `null`, on all draws.
(On a board that needs a guess `deduce` returns on draws that let the
rejection loops of the shuffle end.) -/
theorem deduce_solved_iff (board : Board) (hb : WellFormed board) (tries : Nat)
    (rng : Nat → Nat) (k : Nat) :
    (∀ r, deduce board tries rng k = some r →
        (r.guesses = none ↔ ValidGrid r.board) ∧
        (∀ g, r.guesses = some g → g ≠ [] → ∃ p < 81, r.board[p]?.getD none = none)) ∧
      (FairWithin rng tries → ∃ r, deduce board tries rng k = some r) ∧
      ((∀ p < 81, board[p]?.getD none ≠ none) →
        (∃ axis < 3, ∃ x < 9, ∃ y < 9, ∃ z < 9, y ≠ z ∧
          board[posfor x y axis]?.getD none = board[posfor x z axis]?.getD none) →
        ∃ r, deduce board tries rng k = some r ∧ r.guesses = some [] ∧ r.board = board) := by
  refine ⟨fun r hr => ?_, fun hfair => ?_, fun hfull hrep => ?_⟩
  · have hspec := deduce_sound tries rng board k r hb hr
    refine ⟨⟨hspec.solved, fun hv => ?_⟩,
      fun g hg hne => goodGuess_empty_cell (hspec.stuck g hg hne)⟩
    cases hg : r.guesses with
    | none => rfl
    | some g =>
      by_cases hne : g = []
      · subst hne
        exact absurd hg (hspec.sound r.board ⟨hv, hspec.ext⟩).2
      · obtain ⟨p, hp, he⟩ := goodGuess_empty_cell (hspec.stuck g hg hne)
        obtain ⟨d, _, hd⟩ := hv.2.1 p hp
        rw [hd] at he
        simp at he
  · obtain ⟨r, hr, _⟩ := deduce_spec tries rng board k hfair hb
    exact ⟨r, hr⟩
  · obtain ⟨r0, hr0, hspec⟩ := deduce_spec 2 counter board 0 fairWithin_counter hb
    have hsame : r0.board = board := agrees_full_eq hb.1 hspec.wf.1 hfull hspec.ext
    have hnil : r0.guesses = some [] := by
      cases hg : r0.guesses with
      | none =>
        obtain ⟨axis, ha, x, hx, y, hy, z, hz, hyz, heq⟩ := hrep
        have hv := hspec.solved hg
        rw [hsame] at hv
        exact absurd (valid_inj hv ha hx hy hz heq) hyz
      | some g =>
        by_cases hne : g = []
        · rw [hne]
        · obtain ⟨p, hp, he⟩ := goodGuess_empty_cell (hspec.stuck g hg hne)
          rw [hsame] at he
          exact absurd he (hfull p hp)
    obtain ⟨r, hr, hg, hbd⟩ := deduce_empty_indep 2 tries counter rng board 0 k r0 hb hr0 hnil
    exact ⟨r, hr, hg, hbd.trans hsame⟩

theorem deduce_solved_iff_witness :
    WellFormed fullClash ∧
      ((∀ r, deduce fullClash 2 counter 0 = some r →
          (r.guesses = none ↔ ValidGrid r.board) ∧
          (∀ g, r.guesses = some g → g ≠ [] → ∃ p < 81, r.board[p]?.getD none = none)) ∧
        (FairWithin counter 2 → ∃ r, deduce fullClash 2 counter 0 = some r) ∧
        ((∀ p < 81, fullClash[p]?.getD none ≠ none) →
          (∃ axis < 3, ∃ x < 9, ∃ y < 9, ∃ z < 9, y ≠ z ∧
            fullClash[posfor x y axis]?.getD none = fullClash[posfor x z axis]?.getD none) →
          ∃ r, deduce fullClash 2 counter 0 = some r ∧ r.guesses = some [] ∧
            r.board = fullClash)) :=
  ⟨wellFormed_fullClash, deduce_solved_iff fullClash wellFormed_fullClash 2 counter 0⟩

/-! ## Termination -/

theorem deduceLoop_mono (tries : Nat) (rng : Nat → Nat) :
    ∀ (n : Nat) (b : Board) (k : Nat) (r : Deduced),
      deduceLoop tries rng n b k = some r → deduceLoop tries rng (n + 1) b k = some r := by
  intro n
  induction n with
  | zero => intro b k r h; simp [deduceLoop] at h
  | succ n ih =>
    intro b k r h
    rw [deduceLoop] at h ⊢
    cases hp : deducePass rng b k with
    | error e => rw [hp] at h; exact h
    | ok s =>
      rw [hp] at h
      dsimp only at h ⊢
      by_cases hs : s.stuck = true
      · rw [if_pos hs] at h ⊢; exact h
      · rw [if_neg hs] at h ⊢; exact ih _ _ _ h

theorem deduceLoop_stable (tries : Nat) (rng : Nat → Nat) (b : Board) (k : Nat) (r : Deduced)
    (h : deduce b tries rng k = some r) : ∀ n, 82 ≤ n → deduceLoop tries rng n b k = some r := by
  intro n hn
  induction n, hn using Nat.le_induction with
  | base => exact h
  | succ n _ ih => exact deduceLoop_mono tries rng n b k r ih

theorem increasing_length_le (l : List Nat) (lo hi : Nat) (hl : l.Pairwise (fun a b => a < b))
    (hb : ∀ a ∈ l, lo ≤ a ∧ a ≤ hi) : l.length ≤ hi + 1 - lo := by
  have hnd : l.Nodup := hl.imp (fun h => Nat.ne_of_lt h)
  have hsub : l.toFinset ⊆ Finset.Icc lo hi := by
    intro a ha
    rw [List.mem_toFinset] at ha
    exact Finset.mem_Icc.2 (hb a ha)
  have := Finset.card_le_card hsub
  rw [List.toFinset_card_of_nodup hnd, Nat.card_Icc] at this
  exact this

/-- The frames of the stack `solvenext` returns hold boards with strictly
fewer empty cells towards the top, and every one of them has candidates. -/
theorem solvenext_desc (tries : Nat) (rng : Nat → Nat) (orig : Board) (fuel : Nat)
    (st : List Frame) (k : Nat) (res : Solved) (hst : StackOK orig st)
    (hd : st.Pairwise (fun f g => emptyCount f.board < emptyCount g.board))
    (hne : ∀ f ∈ st.tail, f.guesses ≠ []) (h : solvenext tries rng fuel st k = some res) :
    res.state.Pairwise (fun f g => emptyCount f.board < emptyCount g.board) ∧
      ∀ f ∈ res.state, f.guesses ≠ [] := by
  refine solvenext_ind tries rng orig
    (fun st => StackOK orig st ∧
      st.Pairwise (fun f g => emptyCount f.board < emptyCount g.board) ∧
      ∀ f ∈ st.tail, f.guesses ≠ [])
    (fun res => res.state.Pairwise (fun f g => emptyCount f.board < emptyCount g.board) ∧
      ∀ f ∈ res.state, f.guesses ≠ [])
    (fun _ h => h.1) (fun _ _ => ⟨List.Pairwise.nil, fun f hf => by simp at hf⟩) ?_ ?_
    fuel st k res ⟨hst, hd, hne⟩ h
  · rintro t rest ⟨hok, hpw, hnon⟩ _
    refine ⟨hok.tail, (List.pairwise_cons.1 hpw).2, fun f hf => hnon f ?_⟩
    exact List.mem_of_mem_tail hf
  · rintro t rest c ⟨hok, hpw, hnon⟩ hc r hspec hagr hholds hframe
    have ht := hok t (by simp)
    obtain ⟨_, hp, _, he⟩ := ht.cand hc
    obtain ⟨hhead, htail⟩ := List.pairwise_cons.1 hpw
    have htne : t.guesses ≠ [] := by
      intro h0
      rw [h0] at hc
      simp at hc
    have hpw' : ({ t with count := t.count + 1 } :: rest).Pairwise
        (fun f g => emptyCount f.board < emptyCount g.board) :=
      List.pairwise_cons.2 ⟨hhead, htail⟩
    have hall : ∀ f ∈ { t with count := t.count + 1 } :: rest, f.guesses ≠ [] := by
      intro f hf
      rcases List.mem_cons.1 hf with rfl | hf
      · exact htne
      · exact hnon f hf
    refine ⟨fun _ => ⟨hpw', hall⟩, fun g hg => ⟨hok.push hg hframe, ?_, hall⟩⟩
    have hlt : emptyCount r.board < emptyCount t.board := by
      refine emptyCount_lt ht.wf.1 hspec.wf.1 hagr he ?_
      have : r.board[c.pos]?.getD none = some c.num := hholds
      rw [this]
      simp
    refine List.pairwise_cons.2 ⟨fun f hf => ?_, hpw'⟩
    rcases List.mem_cons.1 hf with rfl | hf
    · exact hlt
    · exact hlt.trans (hhead f hf)

theorem stack_length_le {orig : Board} {st : List Frame} (hst : StackOK orig st)
    (hd : st.Pairwise (fun f g => emptyCount f.board < emptyCount g.board))
    (hne : ∀ f ∈ st, f.guesses ≠ []) : st.length ≤ 81 := by
  have h := increasing_length_le (st.map (fun f => emptyCount f.board)) 1 81
    (List.pairwise_map.2 hd) (fun a ha => by
      obtain ⟨f, hf, rfl⟩ := List.mem_map.1 ha
      have hok := hst f hf
      constructor
      · rcases hok.good with h0 | h0
        · exact absurd h0 (hne f hf)
        · obtain ⟨p, hp, he⟩ := goodGuess_empty_cell h0
          exact emptyCount_pos (by rw [hok.wf.1]; exact hp) he
      · have := emptyCount_le_length f.board
        rw [hok.wf.1] at this
        exact this)
  simpa using h

/-- C20: `solveboard` terminates on every board of 81 cells, each empty or a
digit 0..8, whatever order each candidate list is shuffled into (on draws that
let the shuffles return): it returns within the step budget `stepBound`;
every pass of the loop of `deduce` that does not return fills a cell that was
empty when the pass began, so `deduce` returns within 82 passes (and returns
the same with any larger number); after a guess at an empty cell `deduce`
leaves a board with strictly fewer empty cells, so in the stack returned each
frame holds strictly more filled cells than the frame beneath it, and the
stack has at most 81 frames. -/
theorem solveboard_terminates (board : Board) (hb : WellFormed board) (tries : Nat)
    (rng : Nat → Nat) (k : Nat) :
    (FairWithin rng tries → ∀ fuel, stepBound < fuel →
        ∃ res, solveboard fuel board tries rng k = some res) ∧
      (∀ fuel res, solveboard fuel board tries rng k = some res →
        res.state.Pairwise (fun f g => emptyCount f.board < emptyCount g.board) ∧
        res.state.length ≤ 81) ∧
      (∀ s, deducePass rng board k = .ok s → s.stuck = false →
        ∃ p < 81, board[p]?.getD none = none ∧ s.board[p]?.getD none ≠ none) ∧
      (FairWithin rng tries → ∃ r, ∀ n, 82 ≤ n → deduceLoop tries rng n board k = some r) ∧
      (∀ pos < 81, ∀ n < 9, board[pos]?.getD none = none →
        (∀ r, deduce (board.set pos (some n)) tries rng k = some r →
          emptyCount r.board < emptyCount board) ∧
        (FairWithin rng tries → ∃ r, deduce (board.set pos (some n)) tries rng k = some r)) := by
  refine ⟨fun hfair fuel hfuel => ?_, fun fuel res hres => ?_, fun s hs hstuck => ?_,
    fun hfair => ?_, fun pos hp n hn he => ⟨fun r hr => ?_, fun hfair => ?_⟩⟩
  · obtain ⟨res, hres, _⟩ := solveboard_returns tries rng fuel board k hfair hb hfuel
    exact ⟨res, hres⟩
  · obtain ⟨hst, _, _⟩ := solveboard_spec tries rng fuel board k res hb hres
    have hres' := hres
    unfold solveboard at hres'
    cases hr : deduce board tries rng k with
    | none => rw [hr] at hres'; simp at hres'
    | some r =>
      have hspec := deduce_sound tries rng board k r hb hr
      rw [hr] at hres'
      dsimp only at hres'
      cases hg : r.guesses with
      | none =>
        rw [hg] at hres'
        simp only [Option.some.injEq] at hres'
        rw [← hres']
        exact ⟨List.Pairwise.nil, by simp⟩
      | some g =>
        rw [hg] at hres'
        dsimp only at hres'
        have hframe := initial_frame hspec hg
        have hst0 : StackOK board [{ guesses := g, count := 0, board := r.board }] :=
          fun f hf => by simp only [List.mem_singleton] at hf; rw [hf]; exact hframe
        obtain ⟨hpw, hall⟩ := solvenext_desc tries rng board fuel _ r.k res hst0
          (List.pairwise_singleton _ _) (fun f hf => by simp at hf) hres'
        exact ⟨hpw, stack_length_le hst hpw hall⟩
  · have hspec := deducePass_spec rng hb k
    rw [hs] at hspec
    obtain ⟨⟨bb, _, hinv⟩, _⟩ := hspec
    obtain ⟨p, hp0, hp1⟩ := hinv.moved hstuck
    refine ⟨p, ?_, hp0, hp1⟩
    by_contra hlt
    rw [List.getElem?_eq_none (by rw [hinv.wf.1]; omega)] at hp1
    simp at hp1
  · obtain ⟨r, hr, _⟩ := deduce_spec tries rng board k hfair hb
    exact ⟨r, deduceLoop_stable tries rng board k r hr⟩
  · have hspec := deduce_sound tries rng _ k r (wellFormed_set hb pos n hn) hr
    refine emptyCount_lt hb.1 hspec.wf.1 ((Agrees.set he _).trans hspec.ext) he ?_
    have : r.board[pos]?.getD none = some n := by
      have h1 : (board.set pos (some n))[pos]?.getD none = some n :=
        cell_set_self _ _ (by rw [hb.1]; exact hp) _
      rcases hspec.ext pos hp with h2 | h2
      · rw [h1] at h2; simp at h2
      · rw [h2, h1]
    rw [this]
    simp
  · obtain ⟨r, hr, _⟩ := deduce_spec tries rng _ k hfair (wellFormed_set hb pos n hn)
    exact ⟨r, hr⟩

theorem solveboard_terminates_witness :
    WellFormed puzzleTwo ∧
      ((FairWithin counter 2 → ∀ fuel, stepBound < fuel →
          ∃ res, solveboard fuel puzzleTwo 2 counter 0 = some res) ∧
        (∀ fuel res, solveboard fuel puzzleTwo 2 counter 0 = some res →
          res.state.Pairwise (fun f g => emptyCount f.board < emptyCount g.board) ∧
          res.state.length ≤ 81) ∧
        (∀ s, deducePass counter puzzleTwo 0 = .ok s → s.stuck = false →
          ∃ p < 81, puzzleTwo[p]?.getD none = none ∧ s.board[p]?.getD none ≠ none) ∧
        (FairWithin counter 2 →
          ∃ r, ∀ n, 82 ≤ n → deduceLoop 2 counter n puzzleTwo 0 = some r) ∧
        (∀ pos < 81, ∀ n < 9, puzzleTwo[pos]?.getD none = none →
          (∀ r, deduce (puzzleTwo.set pos (some n)) 2 counter 0 = some r →
            emptyCount r.board < emptyCount puzzleTwo) ∧
          (FairWithin counter 2 →
            ∃ r, deduce (puzzleTwo.set pos (some n)) 2 counter 0 = some r))) :=
  ⟨wellFormed_puzzleTwo, solveboard_terminates puzzleTwo wellFormed_puzzleTwo 2 counter 0⟩

/-! ## The smallest ambiguous set -/

theorem Kept.same {s : Scan} (h : s.stuck = true) : Kept s s :=
  ⟨h, rfl, fun _ hm => hm⟩

theorem Kept.chain {s1 s2 s3 : Scan} (h12 : Kept s1 s2) (h23 : Kept s2 s3) : Kept s1 s3 :=
  ⟨h12.1, h23.2.1.trans h12.2.1, fun m hm => h23.2.2 m (h12.2.2 m hm)⟩

theorem scanLoop_kept {α : Type} (f : Scan → α → Except Scan Scan) (P : Scan → Prop)
    (T : Scan → α → Prop) (l : List α)
    (hT : ∀ s s' a, Kept s s' → T s a → T s' a)
    (hstep : ∀ s a s', a ∈ l → f s a = .ok s' → P s →
      P s' ∧ (s'.stuck = true → Kept s s' ∧ T s' a)) :
    ∀ s s', scanLoop f l s = .ok s' → P s →
      P s' ∧ (s'.stuck = true → Kept s s' ∧ ∀ a ∈ l, T s' a) := by
  induction l with
  | nil =>
    intro s s' h hP
    simp only [scanLoop, Except.ok.injEq] at h
    subst h
    exact ⟨hP, fun hs => ⟨Kept.same hs, by simp⟩⟩
  | cons a l ih =>
    intro s s' h hP
    unfold scanLoop at h
    cases hf : f s a with
    | error e => rw [hf] at h; simp at h
    | ok s1 =>
      rw [hf] at h
      dsimp only at h
      obtain ⟨hP1, hcond⟩ := hstep s a s1 (by simp) hf hP
      obtain ⟨hP', hrest⟩ := ih (fun s a s' ha => hstep s a s' (List.mem_cons_of_mem _ ha))
        s1 s' h hP1
      refine ⟨hP', fun hs => ?_⟩
      obtain ⟨hk1, hall⟩ := hrest hs
      obtain ⟨hk0, hTa⟩ := hcond hk1.1
      refine ⟨hk0.chain hk1, fun b hb => ?_⟩
      rcases List.mem_cons.1 hb with rfl | hb
      · exact hT _ _ _ hk1 hTa
      · exact hall b hb

theorem pickbetter_within (b : Option (List Cand)) (c : Nat) (t : List Cand) (rng : Nat → Nat)
    (k : Nat) :
    (∀ m, (∃ g, b = some g ∧ g.length ≤ m) →
        ∃ g', (pickbetter b c t rng k).guess = some g' ∧ g'.length ≤ m) ∧
      ∃ g', (pickbetter b c t rng k).guess = some g' ∧ g'.length ≤ t.length := by
  unfold pickbetter
  cases b with
  | none => exact ⟨fun m ⟨g, hg, _⟩ => by simp at hg, t, rfl, Nat.le_refl _⟩
  | some bl =>
    dsimp only
    constructor
    · rintro m ⟨g, hg, hm⟩
      simp only [Option.some.injEq] at hg
      subst hg
      split_ifs with h1 h2 h3
      · exact ⟨t, rfl, by omega⟩
      · exact ⟨bl, rfl, hm⟩
      · exact ⟨t, rfl, by omega⟩
      · exact ⟨bl, rfl, hm⟩
    · split_ifs with h1 h2 h3
      · exact ⟨t, rfl, Nat.le_refl _⟩
      · exact ⟨bl, rfl, by omega⟩
      · exact ⟨t, rfl, Nat.le_refl _⟩
      · exact ⟨bl, rfl, by omega⟩

/-- A state that takes a candidate set through `pickbetter` keeps the board,
and holds afterwards a guess no longer than before and no longer than `t`. -/
theorem kept_pick (s : Scan) (t : List Cand) (rng : Nat → Nat) (hs : s.stuck = true) :
    Kept s { s with guess := (pickbetter s.guess s.count t rng s.k).guess,
                    count := (pickbetter s.guess s.count t rng s.k).count,
                    k := (pickbetter s.guess s.count t rng s.k).k } ∧
      Within { s with guess := (pickbetter s.guess s.count t rng s.k).guess,
                      count := (pickbetter s.guess s.count t rng s.k).count,
                      k := (pickbetter s.guess s.count t rng s.k).k } t.length :=
  ⟨⟨hs, rfl, fun m hm => (pickbetter_within s.guess s.count t rng s.k).1 m hm⟩,
    (pickbetter_within s.guess s.count t rng s.k).2⟩

theorem seen_pick {b : Board} {s : Scan} (t : List Cand) (rng : Nat → Nat) (hP : Seen b s)
    (hs : s.stuck = true) (ht : IsSet b t) :
    Seen b { s with guess := (pickbetter s.guess s.count t rng s.k).guess,
                    count := (pickbetter s.guess s.count t rng s.k).count,
                    k := (pickbetter s.guess s.count t rng s.k).k } := by
  intro _
  refine ⟨(hP hs).1, fun g hg => ?_⟩
  rcases pickbetter_guess s.guess s.count t rng s.k with h1 | h1
  · have hg' : (pickbetter s.guess s.count t rng s.k).guess = some g := hg
    rw [h1] at hg'
    simp only [Option.some.injEq] at hg'
    rw [← hg']
    exact ht
  · have hg' : (pickbetter s.guess s.count t rng s.k).guess = some g := hg
    rw [h1] at hg'
    exact (hP hs).2 g hg'

theorem nakedStep_kept (b : Board) (rng : Nat → Nat) (s : Scan) (pos : Nat) (s' : Scan)
    (hp : pos < 81) (h : nakedStep (figurebits b).allowed rng s pos = .ok s') (hP : Seen b s) :
    Seen b s' ∧ (s'.stuck = true → Kept s s' ∧
      (b[pos]?.getD none = none → Within s' (cellSet b pos).length)) := by
  unfold nakedStep at h
  by_cases he : s.board[pos]?.getD none = none
  · rw [if_pos he] at h
    split at h
    · simp at h
    · simp only [Except.ok.injEq] at h
      subst h
      exact ⟨fun hs => by simp at hs, fun hs => by simp at hs⟩
    · next hne0 hne1 =>
      by_cases hst : s.stuck = true
      · rw [if_pos hst] at h
        simp only [Except.ok.injEq] at h
        subst h
        have hbe : b[pos]?.getD none = none := by rw [← (hP hst).1]; exact he
        have hset : IsSet b ((listbits ((figurebits b).allowed[pos]?.getD 0)).map
            (fun val => Cand.mk pos val)) := Or.inl ⟨pos, hp, hbe, rfl⟩
        obtain ⟨hk, hw⟩ := kept_pick s ((listbits ((figurebits b).allowed[pos]?.getD 0)).map
            (fun val => Cand.mk pos val)) rng hst
        exact ⟨seen_pick _ rng hP hst hset, fun _ => ⟨hk, fun _ => hw⟩⟩
      · rw [if_neg hst] at h
        simp only [Except.ok.injEq] at h
        subst h
        exact ⟨hP, fun hs => absurd hs hst⟩
  · rw [if_neg he] at h
    simp only [Except.ok.injEq] at h
    subst h
    refine ⟨hP, fun hs => ⟨Kept.same hs, fun hbe => ?_⟩⟩
    rw [← (hP hs).1] at hbe
    exact absurd hbe he

theorem hiddenStep_stuck (al : List Nat) (rng : Nat → Nat) (x axis : Nat) (s : Scan) (n : Nat)
    (s' : Scan) (h : hiddenStep al rng x axis s n = .ok s') (hs : s'.stuck = true) :
    s.stuck = true := by
  unfold hiddenStep at h
  split at h
  · simp at h
  · simp only [Except.ok.injEq] at h
    subst h
    simp at hs
  · by_cases hst : s.stuck = true
    · exact hst
    · rw [if_neg hst] at h
      simp only [Except.ok.injEq] at h
      subst h
      exact hs

theorem hiddenStep_kept (b : Board) (rng : Nat → Nat) (x axis : Nat) (s : Scan) (n : Nat)
    (s' : Scan) (ha : axis < 3) (hx : x < 9) (hn : n < 9)
    (hneed : (axismissing b x axis).testBit n = true)
    (h : hiddenStep (figurebits b).allowed rng x axis s n = .ok s') (hP : Seen b s) :
    Seen b s' ∧ (s'.stuck = true → Kept s s' ∧ Within s' (groupSet b x axis n).length) := by
  unfold hiddenStep at h
  split at h
  · simp at h
  · simp only [Except.ok.injEq] at h
    subst h
    exact ⟨fun hs => by simp at hs, fun hs => by simp at hs⟩
  · by_cases hst : s.stuck = true
    · rw [if_pos hst] at h
      simp only [Except.ok.injEq] at h
      subst h
      have hset : IsSet b ((spotsfor (figurebits b).allowed x axis (1 <<< n)).map
          (fun val => Cand.mk val n)) := Or.inr ⟨axis, ha, x, hx, n, hn, hneed, rfl⟩
      obtain ⟨hk, hw⟩ := kept_pick s ((spotsfor (figurebits b).allowed x axis (1 <<< n)).map
          (fun val => Cand.mk val n)) rng hst
      exact ⟨seen_pick _ rng hP hst hset, fun _ => ⟨hk, hw⟩⟩
    · rw [if_neg hst] at h
      simp only [Except.ok.injEq] at h
      subst h
      exact ⟨hP, fun hs => absurd hs hst⟩

theorem hiddenScan_stuck (bits : Bits) (rng : Nat → Nat) (s s' : Scan)
    (h : hiddenScan bits rng s = .ok s') (hs : s'.stuck = true) : s.stuck = true := by
  unfold hiddenScan at h
  have key := scanLoop_kept
    (fun s axis => scanLoop (fun s x => scanLoop (hiddenStep bits.allowed rng x axis)
      (listbits (bits.needed[axis * 9 + x]?.getD 0)) s) (List.range 9) s)
    (fun _ => True) (fun _ _ => True) (List.range 3) (fun _ _ _ _ _ => trivial)
    (fun s axis s1 _ h1 _ => by
      have mid := scanLoop_kept
        (fun s x => scanLoop (hiddenStep bits.allowed rng x axis)
          (listbits (bits.needed[axis * 9 + x]?.getD 0)) s)
        (fun _ => True) (fun _ _ => True) (List.range 9) (fun _ _ _ _ _ => trivial)
        (fun s x s2 _ h2 _ => by
          have inner := scanLoop_kept (hiddenStep bits.allowed rng x axis)
            (fun _ => True) (fun _ _ => True) (listbits (bits.needed[axis * 9 + x]?.getD 0))
            (fun _ _ _ _ _ => trivial)
            (fun s n s3 _ h3 _ => ⟨trivial, fun hs3 =>
              ⟨⟨hiddenStep_stuck _ _ _ _ _ _ _ h3 hs3, by
                unfold hiddenStep at h3
                split at h3
                · simp at h3
                · simp only [Except.ok.injEq] at h3
                  subst h3
                  simp at hs3
                · split_ifs at h3 <;> simp only [Except.ok.injEq] at h3 <;> subst h3 <;> rfl,
                fun m hm => by
                  unfold hiddenStep at h3
                  split at h3
                  · simp at h3
                  · simp only [Except.ok.injEq] at h3
                    subst h3
                    simp at hs3
                  · split_ifs at h3 with hst
                    · simp only [Except.ok.injEq] at h3
                      subst h3
                      exact (kept_pick s _ rng hst).1.2.2 m hm
                    · simp only [Except.ok.injEq] at h3
                      subst h3
                      exact hm⟩, trivial⟩⟩)
            s s2 h2 trivial
          exact ⟨trivial, fun hs2 => ⟨(inner.2 hs2).1, trivial⟩⟩)
        s s1 h1 trivial
      exact ⟨trivial, fun hs1 => ⟨(mid.2 hs1).1, trivial⟩⟩)
    s s' h trivial
  exact (key.2 hs).1.1

theorem hiddenScan_kept (b : Board) (rng : Nat → Nat) (s s' : Scan)
    (h : hiddenScan (figurebits b) rng s = .ok s') (hP : Seen b s) :
    Seen b s' ∧ (s'.stuck = true → Kept s s' ∧
      ∀ axis < 3, ∀ x < 9, ∀ n < 9, (axismissing b x axis).testBit n = true →
        Within s' (groupSet b x axis n).length) := by
  unfold hiddenScan at h
  have key := scanLoop_kept
    (fun s axis => scanLoop (fun s x => scanLoop (hiddenStep (figurebits b).allowed rng x axis)
      (listbits ((figurebits b).needed[axis * 9 + x]?.getD 0)) s) (List.range 9) s)
    (Seen b)
    (fun s axis => ∀ x ∈ List.range 9,
      ∀ n ∈ listbits ((figurebits b).needed[axis * 9 + x]?.getD 0),
        Within s (groupSet b x axis n).length)
    (List.range 3) (fun s s' axis hk hT x hx n hn => hk.2.2 _ (hT x hx n hn))
    (fun s axis s1 ha h1 hP1 =>
      scanLoop_kept
        (fun s x => scanLoop (hiddenStep (figurebits b).allowed rng x axis)
          (listbits ((figurebits b).needed[axis * 9 + x]?.getD 0)) s)
        (Seen b)
        (fun s x => ∀ n ∈ listbits ((figurebits b).needed[axis * 9 + x]?.getD 0),
          Within s (groupSet b x axis n).length)
        (List.range 9) (fun s s' x hk hT n hn => hk.2.2 _ (hT n hn))
        (fun s x s2 hx h2 hP2 =>
          scanLoop_kept (hiddenStep (figurebits b).allowed rng x axis) (Seen b)
            (fun s n => Within s (groupSet b x axis n).length)
            (listbits ((figurebits b).needed[axis * 9 + x]?.getD 0))
            (fun s s' n hk hT => hk.2.2 _ hT)
            (fun s n s3 hn h3 hP3 => by
              rw [List.mem_range] at ha hx
              rw [figurebits_needed b axis ha x hx, mem_listbits] at hn
              exact hiddenStep_kept b rng x axis s n s3 ha hx hn.1 hn.2 h3 hP3)
            s s2 h2 hP2)
        s s1 h1 hP1)
    s s' h hP
  refine ⟨key.1, fun hs => ⟨(key.2 hs).1, fun axis ha x hx n hn hneed => ?_⟩⟩
  refine (key.2 hs).2 axis (List.mem_range.2 ha) x (List.mem_range.2 hx) n ?_
  rw [figurebits_needed b axis ha x hx, mem_listbits]
  exact ⟨hn, hneed⟩

/-- A pass of `deduce` that ends stuck has left the board as it was, and its
guess is a candidate set of the board no larger than any other. -/
theorem deducePass_min (rng : Nat → Nat) (b : Board) (k : Nat) (s : Scan)
    (h : deducePass rng b k = .ok s) (hs : s.stuck = true) :
    s.board = b ∧ (∀ g, s.guess = some g → IsSet b g) ∧
      (∀ pos < 81, b[pos]?.getD none = none → Within s (cellSet b pos).length) ∧
      ∀ axis < 3, ∀ x < 9, ∀ n < 9, (axismissing b x axis).testBit n = true →
        Within s (groupSet b x axis n).length := by
  unfold deducePass at h
  dsimp only at h
  cases hn : scanLoop (nakedStep (figurebits b).allowed rng) (List.range 81)
      { board := b, stuck := true, guess := none, count := 0, k := k } with
  | error e => rw [hn] at h; simp at h
  | ok s1 =>
    rw [hn] at h
    dsimp only at h
    have hinit : Seen b { board := b, stuck := true, guess := none, count := 0, k := k } :=
      fun _ => ⟨rfl, fun g hg => by simp at hg⟩
    have naked := scanLoop_kept (nakedStep (figurebits b).allowed rng) (Seen b)
      (fun s pos => b[pos]?.getD none = none → Within s (cellSet b pos).length)
      (List.range 81) (fun s s' pos hk hT he => hk.2.2 _ (hT he))
      (fun s pos s' hpos h1 hP1 => nakedStep_kept b rng s pos s' (List.mem_range.1 hpos) h1 hP1)
      _ s1 hn hinit
    have hs1 : s1.stuck = true := hiddenScan_stuck _ rng s1 s h hs
    rw [if_neg (by simp [hs1])] at h
    obtain ⟨hP, hcond⟩ := hiddenScan_kept b rng s1 s h naked.1
    obtain ⟨hk, hgroups⟩ := hcond hs
    obtain ⟨_, hcells⟩ := naked.2 hs1
    exact ⟨(hP hs).1, (hP hs).2,
      fun pos hp he => hk.2.2 _ (hcells pos (List.mem_range.2 hp) he), hgroups⟩

theorem deduceLoop_min (tries : Nat) (rng : Nat → Nat) :
    ∀ (fuel : Nat) (b : Board) (k : Nat) (r : Deduced),
      deduceLoop tries rng fuel b k = some r →
      ∀ g, r.guesses = some g → g ≠ [] →
        (∃ g0, g.Perm g0 ∧ IsSet r.board g0) ∧
        (∀ pos < 81, r.board[pos]?.getD none = none → g.length ≤ (cellSet r.board pos).length) ∧
        ∀ axis < 3, ∀ x < 9, ∀ n < 9, (axismissing r.board x axis).testBit n = true →
          g.length ≤ (groupSet r.board x axis n).length := by
  intro fuel
  induction fuel with
  | zero => intro b k r h; simp [deduceLoop] at h
  | succ fuel ih =>
    intro b k r h g hg hne
    rw [deduceLoop] at h
    cases hp : deducePass rng b k with
    | error e =>
      rw [hp] at h
      simp only [Option.some.injEq] at h
      subst h
      simp only [Option.some.injEq] at hg
      exact absurd hg.symm hne
    | ok s =>
      rw [hp] at h
      dsimp only at h
      by_cases hs : s.stuck = true
      · rw [if_pos hs] at h
        obtain ⟨hboard, hset, hcells, hgroups⟩ := deducePass_min rng b k s hp hs
        cases hsg : s.guess with
        | none =>
          rw [hsg] at h
          simp only [Option.some.injEq] at h
          subst h
          simp at hg
        | some g0 =>
          rw [hsg] at h
          dsimp only at h
          cases hsh : shuffleArray g0 tries rng s.k with
          | none => rw [hsh] at h; simp at h
          | some pr =>
            obtain ⟨g1, k1⟩ := pr
            rw [hsh] at h
            simp only [Option.some.injEq] at h
            subst h
            simp only [Option.some.injEq] at hg
            subst hg
            have hperm : g1.Perm g0 := shuffleArray_perm g0 tries rng s.k g1 k1 hsh
            have hlen : ∀ m, Within s m → g1.length ≤ m := by
              rintro m ⟨g', hg', hm⟩
              rw [hsg] at hg'
              simp only [Option.some.injEq] at hg'
              rw [hperm.length_eq, hg']
              exact hm
            show (∃ g0, g1.Perm g0 ∧ IsSet s.board g0) ∧
              (∀ pos < 81, s.board[pos]?.getD none = none →
                g1.length ≤ (cellSet s.board pos).length) ∧
              ∀ axis < 3, ∀ x < 9, ∀ n < 9, (axismissing s.board x axis).testBit n = true →
                g1.length ≤ (groupSet s.board x axis n).length
            rw [hboard]
            exact ⟨⟨g0, hperm, hset g0 hsg⟩, fun pos hp he => hlen _ (hcells pos hp he),
              fun axis ha x hx n hn hneed => hlen _ (hgroups axis ha x hx n hn hneed)⟩
      · rw [if_neg hs] at h
        exact ih _ _ r h g hg hne

/-- C15: when `deduce` returns Stuck (a non-null, non-empty list `g`) on a
board of 81 cells, each empty or a digit 0..8: `g` has at least 2 candidates,
each at an empty cell of the resulting board; up to order `g` is all the
allowed digits of one empty cell, or all the cells of one group that allow a
digit the group needs; and `g` is a smallest such set: every empty cell has at
least `|g|` allowed digits, and every digit a group needs has at least `|g|`
cells of the group allowing it. -/
theorem deduce_stuck_smallest (board : Board) (hb : WellFormed board) (tries : Nat)
    (rng : Nat → Nat) (k : Nat) (r : Deduced) (g : List Cand)
    (h : deduce board tries rng k = some r) (hg : r.guesses = some g) (hne : g ≠ []) :
    2 ≤ g.length ∧ (∀ c ∈ g, c.pos < 81 ∧ r.board[c.pos]?.getD none = none) ∧
      ((∃ pos < 81, r.board[pos]?.getD none = none ∧ g.Perm (cellSet r.board pos)) ∨
        ∃ axis < 3, ∃ x < 9, ∃ n < 9, (axismissing r.board x axis).testBit n = true ∧
          g.Perm (groupSet r.board x axis n)) ∧
      (∀ pos < 81, r.board[pos]?.getD none = none →
        g.length ≤ (listbits ((figurebits r.board).allowed[pos]?.getD 0)).length) ∧
      ∀ axis < 3, ∀ x < 9, ∀ n < 9, (axismissing r.board x axis).testBit n = true →
        g.length ≤ (spotsfor (figurebits r.board).allowed x axis (1 <<< n)).length := by
  have hspec := deduce_sound tries rng board k r hb h
  have hgood := hspec.stuck g hg hne
  obtain ⟨⟨g0, hperm, hset⟩, hcells, hgroups⟩ :=
    deduceLoop_min tries rng 82 board k r h g hg hne
  refine ⟨hgood.1, fun c hc => ⟨(hgood.2.2.1 c hc).1, (hgood.2.2.1 c hc).2.2⟩, ?_,
    fun pos hp he => ?_, fun axis ha x hx n hn hneed => ?_⟩
  · rcases hset with ⟨pos, hp, he, rfl⟩ | ⟨axis, ha, x, hx, n, hn, hneed, rfl⟩
    · exact Or.inl ⟨pos, hp, he, hperm⟩
    · exact Or.inr ⟨axis, ha, x, hx, n, hn, hneed, hperm⟩
  · have := hcells pos hp he
    simpa [cellSet] using this
  · have := hgroups axis ha x hx n hn hneed
    simpa [groupSet] using this

theorem deduce_stuck_smallest_witness :
    WellFormed puzzleTwo ∧
      deduce puzzleTwo 2 counter 0
        = some { guesses := some frameTwo.guesses, board := puzzleTwo, k := 18 } ∧
      (2 ≤ frameTwo.guesses.length ∧
        (∀ c ∈ frameTwo.guesses, c.pos < 81 ∧ puzzleTwo[c.pos]?.getD none = none) ∧
        ((∃ pos < 81, puzzleTwo[pos]?.getD none = none ∧
            frameTwo.guesses.Perm (cellSet puzzleTwo pos)) ∨
          ∃ axis < 3, ∃ x < 9, ∃ n < 9, (axismissing puzzleTwo x axis).testBit n = true ∧
            frameTwo.guesses.Perm (groupSet puzzleTwo x axis n)) ∧
        (∀ pos < 81, puzzleTwo[pos]?.getD none = none →
          frameTwo.guesses.length
            ≤ (listbits ((figurebits puzzleTwo).allowed[pos]?.getD 0)).length) ∧
        ∀ axis < 3, ∀ x < 9, ∀ n < 9, (axismissing puzzleTwo x axis).testBit n = true →
          frameTwo.guesses.length
            ≤ (spotsfor (figurebits puzzleTwo).allowed x axis (1 <<< n)).length) :=
  ⟨wellFormed_puzzleTwo, deduce_puzzleTwo,
    deduce_stuck_smallest puzzleTwo wellFormed_puzzleTwo 2 counter 0
      { guesses := some frameTwo.guesses, board := puzzleTwo, k := 18 } frameTwo.guesses
      deduce_puzzleTwo rfl (by decide)⟩

/-! ## A valid grid with one cell emptied -/

theorem wellFormed_set_none {b : Board} (h : WellFormed b) (p : Nat) :
    WellFormed (b.set p none) := by
  refine ⟨by simpa using h.1, fun c hc d hd => ?_⟩
  rcases List.mem_or_eq_of_mem_set hc with hc | hc
  · exact h.2 c hc d hd
  · subst hc
    simp at hd

/-- On a valid grid with one cell emptied `deduce` returns `null` and leaves the
grid, on all draws: the cell is filled without a guess. -/
theorem deduce_one_empty {G : Board} (hG : ValidGrid G) {p : Nat} (hp : p < 81) (tries : Nat)
    (rng : Nat → Nat) (k : Nat) :
    ∃ k', deduce (G.set p none) tries rng k = some { guesses := none, board := G, k := k' } := by
  have hwf : WellFormed (G.set p none) := wellFormed_set_none (validGrid_wellFormed hG) p
  have hcomp : Completion (G.set p none) G := ⟨hG, agrees_set_none G p⟩
  obtain ⟨r0, hr0, hspec⟩ := deduce_spec 2 counter (G.set p none) 0 fairWithin_counter hwf
  have hrG : Agrees r0.board G := (hspec.sound G hcomp).1
  have honly : ∀ q < 81, r0.board[q]?.getD none = none → q = p := by
    intro q hq he
    by_contra hqp
    have h1 := hspec.ext.empty_of_empty hq he
    rw [cell_set_ne G p q (Ne.symm hqp)] at h1
    obtain ⟨d, _, hd⟩ := hG.2.1 q hq
    rw [hd] at h1
    simp at h1
  have hkeep : ∀ q < 81, q ≠ p → r0.board[q]?.getD none = G[q]?.getD none := by
    intro q hq hqp
    rcases hspec.ext q hq with h1 | h1
    · rw [cell_set_ne G p q (Ne.symm hqp)] at h1
      obtain ⟨d, _, hd⟩ := hG.2.1 q hq
      rw [hd] at h1
      simp at h1
    · rw [h1, cell_set_ne G p q (Ne.symm hqp)]
  have hnone : r0.guesses = none := by
    cases hg : r0.guesses with
    | none => rfl
    | some g =>
      exfalso
      by_cases hne : g = []
      · rw [hne] at hg
        exact (hspec.sound G hcomp).2 hg
      · have h2 := (hspec.stuck g hg hne).1
        obtain ⟨⟨g0, hperm, hset⟩, _, _⟩ :=
          deduceLoop_min 2 counter 82 (G.set p none) 0 r0 hr0 g hg hne
        rw [hperm.length_eq] at h2
        rcases hset with ⟨pos, hpos, he, rfl⟩ | ⟨axis, ha, x, hx, n, hn, _, rfl⟩
        · have hpp : pos = p := honly pos hpos he
          subst hpp
          obtain ⟨dG, hdG, hGd⟩ := hG.2.1 pos hpos
          have hle : (listbits ((figurebits r0.board).allowed[pos]?.getD 0)).length ≤ 1 := by
            refine nodup_length_le_one _ (listbits_nodup _) ?_
            have key : ∀ d ∈ listbits ((figurebits r0.board).allowed[pos]?.getD 0), d = dG := by
              intro d hd
              obtain ⟨hd9, hbit⟩ := (mem_listbits _ _).1 hd
              have hmiss := ((testBit_allowed r0.board hspec.wf.1 pos d hpos hd9).1 hbit).2 0
                (by omega)
              rw [testBit_axismissing _ _ _ _ hd9] at hmiss
              obtain ⟨y, hy, hGy⟩ := valid_has hG (by omega : 0 < 3)
                (axisfor_lt 0 (by omega) pos hpos) hd9
              have hq := posfor_lt 0 (by omega) _ (axisfor_lt 0 (by omega) pos hpos) y hy
              by_cases hsame : posfor (axisfor pos 0) y 0 = pos
              · rw [hsame, hGd] at hGy
                simp only [Option.some.injEq] at hGy
                exact hGy.symm
              · have := hkeep _ hq hsame
                rw [hGy] at this
                exact absurd this (hmiss y hy)
            intro a ha b hb
            rw [key a ha, key b hb]
          simp only [cellSet, List.length_map] at h2
          omega
        · have hle : (spotsfor (figurebits r0.board).allowed x axis (1 <<< n)).length ≤ 1 := by
            refine nodup_length_le_one _ (spotsfor_nodup _ ha hx _) ?_
            have key : ∀ q ∈ spotsfor (figurebits r0.board).allowed x axis (1 <<< n), q = p := by
              intro q hq
              obtain ⟨⟨y, hy, rfl⟩, hbit⟩ := (mem_spotsfor _ _ _ _ _).1 hq
              have hq81 := posfor_lt axis ha x hx y hy
              exact honly _ hq81 ((testBit_allowed r0.board hspec.wf.1 _ n hq81 hn).1 hbit).1
            intro a ha' b hb
            rw [key a ha', key b hb]
          simp only [groupSet, List.length_map] at h2
          omega
  have hboard : r0.board = G := validGrid_eq_of_agrees (hspec.solved hnone) hG.1 hrG
  obtain ⟨d2, h2, hg2, hb2⟩ :=
    deduce_solved_indep 2 tries counter rng (G.set p none) 0 k r0 hr0 hnone
  refine ⟨d2.k, ?_⟩
  rw [h2]
  congr 1
  cases d2
  simp only at hg2 hb2
  rw [hg2, hb2, hboard]

/-! ## Runs that do not return -/

theorem solvepuzzle_puzzleTwo : solvepuzzle 2 puzzleTwo 2 counter 0 = some (some gridB, 18) := by
  unfold solvepuzzle
  rw [solveboard_puzzleTwo]
  rfl

theorem solvepuzzle_zeros {board S1 S2 : Board} (hb : WellFormed board) (hne : S1 ≠ S2)
    (h1 : Completion board S1) (h2 : Completion board S2) (fuel tries k : Nat) :
    solvepuzzle fuel board tries zeros k = none := by
  unfold solvepuzzle
  rw [solveboard_zeros_of_two hb hne h1 h2]
  rfl

theorem checkpuzzle_zeros {board S1 S2 : Board} (hb : WellFormed board) (hne : S1 ≠ S2)
    (h1 : Completion board S1) (h2 : Completion board S2) (reference : Option Board)
    (fuel tries k : Nat) : checkpuzzle fuel board reference tries zeros k = none := by
  unfold checkpuzzle
  rw [solveboard_zeros_of_two hb hne h1 h2]

theorem ratepuzzle_zeros {board S1 S2 : Board} (hb : WellFormed board) (hne : S1 ≠ S2)
    (h1 : Completion board S1) (h2 : Completion board S2) (fuel n tries k : Nat) :
    ratepuzzle fuel board (n + 1) tries zeros k = none := by
  unfold ratepuzzle
  rw [ratepuzzleLoop, solveboard_zeros_of_two hb hne h1 h2]

/-! ## The claims about the solver -/

/-- C1: on a board of 81 cells, each empty or a digit 0..8, and whatever the
random draws, a non-null answer of `solvepuzzle` has no empty cell and each of
its rows, columns and boxes contains each digit 0..8 exactly once. -/
theorem solvepuzzle_answer_valid (fuel : Nat) (board : Board) (tries : Nat) (rng : Nat → Nat)
    (k : Nat) (answer : Board) (k' : Nat) (hb : WellFormed board)
    (h : solvepuzzle fuel board tries rng k = some (some answer, k')) : ValidGrid answer := by
  obtain ⟨res, hres, ha, _⟩ := solvepuzzle_eq fuel board tries rng k _ k' h
  exact ((solveboard_spec tries rng fuel board k res hb hres).2.1 answer ha).1

theorem solvepuzzle_answer_valid_witness :
    WellFormed puzzleTwo ∧ solvepuzzle 2 puzzleTwo 2 counter 0 = some (some gridB, 18) ∧
      ValidGrid gridB :=
  ⟨wellFormed_puzzleTwo, solvepuzzle_puzzleTwo,
    solvepuzzle_answer_valid 2 puzzleTwo 2 counter 0 gridB 18 wellFormed_puzzleTwo
      solvepuzzle_puzzleTwo⟩

/-- C2, refuted as stated: the board `puzzleTwo` has a valid completion, yet on
the draws that are all 0 `solvepuzzle` returns nothing, whatever the budgets:
the rejection loop of the shuffle of its two candidates does not end. -/
theorem solvepuzzle_zeros_counterexample :
    WellFormed puzzleTwo ∧ Completion puzzleTwo gridA ∧
      ¬ ∃ (fuel tries : Nat) (r : Option Board × Nat),
        solvepuzzle fuel puzzleTwo tries zeros 0 = some r := by
  refine ⟨wellFormed_puzzleTwo, completion_gridA, ?_⟩
  rintro ⟨fuel, tries, r, h⟩
  rw [solvepuzzle_zeros wellFormed_puzzleTwo gridA_ne_gridB completion_gridA completion_gridB]
    at h
  simp at h

/-- C2, amended: on all draws `solvepuzzle` returns null only if the board has
no valid completion; and whenever some valid full grid agrees with the board on
its filled cells, `solvepuzzle` returns a non-null board (within the step
budget `stepBound`) on every sequence of draws that lets each rejection loop
of the shuffle end within a bound `tries`. -/
theorem solvepuzzle_complete (board : Board) (hb : WellFormed board) :
    (∀ fuel tries rng k k', solvepuzzle fuel board tries rng k = some (none, k') →
        ¬ ∃ S, Completion board S) ∧
      ((∃ S, Completion board S) → ∀ fuel tries rng k, FairWithin rng tries → stepBound < fuel →
        ∃ answer k', solvepuzzle fuel board tries rng k = some (some answer, k')) := by
  constructor
  · rintro fuel tries rng k k' h ⟨S, hS⟩
    obtain ⟨res, hres, ha, _⟩ := solvepuzzle_eq fuel board tries rng k _ k' h
    exact ((solveboard_spec tries rng fuel board k res hb hres).2.2 S hS).1 ha
  · rintro ⟨S, hS⟩ fuel tries rng k hfair hfuel
    obtain ⟨res, hres, _⟩ := solveboard_returns tries rng fuel board k hfair hb hfuel
    have hne := ((solveboard_spec tries rng fuel board k res hb hres).2.2 S hS).1
    obtain ⟨A, hA⟩ := Option.ne_none_iff_exists'.1 hne
    refine ⟨A, res.k, ?_⟩
    unfold solvepuzzle
    rw [hres, Option.map_some', hA]

theorem solvepuzzle_complete_witness :
    WellFormed puzzleTwo ∧ Completion puzzleTwo gridB ∧
      ((∀ fuel tries rng k k', solvepuzzle fuel puzzleTwo tries rng k = some (none, k') →
          ¬ ∃ S, Completion puzzleTwo S) ∧
        ((∃ S, Completion puzzleTwo S) → ∀ fuel tries rng k, FairWithin rng tries →
          stepBound < fuel →
          ∃ answer k', solvepuzzle fuel puzzleTwo tries rng k = some (some answer, k'))) :=
  ⟨wellFormed_puzzleTwo, completion_gridB, solvepuzzle_complete puzzleTwo wellFormed_puzzleTwo⟩

/-- C3: a non-null answer of `solvepuzzle` holds the same digit as the input
wherever the input is not empty; and a valid full grid `G` with one cell `p`
emptied is returned as `G`, on all draws: the cell gets the missing digit and
nothing else changes. -/
theorem solvepuzzle_keeps_givens (board : Board) (hb : WellFormed board) :
    (∀ fuel tries rng k answer k', solvepuzzle fuel board tries rng k = some (some answer, k') →
        Agrees board answer) ∧
      (∀ G p, ValidGrid G → p < 81 → board = G.set p none → ∀ fuel tries rng k,
        stepBound < fuel → ∃ k', solvepuzzle fuel board tries rng k = some (some G, k')) := by
  constructor
  · intro fuel tries rng k answer k' h
    obtain ⟨res, hres, ha, _⟩ := solvepuzzle_eq fuel board tries rng k _ k' h
    exact ((solveboard_spec tries rng fuel board k res hb hres).2.1 answer ha).2.1
  · intro G p hG hp hboard fuel tries rng k _
    obtain ⟨k', hk'⟩ := deduce_one_empty hG hp tries rng k
    refine ⟨k', ?_⟩
    unfold solvepuzzle solveboard
    rw [hboard, hk']
    rfl

theorem solvepuzzle_keeps_givens_witness :
    WellFormed puzzleOne ∧
      ((∀ fuel tries rng k answer k',
          solvepuzzle fuel puzzleOne tries rng k = some (some answer, k') →
          Agrees puzzleOne answer) ∧
        (∀ G p, ValidGrid G → p < 81 → puzzleOne = G.set p none → ∀ fuel tries rng k,
          stepBound < fuel → ∃ k', solvepuzzle fuel puzzleOne tries rng k = some (some G, k'))) :=
  ⟨wellFormed_puzzleOne, solvepuzzle_keeps_givens puzzleOne wellFormed_puzzleOne⟩

/-- C4, refuted as stated: the board `puzzleTwo` has two distinct valid
completions, yet on the draws that are all 0 `checkpuzzle` returns nothing,
whatever the budgets, rather than -1. -/
theorem checkpuzzle_zeros_counterexample :
    WellFormed puzzleTwo ∧ gridA ≠ gridB ∧ Completion puzzleTwo gridA ∧
      Completion puzzleTwo gridB ∧
      ¬ ∃ (fuel tries : Nat) (r : Int × Nat),
        checkpuzzle fuel puzzleTwo none tries zeros 0 = some r := by
  refine ⟨wellFormed_puzzleTwo, gridA_ne_gridB, completion_gridA, completion_gridB, ?_⟩
  rintro ⟨fuel, tries, r, h⟩
  rw [checkpuzzle_zeros wellFormed_puzzleTwo gridA_ne_gridB completion_gridA completion_gridB]
    at h
  simp at h

/-- C4, amended: on a board that has no valid completion, or at least two
distinct ones, whatever `checkpuzzle` called without a reference board returns
is -1, on all draws; and it does return (within the step budget `stepBound`)
on every sequence of draws that lets each rejection loop of the shuffle end
within a bound `tries`. -/
theorem checkpuzzle_rejects (board : Board) (hb : WellFormed board)
    (h : (¬ ∃ S, Completion board S) ∨
      ∃ S1 S2, S1 ≠ S2 ∧ Completion board S1 ∧ Completion board S2)
    (fuel tries : Nat) (rng : Nat → Nat) (k : Nat) :
    (∀ d k', checkpuzzle fuel board none tries rng k = some (d, k') → d = -1) ∧
      (FairWithin rng tries → stepBound < fuel →
        ∃ k', checkpuzzle fuel board none tries rng k = some (-1, k')) := by
  have key : ∀ d k', checkpuzzle fuel board none tries rng k = some (d, k') → d = -1 := by
    intro d k' hd
    by_contra hd1
    obtain ⟨A, hA, huniq, _⟩ := checkpuzzle_accept fuel board none tries rng k k' d hb hd hd1
    rcases h with h | ⟨S1, S2, hne, h1, h2⟩
    · exact h ⟨A, hA⟩
    · exact hne ((huniq S1 h1).trans (huniq S2 h2).symm)
  refine ⟨key, fun hfair hfuel => ?_⟩
  obtain ⟨d, k', hd⟩ := checkpuzzle_returns fuel board none tries rng k hfair hb hfuel
  exact ⟨k', by rw [hd, key d k' hd]⟩

theorem checkpuzzle_rejects_witness :
    gridA ≠ gridB ∧ Completion puzzleTwo gridA ∧ Completion puzzleTwo gridB ∧
      ((∀ d k', checkpuzzle (stepBound + 1) puzzleTwo none 2 counter 0 = some (d, k') → d = -1) ∧
        (FairWithin counter 2 → stepBound < stepBound + 1 →
          ∃ k', checkpuzzle (stepBound + 1) puzzleTwo none 2 counter 0 = some (-1, k'))) :=
  ⟨gridA_ne_gridB, completion_gridA, completion_gridB,
    checkpuzzle_rejects puzzleTwo wellFormed_puzzleTwo
      (Or.inr ⟨gridA, gridB, gridA_ne_gridB, completion_gridA, completion_gridB⟩)
      (stepBound + 1) 2 counter 0⟩

/-- C5, amended: on a board with exactly one valid completion `S`, whatever
`checkpuzzle(board)` and `checkpuzzle(board, S)` return is a number `≥ 0`
(never -1), on all draws; and both return (within the step budget `stepBound`)
on every sequence of draws that lets each rejection loop of the shuffle end
within a bound `tries`. -/
theorem checkpuzzle_accepts (board S : Board) (hb : WellFormed board) (hS : Completion board S)
    (huniq : ∀ S', Completion board S' → S' = S) (fuel tries : Nat) (rng : Nat → Nat) (k : Nat) :
    ((∀ d k', checkpuzzle fuel board none tries rng k = some (d, k') → 0 ≤ d) ∧
        ∀ d k', checkpuzzle fuel board (some S) tries rng k = some (d, k') → 0 ≤ d) ∧
      (FairWithin rng tries → stepBound < fuel →
        (∃ d k', checkpuzzle fuel board none tries rng k = some (d, k') ∧ 0 ≤ d) ∧
          ∃ d k', checkpuzzle fuel board (some S) tries rng k = some (d, k') ∧ 0 ≤ d) := by
  have k1 : ∀ d k', checkpuzzle fuel board none tries rng k = some (d, k') → 0 ≤ d :=
    fun d k' hd =>
      checkpuzzle_unique fuel board S none tries rng k k' d hb hS huniq (Or.inl rfl) hd
  have k2 : ∀ d k', checkpuzzle fuel board (some S) tries rng k = some (d, k') → 0 ≤ d :=
    fun d k' hd =>
      checkpuzzle_unique fuel board S (some S) tries rng k k' d hb hS huniq (Or.inr rfl) hd
  refine ⟨⟨k1, k2⟩, fun hfair hfuel => ⟨?_, ?_⟩⟩
  · obtain ⟨d, k', hd⟩ := checkpuzzle_returns fuel board none tries rng k hfair hb hfuel
    exact ⟨d, k', hd, k1 d k' hd⟩
  · obtain ⟨d, k', hd⟩ := checkpuzzle_returns fuel board (some S) tries rng k hfair hb hfuel
    exact ⟨d, k', hd, k2 d k' hd⟩

theorem checkpuzzle_accepts_witness :
    Completion puzzleOne gridA ∧
      (((∀ d k', checkpuzzle (stepBound + 1) puzzleOne none 2 counter 0 = some (d, k') → 0 ≤ d) ∧
          ∀ d k', checkpuzzle (stepBound + 1) puzzleOne (some gridA) 2 counter 0 = some (d, k') →
            0 ≤ d) ∧
        (FairWithin counter 2 → stepBound < stepBound + 1 →
          (∃ d k', checkpuzzle (stepBound + 1) puzzleOne none 2 counter 0 = some (d, k') ∧
              0 ≤ d) ∧
            ∃ d k', checkpuzzle (stepBound + 1) puzzleOne (some gridA) 2 counter 0
              = some (d, k') ∧ 0 ≤ d)) :=
  ⟨completion_puzzleOne,
    checkpuzzle_accepts puzzleOne gridA wellFormed_puzzleOne completion_puzzleOne
      (fun _ hS' => completion_of_one_empty validGrid_gridA (by decide : 40 < 81) hS')
      (stepBound + 1) 2 counter 0⟩

/-! ## The claims about `ratepuzzle` -/

/-- C8: when `deduce` on (a copy of) the board returns `null` - under some
sequence of draws, hence under all - `solveboard` returns an empty frame stack
and `ratepuzzle(board, n)` returns exactly 0 for every `n ≥ 1`. -/
theorem ratepuzzle_propagation (board : Board) (tries0 : Nat) (rng0 : Nat → Nat) (k0 : Nat)
    (d0 : Deduced) (h : deduce board tries0 rng0 k0 = some d0) (h0 : d0.guesses = none)
    (fuel n tries : Nat) (rng : Nat → Nat) (k : Nat) (hn : 1 ≤ n) :
    (∃ res, solveboard fuel board tries rng k = some res ∧ res.state = []) ∧
      ∃ k', ratepuzzle fuel board n tries rng k = some (0, k') := by
  have hsolved : ∀ k, ∃ d, deduce board tries rng k = some d ∧ d.guesses = none := by
    intro k
    obtain ⟨d, hd, hg, _⟩ := deduce_solved_indep tries0 tries rng0 rng board k0 k d0 h h0
    exact ⟨d, hd, hg⟩
  constructor
  · obtain ⟨d, hd, hg⟩ := hsolved k
    unfold solveboard
    rw [hd]
    dsimp only
    rw [hg]
    exact ⟨_, rfl, rfl⟩
  · obtain ⟨k', hk'⟩ := ratepuzzleLoop_solved fuel board n tries rng hsolved n 0 k
    refine ⟨k', ?_⟩
    unfold ratepuzzle
    rw [hk', jsDiv_zero]

theorem ratepuzzle_propagation_witness :
    deduce puzzleOne 0 zeros 0 = some { guesses := none, board := gridA, k := 0 } ∧
      ((∃ res, solveboard 5 puzzleOne 2 counter 3 = some res ∧ res.state = []) ∧
        ∃ k', ratepuzzle 5 puzzleOne 1 2 counter 3 = some (0, k')) :=
  ⟨deduce_puzzleOne,
    ratepuzzle_propagation puzzleOne 0 zeros 0 { guesses := none, board := gridA, k := 0 }
      deduce_puzzleOne rfl 5 1 2 counter 3 (Nat.le_refl 1)⟩

/-- The JavaScript quotient is the exact quotient when the divisor divides the
dividend. -/
theorem jsDiv_mul (b c : Nat) (hb : 0 < b) : jsDiv (b * c) b = c := by
  unfold jsDiv
  by_cases hc : c = 0
  · subst hc
    simp
  · have hbc : ¬ (b * c = 0 ∨ b = 0) := by
      rintro (h | h)
      · rcases Nat.mul_eq_zero.1 h with h | h
        · omega
        · exact hc h
      · omega
    rw [if_neg hbc]
    dsimp only
    generalize ((List.range 107).find? (fun t => b * 2 ^ 52 ≤ b * c * 2 ^ t)).getD 0 = t
    have hq : b * c * 2 ^ t / b = c * 2 ^ t := by
      rw [Nat.mul_assoc, Nat.mul_div_cancel_left _ hb]
    have hr : b * c * 2 ^ t % b = 0 := by
      rw [Nat.mul_assoc]
      exact Nat.mul_mod_right _ _
    rw [hq, hr, if_pos (by omega)]
    push_cast
    field_simp

/-- C9, refuted as stated: the board `puzzleTwo` has a valid completion, yet on
the draws that are all 0 `ratepuzzle(puzzleTwo, 1)` returns nothing, whatever
the budgets, rather than the mean stack length. -/
theorem ratepuzzle_zeros_counterexample :
    WellFormed puzzleTwo ∧ Completion puzzleTwo gridA ∧
      ¬ ∃ (fuel tries : Nat) (r : ℚ × Nat),
        ratepuzzle fuel puzzleTwo 1 tries zeros 0 = some r := by
  refine ⟨wellFormed_puzzleTwo, completion_gridA, ?_⟩
  rintro ⟨fuel, tries, r, h⟩
  rw [ratepuzzle_zeros wellFormed_puzzleTwo gridA_ne_gridB completion_gridA completion_gridB
    fuel 0] at h
  simp at h

/-- C9, amended: for a sample count `n ≥ 1`, on every sequence of draws that
lets each rejection loop of the shuffle end within a bound `tries`,
`ratepuzzle(board, n)` returns -1 if and only if the board has no valid
completion, and otherwise the JavaScript quotient `total / n` of the sum
`total` of the lengths of the frame stacks that the `n` runs of `solveboard`
return: the double nearest to their arithmetic mean, a non-negative number,
and the mean itself when `n` divides `total`. -/
theorem ratepuzzle_spec (board : Board) (hb : WellFormed board) (n : Nat) (hn : 1 ≤ n)
    (fuel tries : Nat) (rng : Nat → Nat) (k : Nat) (hfair : FairWithin rng tries)
    (hfuel : stepBound < fuel) :
    ∃ v k', ratepuzzle fuel board n tries rng k = some (v, k') ∧
      (v = -1 ↔ ¬ ∃ S, Completion board S) ∧
      ((∃ S, Completion board S) →
        (sampleLengths fuel board tries rng n k).length = n ∧
        v = jsDiv (sampleLengths fuel board tries rng n k).sum n ∧ 0 ≤ v ∧
        (n ∣ (sampleLengths fuel board tries rng n k).sum →
          v = ((sampleLengths fuel board tries rng n k).sum : ℚ) / (n : ℚ))) := by
  by_cases hS : ∃ S, Completion board S
  · obtain ⟨k', hk', hlen⟩ :=
      ratepuzzleLoop_spec fuel board n tries rng hfair hb hfuel hS n 0 k
    rw [Nat.zero_add] at hk'
    have hnonneg := jsDiv_nonneg (sampleLengths fuel board tries rng n k).sum n
    refine ⟨_, k', hk', ⟨fun hv => ?_, fun hno => absurd hS hno⟩,
      fun _ => ⟨hlen, rfl, hnonneg, fun hdvd => ?_⟩⟩
    · rw [hv] at hnonneg
      norm_num at hnonneg
    · obtain ⟨c, hc⟩ := hdvd
      rw [hc, jsDiv_mul n c (by omega)]
      have hn' : (n : ℚ) ≠ 0 := by
        have : (0 : ℚ) < n := by exact_mod_cast hn
        exact ne_of_gt this
      push_cast
      field_simp
  · obtain ⟨m, hm⟩ : ∃ m, n = m + 1 := ⟨n - 1, by omega⟩
    obtain ⟨k', hk'⟩ :=
      ratepuzzleLoop_unsolvable fuel board n tries rng hfair hb hfuel hS m 0 k
    refine ⟨-1, k', ?_, ⟨fun _ => hS, fun _ => rfl⟩, fun h => absurd h hS⟩
    unfold ratepuzzle
    rw [← hk', ← hm]

theorem ratepuzzle_spec_witness :
    WellFormed puzzleTwo ∧ FairWithin counter 2 ∧
      ∃ v k', ratepuzzle (stepBound + 1) puzzleTwo 3 2 counter 0 = some (v, k') ∧
        (v = -1 ↔ ¬ ∃ S, Completion puzzleTwo S) ∧
        ((∃ S, Completion puzzleTwo S) →
          (sampleLengths (stepBound + 1) puzzleTwo 2 counter 3 0).length = 3 ∧
          v = jsDiv (sampleLengths (stepBound + 1) puzzleTwo 2 counter 3 0).sum 3 ∧ 0 ≤ v ∧
          (3 ∣ (sampleLengths (stepBound + 1) puzzleTwo 2 counter 3 0).sum →
            v = ((sampleLengths (stepBound + 1) puzzleTwo 2 counter 3 0).sum : ℚ)
              / ((3 : Nat) : ℚ))) :=
  ⟨wellFormed_puzzleTwo, fairWithin_counter,
    ratepuzzle_spec puzzleTwo wellFormed_puzzleTwo 3 (by decide) (stepBound + 1) 2 counter 0
      fairWithin_counter (Nat.lt_add_one stepBound)⟩

theorem ratepuzzle_puzzleTwo : ratepuzzle 2 puzzleTwo 1 2 counter 0 = some (1, 18) := by
  unfold ratepuzzle
  rw [ratepuzzleLoop, solveboard_puzzleTwo]
  dsimp only
  rw [ratepuzzleLoop]
  have h1 : jsDiv (0 + [frameTwo].length) 1 = 1 := by
    have := jsDiv_mul 1 1 (by decide)
    simpa using this
  rw [h1]

/-- C10, refuted as stated: the board `puzzleTwo` has two distinct valid
completions, and `ratepuzzle(puzzleTwo, 1)` returns 1, not -1. -/
theorem ratepuzzle_nonunique_counterexample :
    WellFormed puzzleTwo ∧ gridA ≠ gridB ∧ Completion puzzleTwo gridA ∧
      Completion puzzleTwo gridB ∧ ratepuzzle 2 puzzleTwo 1 2 counter 0 = some (1, 18) :=
  ⟨wellFormed_puzzleTwo, gridA_ne_gridB, completion_gridA, completion_gridB,
    ratepuzzle_puzzleTwo⟩

/-- C10, amended: on a board with at least two distinct valid completions
`ratepuzzle(board, n)`, `n ≥ 1`, does not test uniqueness: on every sequence
of draws that lets each rejection loop of the shuffle end within a bound
`tries` it returns the JavaScript quotient `total / n` of the sum of the stack
lengths of its `n` runs, a non-negative number and not -1. -/
theorem ratepuzzle_nonunique (board : Board) (hb : WellFormed board)
    (h2 : ∃ S1 S2, S1 ≠ S2 ∧ Completion board S1 ∧ Completion board S2) (n : Nat)
    (hn : 1 ≤ n) (fuel tries : Nat) (rng : Nat → Nat) (k : Nat) (hfair : FairWithin rng tries)
    (hfuel : stepBound < fuel) :
    ∃ v k', ratepuzzle fuel board n tries rng k = some (v, k') ∧ 0 ≤ v ∧ v ≠ -1 ∧
      v = jsDiv (sampleLengths fuel board tries rng n k).sum n := by
  obtain ⟨S1, _, _, hS1, _⟩ := h2
  obtain ⟨k', hk', _⟩ :=
    ratepuzzleLoop_spec fuel board n tries rng hfair hb hfuel ⟨S1, hS1⟩ n 0 k
  rw [Nat.zero_add] at hk'
  have hnonneg := jsDiv_nonneg (sampleLengths fuel board tries rng n k).sum n
  refine ⟨_, k', hk', hnonneg, fun hv => ?_, rfl⟩
  rw [hv] at hnonneg
  norm_num at hnonneg

theorem ratepuzzle_nonunique_witness :
    Completion puzzleTwo gridA ∧ Completion puzzleTwo gridB ∧ FairWithin counter 2 ∧
      ∃ v k', ratepuzzle (stepBound + 1) puzzleTwo 3 2 counter 0 = some (v, k') ∧ 0 ≤ v ∧
        v ≠ -1 ∧ v = jsDiv (sampleLengths (stepBound + 1) puzzleTwo 2 counter 3 0).sum 3 :=
  ⟨completion_gridA, completion_gridB, fairWithin_counter,
    ratepuzzle_nonunique puzzleTwo wellFormed_puzzleTwo
      ⟨gridA, gridB, gridA_ne_gridB, completion_gridA, completion_gridB⟩ 3 (by decide)
      (stepBound + 1) 2 counter 0 fairWithin_counter (Nat.lt_add_one stepBound)⟩

/-! ## The counted search and the search -/

/-- Dropping the counters of `solvenextPushed` gives `solvenext`. -/
theorem solvenextPushed_fst (tries : Nat) (rng : Nat → Nat) (fuel : Nat) :
    ∀ (st : List Frame) (k fresh again : Nat),
      (solvenextPushed tries rng fuel st k fresh again).map Prod.fst
        = solvenext tries rng fuel st k := by
  induction fuel with
  | zero => intro st k fresh again; rfl
  | succ fuel ih =>
    intro st k fresh again
    cases st with
    | nil => rfl
    | cons tuple1 remembered =>
      rw [solvenextPushed, solvenext]
      cases hc : tuple1.guesses[tuple1.count]? with
      | none => exact ih _ _ _ _
      | some tuple2 =>
        dsimp only
        cases hd : deduce (tuple1.board.set tuple2.pos (some tuple2.num)) tries rng k with
        | none => rfl
        | some r =>
          dsimp only
          cases hg : r.guesses with
          | none => rfl
          | some guesses => exact ih _ _ _ _

/-- Dropping the counters of `solveboardPushed` gives `solveboard`. -/
theorem solveboardPushed_fst (fuel : Nat) (original : Board) (tries : Nat) (rng : Nat → Nat)
    (k : Nat) :
    (solveboardPushed fuel original tries rng k).map Prod.fst
      = solveboard fuel original tries rng k := by
  unfold solveboardPushed solveboard
  cases hd : deduce original tries rng k with
  | none => rfl
  | some r =>
    dsimp only
    cases hg : r.guesses with
    | none => rfl
    | some guesses => exact solvenextPushed_fst tries rng fuel _ _ _ _

/-- A non-empty stack returned by `solveboard` shows that `deduce` ended on a
non-empty candidate list. -/
theorem solveboard_state_guess (fuel : Nat) (board : Board) (tries : Nat) (rng : Nat → Nat)
    (k : Nat) (res : Solved) (h : solveboard fuel board tries rng k = some res)
    (hst : res.state ≠ []) :
    ∃ d g, deduce board tries rng k = some d ∧ d.guesses = some g ∧ g ≠ [] := by
  unfold solveboard at h
  cases hd : deduce board tries rng k with
  | none => rw [hd] at h; simp at h
  | some r =>
    rw [hd] at h
    dsimp only at h
    cases hg : r.guesses with
    | none =>
      rw [hg] at h
      simp only [Option.some.injEq] at h
      subst h
      exact absurd rfl hst
    | some g =>
      refine ⟨r, g, rfl, hg, ?_⟩
      rintro rfl
      rw [hg] at h
      cases fuel with
      | zero => simp [solvenext] at h
      | succ fuel =>
        cases fuel with
        | zero => simp [solvenext] at h
        | succ fuel =>
          simp only [solvenext, List.getElem?_nil, Option.some.injEq] at h
          subst h
          exact absurd rfl hst

theorem wellFormed_hard1 : WellFormed hard1 := by decide!

theorem solveboardPushed_of_guess (fuel : Nat) (b : Board) (tries : Nat) (rng : Nat → Nat)
    (k : Nat) (g : List Cand) (b1 : Board) (k1 : Nat)
    (h : deduce b tries rng k = some { guesses := some g, board := b1, k := k1 }) :
    solveboardPushed fuel b tries rng k
      = solvenextPushed tries rng fuel [{ guesses := g, count := 0, board := b1 }] k1 1 0 := by
  unfold solveboardPushed
  rw [h]

theorem solvenextPushed_pop (tries : Nat) (rng : Nat → Nat) (fuel : Nat) (g : List Cand)
    (c : Nat) (b : Board) (rest : List Frame) (k fresh again : Nat) (h : g[c]? = none) :
    solvenextPushed tries rng (fuel + 1) ({ guesses := g, count := c, board := b } :: rest) k
        fresh again
      = solvenextPushed tries rng fuel rest k fresh again := by
  rw [solvenextPushed]
  dsimp only
  rw [h]

theorem solvenextPushed_found (tries : Nat) (rng : Nat → Nat) (fuel : Nat) (g : List Cand)
    (c : Nat) (b : Board) (rest : List Frame) (k fresh again p n : Nat) (A : Board) (k1 : Nat)
    (h : g[c]? = some { pos := p, num := n })
    (hd : deduce (b.set p (some n)) tries rng k = some { guesses := none, board := A, k := k1 }) :
    solvenextPushed tries rng (fuel + 1) ({ guesses := g, count := c, board := b } :: rest) k
        fresh again
      = some ({ state := { guesses := g, count := c + 1, board := b } :: rest,
                answer := some A, k := k1 }, fresh, again + 1) := by
  rw [solvenextPushed]
  dsimp only
  rw [h]
  dsimp only
  rw [hd]

theorem solvenextPushed_push (tries : Nat) (rng : Nat → Nat) (fuel : Nat) (g : List Cand)
    (c : Nat) (b : Board) (rest : List Frame) (k fresh again p n : Nat) (g1 : List Cand)
    (b1 : Board) (k1 : Nat) (h : g[c]? = some { pos := p, num := n })
    (hd : deduce (b.set p (some n)) tries rng k
      = some { guesses := some g1, board := b1, k := k1 }) :
    solvenextPushed tries rng (fuel + 1) ({ guesses := g, count := c, board := b } :: rest) k
        fresh again
      = solvenextPushed tries rng fuel
          ({ guesses := g1, count := 0, board := b1 }
            :: { guesses := g, count := c + 1, board := b } :: rest) k1 (fresh + 1)
          (again + 1) := by
  rw [solvenextPushed]
  dsimp only
  rw [h]
  dsimp only
  rw [hd]

theorem pass_hard1 :
    deducePass counter hard1 0
      = .ok { board := hard1, stuck := true, guess := some guessHard, count := 52, k := 51 } := by
  decide!

theorem shuffle_guessHard : shuffleArray guessHard 2 counter 51 = some (guessHard, 54) := by
  decide!

theorem pass_hard1_zero :
    deducePass counter (hard1.set 24 (some 0)) 54
      = .ok { board := hard1b, stuck := false, guess := none, count := 0, k := 54 } := by
  decide!

theorem pass_hard1b :
    deducePass counter hard1b 54
      = .error { board := hard1c, stuck := false, guess := some [⟨27, 1⟩, ⟨27, 4⟩], count := 1,
                 k := 54 } := by
  decide!

theorem pass_hard1_five :
    deducePass counter (hard1.set 24 (some 5)) 54
      = .ok { board := hard1d, stuck := false, guess := none, count := 0, k := 54 } := by
  decide!

theorem pass_hard1d :
    deducePass counter hard1d 54
      = .ok { board := hard1e, stuck := false, guess := some [⟨27, 1⟩, ⟨27, 4⟩], count := 4,
              k := 57 } := by
  decide!

theorem pass_hard1e :
    deducePass counter hard1e 57
      = .ok { board := gridA, stuck := false, guess := none, count := 0, k := 57 } := by
  decide!

theorem deduce_hard1 :
    deduce hard1 2 counter 0 = some { guesses := some guessHard, board := hard1, k := 54 } :=
  deduceLoop_guess 2 counter 81 hard1 0 hard1 guessHard guessHard 52 51 54 pass_hard1
    shuffle_guessHard

theorem deduce_hard1_zero :
    deduce (hard1.set 24 (some 0)) 2 counter 54
      = some { guesses := some [], board := hard1c, k := 54 } :=
  (deduceLoop_step 2 counter 81 _ 54 hard1b none 0 54 pass_hard1_zero).trans
    (deduceLoop_error 2 counter 80 hard1b 54 hard1c false _ 1 54 pass_hard1b)

theorem deduce_hard1_five :
    deduce (hard1.set 24 (some 5)) 2 counter 54
      = some { guesses := none, board := gridA, k := 57 } :=
  (deduceLoop_step 2 counter 81 _ 54 hard1d none 0 54 pass_hard1_five).trans
    ((deduceLoop_step 2 counter 80 hard1d 54 hard1e _ 4 57 pass_hard1d).trans
      ((deduceLoop_step 2 counter 79 hard1e 57 gridA none 0 57 pass_hard1e).trans
        (deduceLoop_done 2 counter 78 gridA 57 gridA 0 57
          (deducePass_full counter gridA 57 validGrid_gridA))))

theorem solveboardPushed_hard1 :
    solveboardPushed 3 hard1 2 counter 0
      = some ({ state := [frameHard], answer := some gridA, k := 57 }, 2, 2) :=
  (solveboardPushed_of_guess 3 hard1 2 counter 0 guessHard hard1 54 deduce_hard1).trans
    ((solvenextPushed_push 2 counter 2 guessHard 0 hard1 [] 54 1 0 24 0 [] hard1c 54 rfl
        deduce_hard1_zero).trans
      ((solvenextPushed_pop 2 counter 1 [] 0 hard1c _ 54 2 1 rfl).trans
        (solvenextPushed_found 2 counter 0 guessHard 1 hard1 [] 54 2 1 24 5 gridA 57 rfl
          deduce_hard1_five)))

theorem solveboard_hard1 :
    solveboard 3 hard1 2 counter 0
      = some { state := [frameHard], answer := some gridA, k := 57 } := by
  exact (solveboardPushed_fst 3 hard1 2 counter 0).symm.trans
    (congrArg (Option.map Prod.fst) solveboardPushed_hard1)

theorem solvenext_hard1 :
    solvenext 2 counter 3 [frameHard] 57 = some { state := [], answer := none, k := 57 } := by
  rfl

/-- What `checkpuzzle` without a reference board returns when `solveboard`
finds an answer and the resumed search finds none. -/
theorem checkpuzzle_of_solved (fuel : Nat) (puzzle : Board) (tries : Nat) (rng : Nat → Nat)
    (k : Nat) (st : List Frame) (A : Board) (k1 k2 : Nat)
    (h1 : solveboard fuel puzzle tries rng k = some { state := st, answer := some A, k := k1 })
    (h2 : solvenext tries rng fuel st k1 = some { state := [], answer := none, k := k2 }) :
    checkpuzzle fuel puzzle none tries rng k = some ((st.length : Int), k2) := by
  unfold checkpuzzle
  rw [h1]
  dsimp only
  rw [h2]
  rfl

theorem checkpuzzle_hard1 : checkpuzzle 3 hard1 none 2 counter 0 = some (1, 57) :=
  checkpuzzle_of_solved 3 hard1 2 counter 0 [frameHard] gridA 57 57 solveboard_hard1
    solvenext_hard1

theorem completion_hard1 :
    Completion hard1 gridA ∧ ∀ S, Completion hard1 S → S = gridA := by
  obtain ⟨A, hA, huniq, _⟩ :=
    checkpuzzle_accept 3 hard1 none 2 counter 0 57 1 wellFormed_hard1 checkpuzzle_hard1
      (by decide)
  have hgA : Completion hard1 gridA := by
    obtain ⟨hv, hag, _⟩ :=
      (solveboard_spec 2 counter 3 hard1 0 _ wellFormed_hard1 solveboard_hard1).2.1 gridA rfl
    exact ⟨hv, hag⟩
  have hAeq : gridA = A := huniq gridA hgA
  exact ⟨hgA, fun S hS => (huniq S hS).trans hAeq.symm⟩

/-- On the draws `zeros`, `checkpuzzle` has no result on a well-formed board
on which `solveboard` returns a non-empty stack under some draws. -/
theorem checkpuzzle_zeros_of_state (fuel0 : Nat) (board : Board) (tries0 : Nat)
    (rng0 : Nat → Nat) (k0 : Nat) (res : Solved) (hb : WellFormed board)
    (h : solveboard fuel0 board tries0 rng0 k0 = some res) (hst : res.state ≠ [])
    (fuel tries : Nat) (reference : Option Board) (k : Nat) :
    checkpuzzle fuel board reference tries zeros k = none := by
  obtain ⟨d, g, hd, hg, hne⟩ := solveboard_state_guess fuel0 board tries0 rng0 k0 res h hst
  unfold checkpuzzle
  rw [solveboard_zeros tries0 rng0 board k0 d g hb hd hg hne]

/-! ## The claims about the difficulty -/

/-- C5, refuted as stated: the board `hard1` has exactly one valid completion,
`gridA`, yet on the draws that are all 0 `checkpuzzle`, with or without a
reference board, returns nothing whatever the budgets: the rejection loop of
the shuffle of the two candidates of cell 24 does not end. -/
theorem checkpuzzle_unique_counterexample :
    WellFormed hard1 ∧ Completion hard1 gridA ∧ (∀ S, Completion hard1 S → S = gridA) ∧
      ¬ ∃ (fuel tries : Nat) (reference : Option Board) (r : Int × Nat),
        checkpuzzle fuel hard1 reference tries zeros 0 = some r := by
  refine ⟨wellFormed_hard1, completion_hard1.1, completion_hard1.2, ?_⟩
  rintro ⟨fuel, tries, reference, r, h⟩
  rw [checkpuzzle_zeros_of_state 3 hard1 2 counter 0 _ wellFormed_hard1 solveboard_hard1
    (List.cons_ne_nil _ _)] at h
  exact Option.noConfusion h

end Sudoku
